import Mathlib

/-!
Shallow embedding of the ConnectionScam repository (reverse Connection Scan
Algorithm with probabilistic journey reconstruction) and proofs about it.

Modelling conventions used throughout:

* `datetime` values are modelled as `Int` minutes since an arbitrary epoch;
  `timedelta` values as `Int` minutes.  All times appearing in the programs
  under scrutiny are whole minutes (walk times are ceiled to minutes by
  `min_to_timedelta`, and the claims only involve whole-minute timetables).
* Python's `(a - b).seconds // 60` on two whole-minute datetimes equals
  `(a - b).emod 1440`: `timedelta` normalises to `days` plus a `seconds`
  component in `[0, 86400)`, and `.seconds` is that (always non-negative)
  component.  This wrap-around behaviour is modelled faithfully by
  `pyDeltaMin`.
* `float` probabilities and coordinates are modelled as `ℚ`.
* Python exceptions are modelled by the `Except PyErr` monad: a raised
  exception aborts the whole computation, so a function of the source that
  can raise returns `PyRes α` here.
* Python dictionaries are modelled as functions into `Option`.
* Python `==` on `Connection` objects is object identity (the class defines
  no `__eq__`); in the scan each connection record is a distinct object, so
  identity is modelled by structural equality together with distinctness
  hypotheses where the distinction matters.
-/

/-- Kinds of Python runtime errors that the embedded code can raise.  The
distinction between kinds is irrelevant to the claims; they are kept apart
for readability.  `fuelErr` is not a Python error: it marks exhaustion of
the structural-recursion fuel used to embed the recursive reconstruction,
and is unreachable for sufficiently large fuel. -/
inductive PyErr where
  | typeErr
  | nameErr
  | valueErr
  | attrErr
  | indexErr
  | fuelErr
deriving DecidableEq, Repr

/-- Result type of embedded Python computations that can raise. -/
abbrev PyRes (α : Type) : Type := Except PyErr α

/-- Python's `(a - b).seconds // 60` for whole-minute datetimes `a`, `b`
given in minutes: the `seconds` component of a `timedelta` is its value
modulo one day (always non-negative), so in minutes this is the difference
modulo 1440. -/
def pyDeltaMin (a b : Int) : Int := (a - b).emod 1440

/-- Python's `math.ceil` on a rational number of minutes, as used by
`min_to_timedelta` in `connection_scan.py`. -/
def pyCeil (q : ℚ) : Int := ⌈q⌉

/-- Discrete delay distribution, from `distribution.py`: a list of delay
values (minutes), a list of probabilities of the same length, and an id. -/
structure Distribution where
  times : List Int
  probas : List ℚ
  distrId : Nat
deriving DecidableEq, Repr

/-- Value of the sum computed by `Distribution.cdf` for a non-negative
delay: `sum([self.probas[i] for i, t in enumerate(self.times) if t <= delay], 0)`.
For lists of equal length (the constructor of `Distribution` rejects
anything else) this is the sum over the zipped lists. -/
def Distribution.cdfSum (D : Distribution) (delay : Int) : ℚ :=
  (((D.times.zip D.probas).filter (fun tp => tp.1 ≤ delay)).map (fun tp => tp.2)).sum

/-- Embedding of `Distribution.cdf` from `distribution.py`.  On a negative
delay the source executes `raise VaueError(...)`; `VaueError` is an
undefined name, so what is actually raised at run time is a `NameError` —
either way the call fails with an error instead of returning a value. -/
def Distribution.cdf (D : Distribution) (delay : Int) : PyRes ℚ :=
  if delay < 0 then .error .nameErr else .ok (D.cdfSum delay)

/-- Helper identifying the list-level sum computed by `cdfSum` with an
index-level sum over the positions of `times`. -/
theorem cdfSum_eq_fin_sum (ts : List Int) (ps : List ℚ)
    (h : ts.length = ps.length) (d : Int) :
    (((ts.zip ps).filter (fun tp => tp.1 ≤ d)).map (fun tp => tp.2)).sum
      = ∑ i : Fin ts.length, if ts.get i ≤ d then ps.getD i 0 else 0 := by
  induction ts generalizing ps with
  | nil => simp
  | cons a as ih =>
      cases ps with
      | nil => simp at h
      | cons b bs =>
          have h' : as.length = bs.length := by simpa using h
          rw [List.zip_cons_cons, List.filter_cons]
          have hsucc : ∀ f : Fin (a :: as).length → ℚ,
              (∑ i : Fin (a :: as).length, f i)
                = f ⟨0, Nat.succ_pos _⟩ + ∑ i : Fin as.length, f i.succ := by
            intro f
            exact Fin.sum_univ_succ f
          rw [hsucc]
          by_cases hle : a ≤ d
          · rw [if_pos (by simpa using hle)]
            simp only [List.map_cons, List.sum_cons]
            have h0 : (a :: as).get ⟨0, Nat.succ_pos _⟩ = a := rfl
            rw [h0, if_pos hle, ih bs h']
            congr 1
          · rw [if_neg (by simpa using hle)]
            have h0 : (a :: as).get ⟨0, Nat.succ_pos _⟩ = a := rfl
            rw [h0, if_neg hle, zero_add, ih bs h']
            apply Finset.sum_congr rfl
            intro i _
            rfl

/-- C7: for every Distribution with matching list lengths and every
non-negative integer `d`, `cdf d` returns the sum of `probas[i]` over
exactly the indices `i` with `times[i] ≤ d`; for every negative `d`,
`cdf d` fails with an error instead of returning a value. -/
theorem cdf_sums_exactly_admissible_indices (D : Distribution)
    (hlen : D.times.length = D.probas.length) (d : Int) :
    (0 ≤ d → D.cdf d =
      .ok (∑ i : Fin D.times.length,
            if D.times.get i ≤ d then D.probas.getD i 0 else 0)) ∧
    (d < 0 → ∃ e, D.cdf d = .error e) := by
  constructor
  · intro hd
    have hneg : ¬ d < 0 := not_lt.mpr hd
    simp only [Distribution.cdf, hneg, if_false, Except.ok.injEq]
    exact cdfSum_eq_fin_sum D.times D.probas hlen d
  · intro hd
    exact ⟨.nameErr, by simp [Distribution.cdf, hd]⟩

/-- Witness for C7 at a concrete distribution: the result sums exactly the
probabilities at indices whose delay is at most 5, and a negative delay
yields an error. -/
theorem cdf_sums_exactly_admissible_indices_witness :
    (Distribution.mk [0, 7, 3] [(1:ℚ)/2, 1/4, 1/8] 0).cdf 5 = .ok (5/8) ∧
    ∃ e, (Distribution.mk [0, 7, 3] [(1:ℚ)/2, 1/4, 1/8] 0).cdf (-1) = .error e := by
  constructor
  · rw [(cdf_sums_exactly_admissible_indices
      (Distribution.mk [0, 7, 3] [(1:ℚ)/2, 1/4, 1/8] 0) (by decide) 5).1 (by decide)]
    refine congrArg Except.ok ?_
    show (∑ i : Fin 3,
        if ([0, 7, 3] : List Int).get i ≤ 5
        then [(1:ℚ)/2, 1/4, 1/8].getD i 0 else 0) = 5/8
    rw [Fin.sum_univ_three]
    norm_num
  · exact (cdf_sums_exactly_admissible_indices
      (Distribution.mk [0, 7, 3] [(1:ℚ)/2, 1/4, 1/8] 0) (by decide) (-1)).2 (by decide)

/-- Connection record from `connections.py`.

Modelled from the spec: the `distributionId` field.  `connection_scan.py`
constructs every `Connection` with a trailing `distribution_id` argument and
`journey.py` reads a per-segment delay-distribution id, but the copy of
`connections.py` in the repository predates those callers and lacks the
field; spec section 3 defines a Connection as
`(trip_id, mode, dep_stop, arr_stop, dep_time, arr_time, distribution_id)`
plus optional endpoint coordinates, which is followed here.  All other
fields are exactly those of `connections.py`. -/
structure Connection where
  tripId : String
  transportType : String
  depStop : Nat
  arrStop : Nat
  depLat : ℚ
  depLon : ℚ
  arrLat : ℚ
  arrLon : ℚ
  depTime : Int
  arrTime : Int
  distributionId : Nat
deriving DecidableEq, Repr

/-- TripSegment from `connections.py`: a boarded contiguous part of a trip,
given by its first and last connections.  The derived attributes set in
`__init__` are modelled as functions below. -/
structure TripSegment where
  enterConnection : Connection
  exitConnection : Connection
deriving DecidableEq, Repr

/-- Derived `trip_id` attribute of a TripSegment (taken from the entering
connection, as in `TripSegment.__init__`). -/
def TripSegment.tripId (t : TripSegment) : String := t.enterConnection.tripId

/-- Derived `departure_time` attribute of a TripSegment. -/
def TripSegment.departureTime (t : TripSegment) : Int := t.enterConnection.depTime

/-- Derived `arrival_time` attribute of a TripSegment. -/
def TripSegment.arrivalTime (t : TripSegment) : Int := t.exitConnection.arrTime

/-- Modelled from the spec: `TripSegment.delay_distribution_id`, called by
`journey.py` but absent from the stale `connections.py` in the repository.
Per spec section 3 each connection carries a `distribution_id`; the
segment's delay distribution is that of the trip it rides, read from its
entering connection in the same way as `trip_id` and `transport_type`. -/
def TripSegment.delayDistributionId (t : TripSegment) : Nat :=
  t.enterConnection.distributionId

/-- Footpath record from `connections.py`; the walk time is in minutes. -/
structure Footpath where
  depStop : Nat
  arrStop : Nat
  walkTime : Int
deriving DecidableEq, Repr

/-- One element of a journey's segment list: `Union[Footpath, TripSegment]`. -/
inductive Segment where
  | foot (f : Footpath)
  | trip (t : TripSegment)
deriving DecidableEq, Repr

/-- JourneyPointer record from `journey_pointer.py`. -/
structure JourneyPointer where
  arrivalTime : Int
  enterConnection : Option Connection
  exitConnection : Option Connection
  footpath : Option Footpath
deriving DecidableEq, Repr

/-- SortedJourneyList from `sorted_lists.py`: a list of journey pointers
kept in descending order of arrival time. -/
structure SortedJourneyList where
  data : List JourneyPointer
deriving DecidableEq, Repr

/-- Insertion helper for `SortedJourneyList.append`: the source walks the
list and inserts the new element before the first entry whose arrival time
is at most the new element's arrival time, else at the end. -/
def sortedInsert (e : JourneyPointer) : List JourneyPointer → List JourneyPointer
  | [] => [e]
  | x :: xs =>
      if x.arrivalTime ≤ e.arrivalTime then e :: x :: xs else x :: sortedInsert e xs

/-- Embedding of `SortedJourneyList.append`. -/
def SortedJourneyList.append (l : SortedJourneyList) (e : JourneyPointer) :
    SortedJourneyList :=
  ⟨sortedInsert e l.data⟩

/-- Embedding of `SortedJourneyList.remove_earliest_arrival`: drops the last
element (`self.data[:-1]`). -/
def SortedJourneyList.removeEarliestArrival (l : SortedJourneyList) :
    SortedJourneyList :=
  ⟨l.data.dropLast⟩

/-- Journey from `journey.py`.  Mutable-looking private attributes of the
Python object are modelled as explicit fields: `chanceOfSuccess` is the
value stored by `__init__`, `arrTimeMemo` and `depTimeMemo` are the
`(computed?, value)` memo pairs `_arrival_time` and `_departure_time`.
The delay-distribution dictionary is a function into `Option`. -/
structure Journey where
  journeySegments : List Segment
  departureStop : Nat
  arrivalStop : Nat
  coord : ℚ × ℚ × ℚ × ℚ
  targetArrTime : Int
  minConnectionTime : Int
  delayDistributions : Nat → Option Distribution
  chanceOfSuccess : ℚ
  arrTimeMemo : Bool × Option Int
  depTimeMemo : Bool × Option Int

/-- Embedding of `Journey.__init__`: derived stop/probability fields are
computed exactly as in the constructor, and the `_arrival_time` memo is
primed when `arrival_time_at_last_stop` is given. -/
def Journey.make (departureStop arrivalStop : Nat) (coord : ℚ × ℚ × ℚ × ℚ)
    (journeySegments : List Segment) (targetArrivalTime : Int)
    (minConnectionTime : Int) (delayDistributions : Nat → Option Distribution)
    (arrivalTimeAtLastStop : Option Int) (successProbability : Option ℚ) :
    Journey where
  journeySegments := journeySegments
  departureStop := departureStop
  arrivalStop := arrivalStop
  coord := coord
  targetArrTime := targetArrivalTime
  minConnectionTime := minConnectionTime
  delayDistributions := delayDistributions
  chanceOfSuccess := successProbability.getD 1
  arrTimeMemo := match arrivalTimeAtLastStop with
    | some v => (true, some v)
    | none => (false, none)
  depTimeMemo := (false, none)

/-- Derived attribute `current_arrival_stop` computed in `Journey.__init__`
from the last segment (the departure stop for an empty journey). -/
def Journey.currentArrivalStop (j : Journey) : Nat :=
  match j.journeySegments.getLast? with
  | none => j.departureStop
  | some (.foot f) => f.arrStop
  | some (.trip t) => t.exitConnection.arrStop

/-- Derived attribute `reached_destination` computed in `Journey.__init__`. -/
def Journey.reachedDestination (j : Journey) : Bool :=
  j.currentArrivalStop = j.arrivalStop

/-- Embedding of `Journey.__len__`. -/
def Journey.len (j : Journey) : Nat := j.journeySegments.length

/-- Embedding of `Journey.success_probability`: returns the stored
`chance_of_success`. -/
def Journey.successProbability (j : Journey) : ℚ := j.chanceOfSuccess

/-- Embedding of `Journey.target_arrival_time`. -/
def Journey.targetArrivalTime (j : Journey) : Int := j.targetArrTime

/-- Value returned by `Journey.current_arrival_time`.  The method memoises
its result in `_arrival_time`; every branch of the source stores exactly
the value it returns, so the memoised method is modelled by its pure value
function (reading a primed memo first, as the source does).  Two adjacent
footpaths at the tail raise `ValueError`. -/
def Journey.currentArrivalTimeVal (j : Journey) : PyRes (Option Int) :=
  if j.arrTimeMemo.1 then .ok j.arrTimeMemo.2
  else
    match j.journeySegments.getLast? with
    | none => .ok none
    | some (.trip t) => .ok (some t.arrivalTime)
    | some (.foot f) =>
        if j.journeySegments.length = 1 then
          if j.reachedDestination then .ok (some j.targetArrivalTime) else .ok none
        else
          match j.journeySegments.get? (j.journeySegments.length - 2) with
          | some (.trip t) => .ok (some (t.arrivalTime + f.walkTime))
          | _ => .error .valueErr

/-- Embedding of `Journey.departure_time`, returning the result together
with the updated journey, since the method writes the `_departure_time`
memo.  Note the source's single-footpath branch stores `(True, None)` in
the memo while returning `target_arrival_time() - walk_time`. -/
def Journey.departureTime (j : Journey) : PyRes (Option Int × Journey) :=
  if j.depTimeMemo.1 then .ok (j.depTimeMemo.2, j)
  else
    match j.journeySegments with
    | [] => .ok (none, { j with depTimeMemo := (true, none) })
    | .foot f :: rest =>
        match rest with
        | [] => .ok (some (j.targetArrivalTime - f.walkTime),
                     { j with depTimeMemo := (true, none) })
        | .trip t :: _ =>
            .ok (some (t.departureTime - f.walkTime),
                 { j with depTimeMemo := (true, some (t.departureTime - f.walkTime)) })
        | .foot _ :: _ => .error .valueErr
    | .trip t :: _ =>
        .ok (some t.departureTime,
             { j with depTimeMemo := (true, some t.departureTime) })

/-- Lookup of a delay distribution followed by a method call on the result,
as in `self.delay_distributions.get(i).cdf(d)`: a missing key makes the
`.cdf` access raise `AttributeError` on `None`. -/
def lookupDistribution (dd : Nat → Option Distribution) (i : Nat) :
    PyRes Distribution :=
  match dd i with
  | some D => .ok D
  | none => .error .attrErr

/-- Core of `add_segment_to_journey` from `journey.py`: the pair
`(new_success_probability, new_arrival_time_at_last_stop)` that the source
computes before constructing the extended journey, or the Python error the
source would raise (adjacent footpaths, a missing distribution, an
out-of-range negative index). -/
def addSegmentProbArrival (j : Journey) (newSegment : Segment) :
    PyRes (ℚ × Option Int) := do
  match newSegment with
  | .foot fp =>
      if fp.arrStop = j.arrivalStop then do
        match (← j.currentArrivalTimeVal) with
        | some t => do
            let timeToArrive := t + fp.walkTime
            let maxDelay := pyDeltaMin j.targetArrivalTime timeToArrive
            match j.journeySegments.getLast? with
            | some (.trip previousTrip) => do
                let D ← lookupDistribution j.delayDistributions
                  previousTrip.delayDistributionId
                let c ← D.cdf maxDelay
                pure (j.successProbability * c,
                      some (previousTrip.arrivalTime + fp.walkTime))
            | some (.foot _) => throw .attrErr
            | none => throw .indexErr
        | none => pure (j.successProbability, some j.targetArrivalTime)
      else pure (j.successProbability, none)
  | .trip ts => do
      match (← j.currentArrivalTimeVal) with
      | some _ => do
          let (previousTrip, arrivalTimeAtNewConnection) ←
            match j.journeySegments.getLast? with
            | some (.trip pt) => pure (pt, pt.arrivalTime)
            | some (.foot f) =>
                match j.journeySegments.get? (j.journeySegments.length - 2) with
                | some (.trip pt) => pure (pt, pt.arrivalTime + f.walkTime)
                | some (.foot _) => throw .attrErr
                | none => throw .indexErr
            | none => throw .indexErr
          let D ← lookupDistribution j.delayDistributions
            previousTrip.delayDistributionId
          let maxDelay := pyDeltaMin ts.departureTime arrivalTimeAtNewConnection
          let c ← D.cdf maxDelay
          pure (j.successProbability * c, some ts.arrivalTime)
      | none => pure (j.successProbability, some ts.arrivalTime)

/-- Embedding of `add_segment_to_journey` from `journey.py`: compute the
updated probability and arrival time, then construct the extended journey
exactly as the source's final `Journey(...)` call does. -/
def addSegmentToJourney (j : Journey) (newSegment : Segment) : PyRes Journey := do
  let pa ← addSegmentProbArrival j newSegment
  return Journey.make j.departureStop j.arrivalStop j.coord
    (j.journeySegments ++ [newSegment]) j.targetArrivalTime j.minConnectionTime
    j.delayDistributions pa.2 (some pa.1)

/-- C10: for a Journey whose segment list is exactly one Footpath, the first
call to `departure_time()` returns `target_arrival_time − walk_time` while
caching `(True, None)`, so every subsequent call returns `None`:
`departure_time` is not idempotent on such journeys. -/
theorem departureTime_single_footpath_not_idempotent
    (dep arr : Nat) (coord : ℚ × ℚ × ℚ × ℚ) (f : Footpath) (target mct : Int)
    (dd : Nat → Option Distribution) (arrLast : Option Int) (prob : Option ℚ) :
    (Journey.make dep arr coord [.foot f] target mct dd arrLast prob).departureTime
        = .ok (some (target - f.walkTime),
               { Journey.make dep arr coord [.foot f] target mct dd arrLast prob
                   with depTimeMemo := (true, none) })
      ∧ ∀ j2,
        (Journey.make dep arr coord [.foot f] target mct dd arrLast prob).departureTime
            = .ok (some (target - f.walkTime), j2) →
        j2.departureTime = .ok (none, j2) := by
  constructor
  · rfl
  · intro j2 h
    have hj2 : j2 = { Journey.make dep arr coord [.foot f] target mct dd arrLast prob
        with depTimeMemo := (true, none) } := by
      have : (Journey.make dep arr coord [.foot f] target mct dd arrLast prob).departureTime
          = .ok (some (target - f.walkTime),
                 { Journey.make dep arr coord [.foot f] target mct dd arrLast prob
                     with depTimeMemo := (true, none) }) := rfl
      rw [this] at h
      exact ((Prod.mk.injEq _ _ _ _ ▸ (Except.ok.injEq _ _ ▸ h)).2).symm
    subst hj2
    rfl

/-- Witness for C10 at a concrete single-footpath journey: the first call
returns the target arrival time minus the walk time, the second returns
`None`. -/
theorem departureTime_single_footpath_not_idempotent_witness :
    ∃ j2 : Journey,
      (Journey.make 0 1 (0, 0, 0, 0) [.foot ⟨0, 1, 5⟩] 100 1 (fun _ => none)
          none none).departureTime = .ok (some (100 - 5), j2) ∧
      j2.departureTime = .ok (none, j2) := by
  have h := departureTime_single_footpath_not_idempotent 0 1 (0, 0, 0, 0)
    ⟨0, 1, 5⟩ 100 1 (fun _ => none) none none
  exact ⟨_, h.1, h.2 _ h.1⟩

/-- One step of the loop inside `Journey.changes`: the per-index logic of
the source depends only on the current segment and on the segments after
it, so the loop is embedded as a recursion with lookahead.  A trailing
`(t, d)` pair records a TripSegment together with the maximum tolerable
delay computed for it; footpath segments produce no pair.  The branches
are, in source order: last segment; second-to-last with a final footpath;
otherwise the delay until the next trip's departure (walking first if the
next segment is a footpath — a second footpath there has no
`enter_connection` and raises `AttributeError`). -/
def changesGo (target : Int) : List Segment → PyRes (List (TripSegment × Int))
  | [] => .ok []
  | .foot _ :: rest => changesGo target rest
  | [.trip t] => .ok [(t, pyDeltaMin target t.arrivalTime)]
  | [.trip t, .foot f] => do
      let r ← changesGo target [.foot f]
      .ok ((t, pyDeltaMin target (t.arrivalTime + f.walkTime)) :: r)
  | .trip t :: .trip t2 :: rest => do
      let r ← changesGo target (.trip t2 :: rest)
      .ok ((t, pyDeltaMin t2.enterConnection.depTime t.arrivalTime) :: r)
  | .trip t :: .foot f :: .trip t2 :: rest => do
      let r ← changesGo target (.foot f :: .trip t2 :: rest)
      .ok ((t, pyDeltaMin t2.enterConnection.depTime (t.arrivalTime + f.walkTime)) :: r)
  | .trip _ :: .foot _ :: .foot _ :: _ => .error .attrErr

/-- Embedding of `Journey.changes`.  The `precomputed_changes` memo of the
source caches exactly the computed value, so the method is modelled by its
pure value function. -/
def Journey.changes (j : Journey) : PyRes (List (TripSegment × Int)) :=
  changesGo j.targetArrivalTime j.journeySegments

/-- Product over `changes()` of each trip segment's delay distribution's
cdf at the associated maximum delay, the quantity C3 compares with
`success_probability()`. -/
def Journey.changesProduct (j : Journey) : PyRes ℚ := do
  let cs ← j.changes
  cs.foldlM (fun acc td => do
    let D ← lookupDistribution j.delayDistributions td.1.delayDistributionId
    let c ← D.cdf td.2
    return acc * c) 1

/-- Read-only data threaded through the recursive reconstruction of
`journey_parser.follow_path`: the destination, the frontier map, the
per-trip connection lists, the probability cutoff and the ceiled minimum
connection time. -/
structure ReconCtx where
  destination : Nat
  journeyPointers : Nat → Option SortedJourneyList
  tripConnections : String → Option (List Connection)
  minChanceOfSuccess : ℚ
  minConnectionTime : Int

/-- Construction `TripSegment(enter, exit)` where `exit` may be `None`:
`TripSegment.__init__` reads `exit_connection.arr_time`, so a `None` exit
raises `AttributeError`. -/
def mkTripSegment (enter : Connection) (exitc : Option Connection) :
    PyRes TripSegment :=
  match exitc with
  | some ex => .ok ⟨enter, ex⟩
  | none => .error .attrErr

/-- Body run for one admissible candidate pointer `q` of the
alternative-exit scan (source lines 115-155): alight from the current trip
at `c`, walk if the pointer starts with a footpath, board the pointer's
trip if it has one, and follow the resulting journey recursively.  `rec`
is the recursive call to `follow_path`; `newJourney` is the journey
extended by the current pointer's footpath, if any; `pEnter` is the
current pointer's enter connection; `prev` is `previous_trips_taken` as
already extended by `pEnter`'s trip. -/
def altBranch (rec : Journey → List String → PyRes (List Journey))
    (newJourney : Journey) (pEnter : Connection) (c : Connection)
    (prev : List String) (q : JourneyPointer) : PyRes (List Journey) := do
  let altJourney ← addSegmentToJourney newJourney (.trip ⟨pEnter, c⟩)
  let altJourney ←
    match q.footpath with
    | some fp => addSegmentToJourney altJourney (.foot fp)
    | none => pure altJourney
  match q.enterConnection with
  | some ae => do
      let altTrainSegment ← mkTripSegment ae q.exitConnection
      let altJourney2 ← addSegmentToJourney altJourney (.trip altTrainSegment)
      rec altJourney2 (prev ++ [altTrainSegment.tripId])
  | none => rec altJourney prev

/-- Loop over the candidate pointers: per pointer, evaluate the two
admissibility conditions and, when both hold, run `altBranch`. -/
def altPointerLoop (rec : Journey → List String → PyRes (List Journey))
    (newJourney : Journey) (pEnter : Connection) (c : Connection)
    (prev : List String) (minConnectionTime : Int) :
    List JourneyPointer → PyRes (List Journey)
  | [] => .ok []
  | q :: qs => do
      let altJourneyOnAnotherLine : Bool :=
        match q.enterConnection with
        | none => true
        | some ae => decide (ae.tripId ≠ c.tripId)
      let timeToAltStop : Int := minConnectionTime +
        (match q.footpath with
         | some fp => fp.walkTime
         | none => 0)
      let altJourneyCanBeTaken : Bool :=
        match q.enterConnection with
        | none => true
        | some ae => decide (ae.depTime ≥ c.arrTime + timeToAltStop)
      let branch ←
        if altJourneyOnAnotherLine && altJourneyCanBeTaken then
          altBranch rec newJourney pEnter c prev q
        else pure []
      let rest ← altPointerLoop rec newJourney pEnter c prev minConnectionTime qs
      .ok (branch ++ rest)

/-- Body executed for one in-between connection `c` of the alternative-exit
scan (source lines 91-155): fetch the frontier at `c.arr_stop` with an
empty-list default, and iterate over its pointers only when it holds more
than one. -/
def altInspect (rec : Journey → List String → PyRes (List Journey))
    (journeyPointers : Nat → Option SortedJourneyList)
    (newJourney : Journey) (pEnter : Connection) (prev : List String)
    (minConnectionTime : Int) (c : Connection) : PyRes (List Journey) :=
  let cPossiblePaths := ((journeyPointers c.arrStop).getD ⟨[]⟩).data
  if 1 < cPossiblePaths.length then
    altPointerLoop rec newJourney pEnter c prev minConnectionTime cPossiblePaths
  else .ok []

/-- Loop of `follow_path` over the connections of the entered trip (source
lines 84-158), carrying the `found_entry_connection` and
`found_exit_connection` flags.  Per iteration, the source first records
whether the current connection is the exit connection, then runs the
alternative-exit body while `found_entry and not found_exit`, and only
afterwards records whether the current connection is the enter
connection. -/
def connectionLoop (rec : Journey → List String → PyRes (List Journey))
    (journeyPointers : Nat → Option SortedJourneyList)
    (newJourney : Journey) (pEnter : Connection) (pExit : Option Connection)
    (prev : List String) (minConnectionTime : Int) :
    List Connection → Bool → Bool → PyRes (List Journey)
  | [], _, _ => .ok []
  | c :: cs, foundEntry, foundExit => do
      let foundExit := foundExit || decide (pExit = some c)
      let scanned ←
        if foundEntry && !foundExit then
          altInspect rec journeyPointers newJourney pEnter prev minConnectionTime c
        else pure []
      let foundEntry := foundEntry || decide (pEnter = c)
      let rest ← connectionLoop rec journeyPointers newJourney pEnter pExit prev
        minConnectionTime cs foundEntry foundExit
      .ok (scanned ++ rest)

/-- Loop of `follow_path` over the pointers of the current stop's frontier
(source lines 49-176).  The loop threads `previous_trips_taken`, which the
source rebinds at line 75: after a pointer whose enter block ran, later
pointers of the same loop see the extended list. -/
def pointerLoop (rec : Journey → List String → PyRes (List Journey))
    (ctx : ReconCtx) (journeySoFar : Journey) (arrivalAtStart : Option Int) :
    List JourneyPointer → List String → PyRes (List Journey)
  | [], _ => .ok []
  | p :: ps, prev =>
      let timeOk : Bool :=
        match arrivalAtStart with
        | none => true
        | some t => decide (t ≤ p.arrivalTime)
      let tripOk : Bool :=
        match p.enterConnection with
        | none => true
        | some ec => decide (ec.tripId ∉ prev)
      if timeOk && tripOk then do
        let (emitted, newJourney, walkedToEnd) ←
          match p.footpath with
          | some fp => do
              let nj ← addSegmentToJourney journeySoFar (.foot fp)
              if fp.arrStop = ctx.destination then
                pure ([nj], nj, true)
              else
                pure (([] : List Journey), nj, false)
          | none => pure ([], journeySoFar, false)
        match p.enterConnection with
        | some ec =>
            if walkedToEnd then do
              let rest ← pointerLoop rec ctx journeySoFar arrivalAtStart ps prev
              .ok (emitted ++ rest)
            else do
              let prev2 := prev ++ [ec.tripId]
              let conns ←
                match ctx.tripConnections ec.tripId with
                | some cs => pure cs
                | none => throw .valueErr
              let altPaths ← connectionLoop rec ctx.journeyPointers newJourney ec
                p.exitConnection prev2 ctx.minConnectionTime conns false false
              let ts ← mkTripSegment ec p.exitConnection
              let nj2 ← addSegmentToJourney newJourney (.trip ts)
              let normalPaths ← rec nj2 prev2
              let rest ← pointerLoop rec ctx journeySoFar arrivalAtStart ps prev2
              .ok (emitted ++ altPaths ++ normalPaths ++ rest)
        | none => do
            let rest ← pointerLoop rec ctx journeySoFar arrivalAtStart ps prev
            .ok (emitted ++ rest)
      else
        pointerLoop rec ctx journeySoFar arrivalAtStart ps prev

/-- Embedding of `journey_parser.follow_path`.  The recursion of the source
is bounded in fact by the journey-length guard, because every recursive
call receives a strictly longer journey; the embedding makes this explicit
with a fuel parameter whose exhaustion, unreachable for fuel larger than
`max_recursion_depth + 1 - len(journey)`, is reported as `fuelErr`. -/
def followPath (ctx : ReconCtx) (maxRecursionDepth : Int) :
    Nat → Journey → List String → PyRes (List Journey)
  | 0, _, _ => .error .fuelErr
  | fuel + 1, journeySoFar, previousTripsTaken =>
      if journeySoFar.successProbability < ctx.minChanceOfSuccess then .ok []
      else do
        let startingStop := journeySoFar.currentArrivalStop
        let arrivalAtStartingStop ← journeySoFar.currentArrivalTimeVal
        if (journeySoFar.len : Int) > maxRecursionDepth then .ok []
        else if journeySoFar.reachedDestination then .ok [journeySoFar]
        else
          pointerLoop (followPath ctx maxRecursionDepth fuel) ctx journeySoFar
            arrivalAtStartingStop
            ((ctx.journeyPointers startingStop).getD ⟨[]⟩).data
            previousTripsTaken

/-- Comparison of two Python key tuples `(departure_time, -len)` by `>`,
first components first.  A comparison between `None` and a datetime raises
`TypeError` in Python; the `Bool` returned for that mixed case here is
arbitrary and never relied upon (C9 is stated for journeys whose departure
times are all defined). -/
def optIntGt : Option Int → Option Int → Bool
  | some a, some b => decide (b < a)
  | some _, none => true
  | none, some _ => false
  | none, none => false

/-- Python tuple comparison `a >= b` on `(departure_time, -len)` keys. -/
def keyGe (a b : Option Int × Int) : Bool :=
  optIntGt a.1 b.1 || (decide (a.1 = b.1) && decide (b.2 ≤ a.2))

/-- Stable descending insertion: the new element goes after every existing
element whose key is `≥` its own, matching the stable descending order
produced by Python's `sorted(..., reverse=True)`. -/
def insertDesc (x : (Option Int × Int) × Journey) :
    List ((Option Int × Int) × Journey) → List ((Option Int × Int) × Journey)
  | [] => [x]
  | y :: ys => if keyGe y.1 x.1 then y :: insertDesc x ys else x :: y :: ys

/-- Stable descending insertion sort over key/journey pairs.  Python's
`sorted` is the (unique) stable sort for the same total preorder, so the
two agree element by element. -/
def insertionSortDesc (l : List ((Option Int × Int) × Journey)) :
    List ((Option Int × Int) × Journey) :=
  l.foldl (fun acc x => insertDesc x acc) []

/-- Per-element key computation of `sort_journeys`: Python's `sorted` calls
the key function `lambda j: (j.departure_time(), -len(j))` once per list
element, and `departure_time` can raise. -/
def keyJourneys : List Journey → PyRes (List ((Option Int × Int) × Journey))
  | [] => .ok []
  | j :: js => do
      let dt ← j.departureTime
      let rest ← keyJourneys js
      .ok (((dt.1, -(j.len : Int)), j) :: rest)

/-- Embedding of `journey_parser.sort_journeys`: compute each journey's key
`(departure_time(), -len)`, then stable-sort descending by the key. -/
def sortJourneys (journeys : List Journey) : PyRes (List Journey) := do
  let keyed ← keyJourneys journeys
  return (insertionSortDesc keyed).map (fun kj => kj.2)

/-- Embedding of `journey_parser.find_resulting_paths`: build the empty
start journey and run `follow_path` from the source, then sort.  The fuel
`max_recursion_depth + 2` is enough for the start journey of length 0
(each recursive call strictly lengthens the journey and calls with length
above `max_recursion_depth` return at once). -/
def findResultingPaths (source destination : Nat) (srcCoord dstCoord : ℚ × ℚ)
    (targetArrival : Int) (minConnectionTime : ℚ)
    (journeyPointers : Nat → Option SortedJourneyList)
    (tripConnections : String → Option (List Connection))
    (delayDistributions : Nat → Option Distribution)
    (minChanceOfSuccess : ℚ) (maxRecursionDepth : Int) : PyRes (List Journey) := do
  let coords := (srcCoord.1, srcCoord.2, dstCoord.1, dstCoord.2)
  let minCoTime := pyCeil minConnectionTime
  let startJourney := Journey.make source destination coords [] targetArrival
    minCoTime delayDistributions none (some 1)
  let ctx : ReconCtx :=
    ⟨destination, journeyPointers, tripConnections, minChanceOfSuccess, minCoTime⟩
  let js ← followPath ctx maxRecursionDepth (maxRecursionDepth.toNat + 2)
    startJourney []
  sortJourneys js

/-- Connections for which the alternative-exit body of `connectionLoop`
runs, computed by the same flag discipline as the loop itself: record the
exit before the body, the entry after it. -/
def scannedList (pEnter : Connection) (pExit : Option Connection) :
    List Connection → Bool → Bool → List Connection
  | [], _, _ => []
  | c :: cs, foundEntry, foundExit =>
      let foundExit := foundExit || decide (pExit = some c)
      let here := if foundEntry && !foundExit then [c] else []
      let foundEntry := foundEntry || decide (pEnter = c)
      here ++ scannedList pEnter pExit cs foundEntry foundExit

/-- Sequential monadic concatenation of the results of `f` over a list,
aborting at the first error, as a Python loop accumulating into a list
does. -/
def exceptFlatMap (f : Connection → PyRes (List Journey)) :
    List Connection → PyRes (List Journey)
  | [] => .ok []
  | c :: cs => do
      let r ← f c
      let rest ← exceptFlatMap f cs
      .ok (r ++ rest)

/-- Decomposition of the connection loop: its output is the concatenation
of the alternative-exit body over exactly the connections selected by the
flag discipline. -/
theorem connectionLoop_eq_flatMap_scanned
    (rec : Journey → List String → PyRes (List Journey))
    (jps : Nat → Option SortedJourneyList) (nj : Journey) (ec : Connection)
    (xc : Option Connection) (prev : List String) (mct : Int)
    (conns : List Connection) :
    ∀ fe fx,
      connectionLoop rec jps nj ec xc prev mct conns fe fx
        = exceptFlatMap (altInspect rec jps nj ec prev mct)
            (scannedList ec xc conns fe fx) := by
  induction conns with
  | nil => intro fe fx; rfl
  | cons c cs ih =>
      intro fe fx
      simp only [connectionLoop, scannedList]
      by_cases hguard : (fe && !(fx || decide (xc = some c))) = true
      · rw [if_pos hguard, if_pos hguard]
        simp only [exceptFlatMap, List.singleton_append]
        cases h : altInspect rec jps nj ec prev mct c with
        | error e => rfl
        | ok r =>
            simp only [bind, Except.bind]
            rw [ih]
            rfl
      · rw [if_neg hguard, if_neg hguard]
        simp only [List.nil_append]
        simp only [bind, Except.bind, pure, Except.pure]
        rw [ih]
        cases hfm : exceptFlatMap (altInspect rec jps nj ec prev mct)
            (scannedList ec xc cs (fe || decide (ec = c)) (fx || decide (xc = some c))) with
        | error e => rfl
        | ok r => simp

/-- Connections before the entry connection are not scanned and leave the
flags untouched, as long as neither sentinel occurs among them. -/
theorem scannedList_skips_before_entry (ec xc : Connection) (pre rest : List Connection)
    (h1 : ec ∉ pre) (h2 : xc ∉ pre) :
    scannedList ec (some xc) (pre ++ rest) false false
      = scannedList ec (some xc) rest false false := by
  induction pre with
  | nil => rfl
  | cons c cs ih =>
      have hec : ec ≠ c := fun h => h1 (h ▸ List.mem_cons_self c cs)
      have hxc : xc ≠ c := fun h => h2 (h ▸ List.mem_cons_self c cs)
      simp only [List.cons_append, scannedList]
      have e1 : (false || decide ((some xc : Option Connection) = some c)) = false := by
        simp [hxc]
      have e2 : (false || decide (ec = c)) = false := by simp [hec]
      rw [e1, e2]
      simp only [Bool.false_and, if_neg (by simp : ¬ (false && !false) = true),
        List.nil_append]
      exact ih (fun h => h1 (List.mem_cons_of_mem c h))
        (fun h => h2 (List.mem_cons_of_mem c h))

/-- After the entry flag is set, every connection up to the first
occurrence of the exit connection is scanned. -/
theorem scannedList_takes_mid (ec xc : Connection) (mid rest : List Connection)
    (h4 : xc ∉ mid) :
    scannedList ec (some xc) (mid ++ rest) true false
      = mid ++ scannedList ec (some xc) rest true false := by
  induction mid with
  | nil => rfl
  | cons c cs ih =>
      have hxc : xc ≠ c := fun h => h4 (h ▸ List.mem_cons_self c cs)
      simp only [List.cons_append, scannedList]
      have ihh := ih (fun h => h4 (List.mem_cons_of_mem c h))
      simp only [List.append_eq] at ihh ⊢
      simp [hxc, ihh]

/-- Once the exit flag is set nothing further is scanned. -/
theorem scannedList_after_exit (ec xc : Connection) (post : List Connection) :
    ∀ fe, scannedList ec (some xc) post fe true = [] := by
  induction post with
  | nil => intro fe; rfl
  | cons c cs ih =>
      intro fe
      simp only [scannedList, Bool.true_or]
      simp only [Bool.not_true, Bool.and_false,
        if_neg (by simp : ¬ (fe && false) = true), List.nil_append]
      exact ih _

/-- C1: for a frontier pointer whose enter connection `ec` and exit
connection `xc` occur in the trip's connection list as
`pre ++ ec :: mid ++ xc :: post` (neither sentinel occurring earlier than
shown), the alternative-exit scan selects exactly the connections `mid`
strictly between them, and the loop's output is the concatenation, over
each such connection `c`, of the body that inspects the frontier at
`c.arr_stop` (iterating over its candidate pointers whenever it holds more
than one). -/
theorem altScan_considers_strictly_between
    (rec : Journey → List String → PyRes (List Journey))
    (jps : Nat → Option SortedJourneyList) (nj : Journey)
    (ec xc : Connection) (prev : List String) (mct : Int)
    (pre mid post : List Connection)
    (h1 : ec ∉ pre) (h2 : xc ∉ pre) (h3 : xc ≠ ec) (h4 : xc ∉ mid) :
    scannedList ec (some xc) (pre ++ ec :: (mid ++ xc :: post)) false false = mid
    ∧ connectionLoop rec jps nj ec (some xc) prev mct
        (pre ++ ec :: (mid ++ xc :: post)) false false
      = exceptFlatMap (altInspect rec jps nj ec prev mct) mid := by
  have hmid : scannedList ec (some xc) (mid ++ xc :: post) true false = mid := by
    rw [scannedList_takes_mid ec xc mid _ h4]
    have hxcstep : scannedList ec (some xc) (xc :: post) true false = [] := by
      simp only [scannedList]
      simp [scannedList_after_exit]
    rw [hxcstep]
    simp
  have hecstep : scannedList ec (some xc) (ec :: (mid ++ xc :: post)) false false
      = scannedList ec (some xc) (mid ++ xc :: post) true false := by
    simp only [scannedList]
    simp [h3]
  have hscan : scannedList ec (some xc) (pre ++ ec :: (mid ++ xc :: post)) false false
      = mid := by
    rw [scannedList_skips_before_entry ec xc pre _ h1 h2, hecstep, hmid]
  exact ⟨hscan, by
    rw [connectionLoop_eq_flatMap_scanned, hscan]⟩

/-- Witness for C1 on a concrete three-connection trip: with the pointer
entering at the first connection and exiting at the third, exactly the
middle connection is scanned and the loop output is the body applied to
it. -/
theorem altScan_considers_strictly_between_witness :
    scannedList ⟨"T", "bus", 0, 1, 0, 0, 0, 0, 10, 12, 0⟩
        (some ⟨"T", "bus", 2, 3, 0, 0, 0, 0, 14, 16, 0⟩)
        [⟨"T", "bus", 0, 1, 0, 0, 0, 0, 10, 12, 0⟩,
         ⟨"T", "bus", 1, 2, 0, 0, 0, 0, 12, 14, 0⟩,
         ⟨"T", "bus", 2, 3, 0, 0, 0, 0, 14, 16, 0⟩] false false
      = [⟨"T", "bus", 1, 2, 0, 0, 0, 0, 12, 14, 0⟩]
    ∧ connectionLoop (fun _ _ => .ok []) (fun _ => none)
        (Journey.make 0 3 (0, 0, 0, 0) [] 100 1 (fun _ => none) none none)
        ⟨"T", "bus", 0, 1, 0, 0, 0, 0, 10, 12, 0⟩
        (some ⟨"T", "bus", 2, 3, 0, 0, 0, 0, 14, 16, 0⟩) [] 1
        [⟨"T", "bus", 0, 1, 0, 0, 0, 0, 10, 12, 0⟩,
         ⟨"T", "bus", 1, 2, 0, 0, 0, 0, 12, 14, 0⟩,
         ⟨"T", "bus", 2, 3, 0, 0, 0, 0, 14, 16, 0⟩] false false
      = exceptFlatMap (altInspect (fun _ _ => .ok []) (fun _ => none)
          (Journey.make 0 3 (0, 0, 0, 0) [] 100 1 (fun _ => none) none none)
          ⟨"T", "bus", 0, 1, 0, 0, 0, 0, 10, 12, 0⟩ [] 1)
          [⟨"T", "bus", 1, 2, 0, 0, 0, 0, 12, 14, 0⟩] :=
  altScan_considers_strictly_between (fun _ _ => .ok []) (fun _ => none)
    (Journey.make 0 3 (0, 0, 0, 0) [] 100 1 (fun _ => none) none none)
    ⟨"T", "bus", 0, 1, 0, 0, 0, 0, 10, 12, 0⟩
    ⟨"T", "bus", 2, 3, 0, 0, 0, 0, 14, 16, 0⟩ [] 1
    [] [⟨"T", "bus", 1, 2, 0, 0, 0, 0, 12, 14, 0⟩] []
    (by decide) (by decide) (by decide) (by decide)

/-- State carried across the sweep of `connection_scan` (lines 69-96):
per-stop frontier, per-trip first rideable connection (`trip_taken`),
per-trip connection list, the source-found counter, and the coordinate
holders. -/
structure SweepState where
  journeyPointers : Nat → Option SortedJourneyList
  tripTaken : String → Option Connection
  tripConnections : String → Option (List Connection)
  sourceFoundNTimes : Nat
  srcCoord : ℚ × ℚ
  dstCoord : ℚ × ℚ

/-- Scalar parameters of `connection_scan` used inside the sweep loop.
`journeysToFind` is read only after a `find_resulting_paths` call, which
never returns (see `connectionScan`), so it does not appear here. -/
structure ScanParams where
  footpaths : Nat → List (Nat × ℚ)
  source : Nat
  destination : Nat
  targetArrival : Int
  timePerConnection : ℚ
  journeysPerStop : Int
  minTimesToFindSource : Nat

/-- Initialisation of the sweep (source lines 69-96): one terminal pointer
at the destination, then one single-pointer frontier per stop with a
footpath to the destination.  `destinationFootpaths` is the destination's
row of the sparse matrix as an index/walk-minutes list. -/
def initState (destination : Nat) (targetArrival : Int)
    (destinationFootpaths : List (Nat × ℚ)) : SweepState :=
  let base : SweepState :=
    { journeyPointers := fun s =>
        if s = destination then some ⟨[⟨targetArrival, none, none, none⟩]⟩ else none
      tripTaken := fun _ => none
      tripConnections := fun _ => none
      sourceFoundNTimes := 0
      srcCoord := (0, 0)
      dstCoord := (0, 0) }
  destinationFootpaths.foldl (fun st tw =>
    let walkTime := pyCeil tw.2
    let path : Footpath := ⟨tw.1, destination, walkTime⟩
    let latestArrival := targetArrival - walkTime
    { st with journeyPointers :=
        (Function.update st.journeyPointers tw.1
          (some ⟨[⟨latestArrival, none, none, some path⟩]⟩)) }) base

/-- Appending a pointer to a frontier followed by the conditional prune
(source lines 148-153 and 180-185): insert, then remove the
earliest-deadline pointer exactly when the length exceeds the cap. -/
def appendAndPrune (l : SortedJourneyList) (e : JourneyPointer)
    (journeysPerStop : Int) : SortedJourneyList :=
  let appended := l.append e
  if (appended.data.length : Int) > journeysPerStop then
    appended.removeEarliestArrival
  else appended

/-- The body run for each footpath neighbour of the departure stop (source
lines 166-196).  A `find_resulting_paths` attempt is an immediate
`TypeError` because the source omits the required `max_recursion_depth`
argument, so reaching the source-found threshold aborts the sweep. -/
def neighborStep (p : ScanParams) (c : Connection) (entryConn : Option Connection)
    (st : SweepState) (tw : Nat × ℚ) : PyRes SweepState := do
  let prevList := (st.journeyPointers tw.1).getD ⟨[]⟩
  let walkTime := pyCeil (tw.2 + p.timePerConnection)
  let path : Footpath := ⟨tw.1, c.depStop, walkTime⟩
  let latestArrival := c.depTime - walkTime
  let pruned := appendAndPrune prevList ⟨latestArrival, some c, entryConn, some path⟩
    p.journeysPerStop
  let st := { st with journeyPointers :=
    (Function.update st.journeyPointers tw.1 (some pruned)) }
  if tw.1 = p.source then
    let st := { st with srcCoord := (c.depLat, c.depLon),
                        sourceFoundNTimes := st.sourceFoundNTimes + 1 }
    if st.sourceFoundNTimes ≥ p.minTimesToFindSource then
      throw .typeErr
    else
      return st
  else
    return st

/-- Coordinate hack of the sweep (source lines 111-115). -/
def coordHack (destination : Nat) (st : SweepState) (c : Connection) : SweepState :=
  if c.depStop = destination then { st with dstCoord := (c.depLat, c.depLon) }
  else if c.arrStop = destination then { st with dstCoord := (c.arrLat, c.arrLon) }
  else st

/-- Prepend of the current connection to its trip's connection list (source
lines 117-123). -/
def tripConnectionsUpdate (st : SweepState) (c : Connection) : SweepState :=
  let cTripConnections :=
    match st.tripConnections c.tripId with
    | none => [c]
    | some l => c :: l
  { st with tripConnections :=
    (Function.update st.tripConnections c.tripId (some cTripConnections)) }

/-- Registration of the first rideable connection of a trip (source lines
137-138), applied when `trip_can_be_taken` was `None`. -/
def tripTakenUpdate (st : SweepState) (c : Connection)
    (tripCanBeTaken : Option Connection) : SweepState :=
  if tripCanBeTaken.isNone then
    { st with tripTaken := (Function.update st.tripTaken c.tripId (some c)) }
  else st

/-- Source-found bookkeeping for the departure stop (source lines 155-164):
record the coordinates, bump the counter, and on reaching the threshold
attempt `find_resulting_paths` — a `TypeError`, because the source omits
the function's required `max_recursion_depth` argument. -/
def sourceCheck (p : ScanParams) (c : Connection) (st : SweepState) :
    PyRes SweepState :=
  if c.depStop = p.source then
    let st := { st with srcCoord := (c.depLat, c.depLon),
                        sourceFoundNTimes := st.sourceFoundNTimes + 1 }
    if st.sourceFoundNTimes ≥ p.minTimesToFindSource then
      throw .typeErr
    else
      pure st
  else pure st

/-- One iteration of the sweep loop of `connection_scan` (source lines
99-196) for an already-constructed connection `c`.  The coordinate hack,
the `trip_connections` prepend, the rideability test, the departure-stop
frontier update with prune, the source-found check and the footpath
neighbour loop follow the source line by line. -/
def connStep (p : ScanParams) (st : SweepState) (c : Connection) :
    PyRes SweepState := do
  let st := coordHack p.destination st c
  let st := tripConnectionsUpdate st c
  let tripCanBeTaken := st.tripTaken c.tripId
  let arrStopReqArrivalTimes := (st.journeyPointers c.arrStop).getD ⟨[]⟩
  if tripCanBeTaken.isSome ||
      (decide (0 < arrStopReqArrivalTimes.data.length) &&
       match arrStopReqArrivalTimes.data.head? with
       | some p0 => decide (p0.arrivalTime ≥ c.arrTime)
       | none => false) then
    let st := tripTakenUpdate st c tripCanBeTaken
    let entryConn := st.tripTaken c.tripId
    let depStopReqArrivalTimes := (st.journeyPointers c.depStop).getD ⟨[]⟩
    let depStopLatestArrTime := c.depTime - pyCeil p.timePerConnection
    let pruned := appendAndPrune depStopReqArrivalTimes
      ⟨depStopLatestArrTime, some c, entryConn, none⟩ p.journeysPerStop
    let st := { st with journeyPointers :=
      (Function.update st.journeyPointers c.depStop (some pruned)) }
    let st ← sourceCheck p c st
    (p.footpaths c.depStop).foldlM (neighborStep p c entryConn) st
  else
    return st

/-- Embedding of `connection_scan`.  Rows are given as already-built
connection records (the per-row `Connection(...)` construction passes the
`distribution_id` column, matching the spec-modelled `Connection`).  Both
the early reconstruction attempts inside the loop and the final
`find_resulting_paths` call omit the function's required
`max_recursion_depth` argument, so every completion path of the source
raises `TypeError`; the delay distributions and `journeys_to_find` are
consumed only by those calls. -/
def connectionScan (rows : List Connection) (p : ScanParams)
    (delayDistributions : Nat → Option Distribution) (journeysToFind : Nat)
    (minChanceOfSuccess : ℚ) : PyRes (List Journey) := do
  let st0 := initState p.destination p.targetArrival (p.footpaths p.destination)
  let _ ← rows.foldlM (connStep p) st0
  let _ := delayDistributions
  let _ := journeysToFind
  let _ := minChanceOfSuccess
  throw .typeErr

/-- States of the sweep: the initial state and the state after each
successfully processed connection (an aborted sweep contributes the states
reached before the abort). -/
def sweepTrace (p : ScanParams) : SweepState → List Connection → List SweepState
  | st, [] => [st]
  | st, c :: cs =>
      st :: (match connStep p st c with
        | .ok st2 => sweepTrace p st2 cs
        | .error _ => [])

/-- Inserting into a sorted pointer list grows it by exactly one. -/
theorem sortedInsert_length (e : JourneyPointer) (l : List JourneyPointer) :
    (sortedInsert e l).length = l.length + 1 := by
  induction l with
  | nil => rfl
  | cons x xs ih =>
      simp only [sortedInsert]
      split
      · simp
      · simp [ih]

/-- A frontier within the cap stays within the cap across an append
followed by the conditional prune. -/
theorem appendAndPrune_length (l : SortedJourneyList) (e : JourneyPointer)
    (cap : Int) (h : (l.data.length : Int) ≤ cap) :
    (((appendAndPrune l e cap).data.length : Int)) ≤ cap := by
  simp only [appendAndPrune, SortedJourneyList.append]
  split
  · simp only [SortedJourneyList.removeEarliestArrival, List.length_dropLast,
      sortedInsert_length]
    simpa using h
  · rename_i hnot
    simp only [sortedInsert_length] at hnot ⊢
    omega

/-- Frontier-size invariant of the sweep. -/
def frontierBounded (cap : Int) (st : SweepState) : Prop :=
  ∀ s l, st.journeyPointers s = some l → (l.data.length : Int) ≤ cap

/-- Replacing one stop's frontier by a list within the cap preserves the
invariant. -/
theorem frontierBounded_update (cap : Int) (st : SweepState) (k : Nat)
    (l2 : SortedJourneyList) (h : frontierBounded cap st)
    (h2 : (l2.data.length : Int) ≤ cap) (jp2 : Nat → Option SortedJourneyList)
    (hjp : jp2 = Function.update st.journeyPointers k (some l2)) :
    ∀ s l, jp2 s = some l → (l.data.length : Int) ≤ cap := by
  intro s l hs
  subst hjp
  by_cases hsk : s = k
  · subst hsk
    rw [Function.update_same] at hs
    cases hs
    exact h2
  · rw [Function.update_noteq hsk] at hs
    exact h s l hs

/-- The default-empty frontier lookup is within a non-negative cap. -/
theorem getD_frontier_bounded (cap : Int) (st : SweepState) (s : Nat)
    (h : frontierBounded cap st) (hcap : 0 ≤ cap) :
    ((((st.journeyPointers s).getD ⟨[]⟩).data.length : Int)) ≤ cap := by
  cases hl : st.journeyPointers s with
  | none => simpa [hl] using hcap
  | some l => simpa [hl] using h s l hl

/-- The per-neighbour body preserves the frontier bound. -/
theorem neighborStep_bounded (p : ScanParams) (c : Connection)
    (entryConn : Option Connection) (st st2 : SweepState) (tw : Nat × ℚ)
    (hcap : 0 ≤ p.journeysPerStop) (h : frontierBounded p.journeysPerStop st)
    (hstep : neighborStep p c entryConn st tw = .ok st2) :
    frontierBounded p.journeysPerStop st2 := by
  simp only [neighborStep] at hstep
  set pruned := appendAndPrune ((st.journeyPointers tw.1).getD ⟨[]⟩)
    ⟨c.depTime - pyCeil (tw.2 + p.timePerConnection), some c, entryConn,
     some ⟨tw.1, c.depStop, pyCeil (tw.2 + p.timePerConnection)⟩⟩
    p.journeysPerStop with hpruned
  have hbound : (pruned.data.length : Int) ≤ p.journeysPerStop := by
    rw [hpruned]
    exact appendAndPrune_length _ _ _ (getD_frontier_bounded _ st tw.1 h hcap)
  by_cases hsrc : tw.1 = p.source
  · rw [if_pos hsrc] at hstep
    by_cases hth : st.sourceFoundNTimes + 1 ≥ p.minTimesToFindSource
    · rw [if_pos hth] at hstep
      exact absurd hstep (by simp [throw, throwThe, MonadExceptOf.throw])
    · rw [if_neg hth] at hstep
      simp only [pure, Except.pure, Except.ok.injEq] at hstep
      subst hstep
      intro s l hs
      refine frontierBounded_update p.journeysPerStop st tw.1 pruned h hbound _ rfl s l ?_
      simpa using hs
  · rw [if_neg hsrc] at hstep
    simp only [pure, Except.pure, Except.ok.injEq] at hstep
    subst hstep
    intro s l hs
    refine frontierBounded_update p.journeysPerStop st tw.1 pruned h hbound _ rfl s l ?_
    simpa using hs

/-- The neighbour fold preserves the frontier bound. -/
theorem neighborFold_bounded (p : ScanParams) (c : Connection)
    (entryConn : Option Connection) (hcap : 0 ≤ p.journeysPerStop) :
    ∀ (lst : List (Nat × ℚ)) (st st2 : SweepState),
      frontierBounded p.journeysPerStop st →
      lst.foldlM (neighborStep p c entryConn) st = .ok st2 →
      frontierBounded p.journeysPerStop st2 := by
  intro lst
  induction lst with
  | nil =>
      intro st st2 h hstep
      simp only [List.foldlM_nil, pure, Except.pure, Except.ok.injEq] at hstep
      subst hstep
      exact h
  | cons tw tws ih =>
      intro st st2 h hstep
      simp only [List.foldlM_cons] at hstep
      cases hn : neighborStep p c entryConn st tw with
      | error e => rw [hn] at hstep; exact absurd hstep (by simp [bind, Except.bind])
      | ok st1 =>
          rw [hn] at hstep
          simp only [bind, Except.bind] at hstep
          exact ih st1 st2 (neighborStep_bounded p c entryConn st st1 tw hcap h hn) hstep

/-- The coordinate hack leaves the frontier map untouched. -/
theorem coordHack_journeyPointers (destination : Nat) (st : SweepState)
    (c : Connection) :
    (coordHack destination st c).journeyPointers = st.journeyPointers := by
  unfold coordHack
  split
  · rfl
  · split
    · rfl
    · rfl

/-- The trip-connections prepend leaves the frontier map untouched. -/
theorem tripConnectionsUpdate_journeyPointers (st : SweepState) (c : Connection) :
    (tripConnectionsUpdate st c).journeyPointers = st.journeyPointers := rfl

/-- The trip-taken registration leaves the frontier map untouched. -/
theorem tripTakenUpdate_journeyPointers (st : SweepState) (c : Connection)
    (t : Option Connection) :
    (tripTakenUpdate st c t).journeyPointers = st.journeyPointers := by
  unfold tripTakenUpdate
  split
  · rfl
  · rfl

/-- The source-found bookkeeping leaves the frontier map untouched whenever
it returns. -/
theorem sourceCheck_journeyPointers (p : ScanParams) (c : Connection)
    (st st2 : SweepState) (h : sourceCheck p c st = .ok st2) :
    st2.journeyPointers = st.journeyPointers := by
  unfold sourceCheck at h
  by_cases hsrc : c.depStop = p.source
  · rw [if_pos hsrc] at h
    by_cases hth : st.sourceFoundNTimes + 1 ≥ p.minTimesToFindSource
    · rw [if_pos hth] at h
      exact absurd h (by simp [throw, throwThe, MonadExceptOf.throw])
    · rw [if_neg hth] at h
      simp only [pure, Except.pure, Except.ok.injEq] at h
      subst h
      rfl
  · rw [if_neg hsrc] at h
    simp only [pure, Except.pure, Except.ok.injEq] at h
    subst h
    rfl

/-- One sweep step preserves the frontier bound. -/
theorem connStep_bounded (p : ScanParams) (st st2 : SweepState) (c : Connection)
    (hcap : 0 ≤ p.journeysPerStop) (h : frontierBounded p.journeysPerStop st)
    (hstep : connStep p st c = .ok st2) :
    frontierBounded p.journeysPerStop st2 := by
  have h1 : frontierBounded p.journeysPerStop (tripConnectionsUpdate (coordHack p.destination st c) c) := by
    intro s l hs
    rw [tripConnectionsUpdate_journeyPointers, coordHack_journeyPointers] at hs
    exact h s l hs
  set stA := tripConnectionsUpdate (coordHack p.destination st c) c with hstA
  simp only [connStep] at hstep
  rw [← hstA] at hstep
  split at hstep
  · -- rideable branch
    set stB := tripTakenUpdate stA c (stA.tripTaken c.tripId) with hstB
    have h2 : frontierBounded p.journeysPerStop stB := by
      intro s l hs
      rw [hstB, tripTakenUpdate_journeyPointers] at hs
      exact h1 s l hs
    set pruned := appendAndPrune ((stB.journeyPointers c.depStop).getD ⟨[]⟩)
      ⟨c.depTime - pyCeil p.timePerConnection, some c, stB.tripTaken c.tripId, none⟩
      p.journeysPerStop with hpruned
    have hbound : (pruned.data.length : Int) ≤ p.journeysPerStop := by
      rw [hpruned]
      exact appendAndPrune_length _ _ _ (getD_frontier_bounded _ stB c.depStop h2 hcap)
    set stC : SweepState := { stB with journeyPointers :=
      (Function.update stB.journeyPointers c.depStop (some pruned)) } with hstC
    have h3 : frontierBounded p.journeysPerStop stC := by
      intro s l hs
      exact frontierBounded_update p.journeysPerStop stB c.depStop pruned h2 hbound _ rfl s l
        (by rw [hstC] at hs; simpa using hs)
    cases hsc : sourceCheck p c stC with
    | error e =>
        rw [hsc] at hstep
        exact absurd hstep (by simp [bind, Except.bind])
    | ok stD =>
        rw [hsc] at hstep
        simp only [bind, Except.bind] at hstep
        have h4 : frontierBounded p.journeysPerStop stD := by
          intro s l hs
          rw [sourceCheck_journeyPointers p c stC stD hsc] at hs
          exact h3 s l hs
        exact neighborFold_bounded p c (stB.tripTaken c.tripId) hcap _ stD st2 h4 hstep
  · -- not rideable: state unchanged beyond the earlier updates
    simp only [pure, Except.pure, Except.ok.injEq] at hstep
    subst hstep
    exact h1

/-- Every frontier created by the initialisation is a singleton. -/
theorem initState_bounded (destination : Nat) (targetArrival : Int)
    (dfp : List (Nat × ℚ)) (cap : Int) (hcap : 1 ≤ cap) :
    frontierBounded cap (initState destination targetArrival dfp) := by
  unfold initState
  suffices hgen : ∀ (l : List (Nat × ℚ)) (st : SweepState), frontierBounded cap st →
      frontierBounded cap (l.foldl (fun st tw =>
        { st with journeyPointers :=
            (Function.update st.journeyPointers tw.1
              (some ⟨[⟨targetArrival - pyCeil tw.2, none, none,
                some ⟨tw.1, destination, pyCeil tw.2⟩⟩]⟩)) }) st) by
    refine hgen dfp _ ?_
    intro s l hs
    have hs2 : (if s = destination
        then some (⟨[⟨targetArrival, none, none, none⟩]⟩ : SortedJourneyList)
        else none) = some l := hs
    by_cases hsd : s = destination
    · rw [if_pos hsd] at hs2
      cases hs2
      simpa using hcap
    · rw [if_neg hsd] at hs2
      cases hs2
  intro l
  induction l with
  | nil => intro st h; exact h
  | cons tw tws ih =>
      intro st h
      refine ih _ ?_
      intro s l2 hs
      refine frontierBounded_update cap st tw.1 _ h ?_ _ rfl s l2 (by simpa using hs)
      simpa using hcap

/-- The frontier bound holds at every state of the sweep trace, given a
bounded starting state. -/
theorem sweepTrace_bounded (p : ScanParams) (hcap : 0 ≤ p.journeysPerStop) :
    ∀ (rows : List Connection) (st : SweepState),
      frontierBounded p.journeysPerStop st →
      ∀ st2 ∈ sweepTrace p st rows, frontierBounded p.journeysPerStop st2 := by
  intro rows
  induction rows with
  | nil =>
      intro st h st2 hmem
      simp only [sweepTrace, List.mem_singleton] at hmem
      subst hmem
      exact h
  | cons c cs ih =>
      intro st h st2 hmem
      simp only [sweepTrace, List.mem_cons] at hmem
      rcases hmem with rfl | hmem
      · exact h
      · cases hc : connStep p st c with
        | error e => rw [hc] at hmem; simp at hmem
        | ok st1 =>
            rw [hc] at hmem
            exact ih st1 (connStep_bounded p st st1 c hcap h hc) st2 hmem

/-- C6 (amended): for `journeys_per_stop ≥ 1`, at every point of the sweep
— after initialisation and after each per-connection step — every stop's
frontier holds at most `journeys_per_stop` pointers, and the mechanism is
that each append whose result exceeds the cap is immediately followed by
exactly one removal of the earliest-deadline (last) pointer. -/
theorem sweep_frontier_within_cap (p : ScanParams) (rows : List Connection)
    (hcap : 1 ≤ p.journeysPerStop) :
    (∀ st ∈ sweepTrace p
        (initState p.destination p.targetArrival (p.footpaths p.destination)) rows,
      ∀ s l, st.journeyPointers s = some l →
        (l.data.length : Int) ≤ p.journeysPerStop)
    ∧ ∀ (l : SortedJourneyList) (e : JourneyPointer),
        ((l.append e).data.length : Int) > p.journeysPerStop →
        appendAndPrune l e p.journeysPerStop = ⟨(l.append e).data.dropLast⟩ := by
  constructor
  · intro st hmem
    exact sweepTrace_bounded p (by omega) rows _
      (initState_bounded p.destination p.targetArrival _ _ hcap) st hmem
  · intro l e hgt
    simp only [appendAndPrune, if_pos hgt]
    rfl

/-- Counterexample to C6 as stated: with `journeys_per_stop = 0` the
initialisation itself places one pointer at the destination, so a state of
the sweep (the initial one, before any connection) has a frontier larger
than the cap. -/
theorem sweep_frontier_cap_zero_violated :
    ∃ st ∈ sweepTrace ⟨fun _ => [], 0, 3, 100, 1, 0, 3⟩
        (initState 3 100 ((fun _ => ([] : List (Nat × ℚ))) 3)) [],
      ∃ s l, st.journeyPointers s = some l ∧
        ¬ ((l.data.length : Int) ≤ (0 : Int)) := by
  refine ⟨initState 3 100 [], by simp [sweepTrace], 3, ⟨[⟨100, none, none, none⟩]⟩, ?_, by decide⟩
  rfl

/-- Witness for C6 at a concrete run (cap 2, one connection): every traced
state keeps every frontier within the cap, and the over-cap append rule
drops the last pointer. -/
theorem sweep_frontier_within_cap_witness :
    (∀ st ∈ sweepTrace ⟨fun _ => [], 0, 3, 100, 1, 2, 3⟩
        (initState 3 100 ((fun _ => ([] : List (Nat × ℚ))) 3))
        [⟨"T", "bus", 0, 1, 0, 0, 0, 0, 10, 12, 0⟩],
      ∀ s l, st.journeyPointers s = some l →
        (l.data.length : Int) ≤ (2 : Int))
    ∧ ∀ (l : SortedJourneyList) (e : JourneyPointer),
        ((l.append e).data.length : Int) > (2 : Int) →
        appendAndPrune l e 2 = ⟨(l.append e).data.dropLast⟩ :=
  sweep_frontier_within_cap ⟨fun _ => [], 0, 3, 100, 1, 2, 3⟩
    [⟨"T", "bus", 0, 1, 0, 0, 0, 0, 10, 12, 0⟩] (by decide)

/-- C8: the code raises instead of returning an empty list.  Every call of
`find_resulting_paths` in `connection_scan.py` omits the function's
required `max_recursion_depth` argument, a `TypeError`; in particular a
query with an empty connections table (and likewise one whose destination
is unreachable) raises instead of returning `[]`.  The second conjunct
shows every completion path of `connection_scan` raises. -/
theorem connectionScan_raises_instead_of_empty_list :
    connectionScan [] ⟨fun _ => [], 0, 3, 100, 1, 2, 3⟩ (fun _ => none) 5 (1/2)
      = .error .typeErr
    ∧ ∀ (rows : List Connection) (p : ScanParams)
        (dd : Nat → Option Distribution) (jtf : Nat) (mc : ℚ),
        ∃ e, connectionScan rows p dd jtf mc = .error e := by
  constructor
  · rfl
  · intro rows p dd jtf mc
    unfold connectionScan
    cases h : rows.foldlM (connStep p)
        (initState p.destination p.targetArrival (p.footpaths p.destination)) with
    | error e => exact ⟨e, by simp [bind, Except.bind, h]⟩
    | ok st => exact ⟨.typeErr, by simp [bind, Except.bind, h, throw, throwThe, MonadExceptOf.throw]⟩

/-- The key order is total. -/
theorem keyGe_total (a b : Option Int × Int) : keyGe a b = true ∨ keyGe b a = true := by
  rcases a with ⟨a1, a2⟩
  rcases b with ⟨b1, b2⟩
  cases a1 <;> cases b1 <;> simp [keyGe, optIntGt] <;> omega

/-- The key order is transitive. -/
theorem keyGe_trans (a b c : Option Int × Int) (h1 : keyGe a b = true)
    (h2 : keyGe b c = true) : keyGe a c = true := by
  rcases a with ⟨a1, a2⟩
  rcases b with ⟨b1, b2⟩
  rcases c with ⟨c1, c2⟩
  cases a1 <;> cases b1 <;> cases c1 <;>
    simp [keyGe, optIntGt] at h1 h2 ⊢ <;> omega

/-- Elements of an insertion are the inserted element or old elements. -/
theorem insertDesc_mem (x y : (Option Int × Int) × Journey)
    (l : List ((Option Int × Int) × Journey)) (h : y ∈ insertDesc x l) :
    y = x ∨ y ∈ l := by
  induction l with
  | nil => simpa [insertDesc] using h
  | cons z zs ih =>
      simp only [insertDesc] at h
      split at h
      · rcases List.mem_cons.mp h with rfl | h
        · exact Or.inr (List.mem_cons_self _ _)
        · rcases ih h with rfl | hm
          · exact Or.inl rfl
          · exact Or.inr (List.mem_cons_of_mem _ hm)
      · rcases List.mem_cons.mp h with rfl | h
        · exact Or.inl rfl
        · exact Or.inr h

/-- Insertion permutes the element onto the list. -/
theorem insertDesc_perm (x : (Option Int × Int) × Journey)
    (l : List ((Option Int × Int) × Journey)) :
    List.Perm (insertDesc x l) (x :: l) := by
  induction l with
  | nil => simp [insertDesc]
  | cons z zs ih =>
      simp only [insertDesc]
      split
      · exact (List.Perm.cons z ih).trans (List.Perm.swap x z zs)
      · exact List.Perm.refl _

/-- Insertion into a descending-sorted list stays descending-sorted. -/
theorem insertDesc_pairwise (x : (Option Int × Int) × Journey)
    (l : List ((Option Int × Int) × Journey))
    (h : l.Pairwise (fun a b => keyGe a.1 b.1 = true)) :
    (insertDesc x l).Pairwise (fun a b => keyGe a.1 b.1 = true) := by
  induction l with
  | nil => simp [insertDesc]
  | cons z zs ih =>
      rcases List.pairwise_cons.mp h with ⟨hz, hzs⟩
      simp only [insertDesc]
      split
      · rename_i hge
        refine List.pairwise_cons.mpr ⟨?_, ih hzs⟩
        intro y hy
        rcases insertDesc_mem x y zs hy with rfl | hm
        · exact hge
        · exact hz y hm
      · rename_i hlt
        have hxz : keyGe x.1 z.1 = true := by
          rcases keyGe_total x.1 z.1 with h1 | h1
          · exact h1
          · exact absurd h1 (by simpa using hlt)
        refine List.pairwise_cons.mpr ⟨?_, h⟩
        intro y hy
        rcases List.mem_cons.mp hy with rfl | hm
        · exact hxz
        · exact keyGe_trans x.1 z.1 y.1 hxz (hz y hm)

/-- Key-preserving filter behaviour of an insertion into a sorted list:
elements with the inserted element's key keep their order and the new
element lands after them; other keys are untouched. -/
theorem insertDesc_filter (x : (Option Int × Int) × Journey)
    (l : List ((Option Int × Int) × Journey)) (k : Option Int × Int)
    (h : l.Pairwise (fun a b => keyGe a.1 b.1 = true)) :
    (insertDesc x l).filter (fun y => decide (y.1 = k))
      = if x.1 = k
        then l.filter (fun y => decide (y.1 = k)) ++ [x]
        else l.filter (fun y => decide (y.1 = k)) := by
  induction l with
  | nil =>
      by_cases hxk : x.1 = k
      · simp [insertDesc, hxk]
      · simp [insertDesc, hxk]
  | cons z zs ih =>
      rcases List.pairwise_cons.mp h with ⟨hz, hzs⟩
      simp only [insertDesc]
      split
      · rename_i hge
        have ihh := ih hzs
        by_cases hxk : x.1 = k
        · rw [if_pos hxk] at ihh ⊢
          by_cases hzk : z.1 = k
          · simp [List.filter_cons, hzk, ihh]
          · simp [List.filter_cons, hzk, ihh]
        · rw [if_neg hxk] at ihh ⊢
          by_cases hzk : z.1 = k
          · simp [List.filter_cons, hzk, ihh]
          · simp [List.filter_cons, hzk, ihh]
      · rename_i hlt
        have hrefl : keyGe x.1 x.1 = true := by
          rcases keyGe_total x.1 x.1 with h1 | h1 <;> exact h1
        by_cases hxk : x.1 = k
        · have hzk : ¬ z.1 = k := by
            intro hzk
            refine hlt ?_
            rw [show z.1 = x.1 from hzk.trans hxk.symm]
            exact hrefl
          have hallzs : ∀ y ∈ zs, ¬ y.1 = k := by
            intro y hy hyk
            exact hlt ((hyk.trans hxk.symm) ▸ hz y hy)
          rw [if_pos hxk]
          have hfz2 : (z :: zs).filter (fun y => decide (y.1 = k)) = [] := by
            rw [List.filter_eq_nil_iff]
            intro y hy
            rcases List.mem_cons.mp hy with rfl | hm
            · simpa using hzk
            · simpa using hallzs y hm
          rw [hfz2]
          simp [List.filter_cons, hxk, hfz2]
        · rw [if_neg hxk]
          simp [List.filter_cons, hxk]

/-- Sort key of a journey as computed by `sort_journeys`:
`(departure_time(), -len)`; the error case never occurs when the sort
returns. -/
def pyKeyOf (j : Journey) : Option Int × Int :=
  match j.departureTime with
  | .ok dtj => (dtj.1, -(j.len : Int))
  | .error _ => (none, 0)

/-- The insertion-sort fold preserves the descending pairwise order of the
accumulator. -/
theorem sortFold_pairwise :
    ∀ (l acc : List ((Option Int × Int) × Journey)),
      acc.Pairwise (fun a b => keyGe a.1 b.1 = true) →
      (l.foldl (fun acc x => insertDesc x acc) acc).Pairwise
        (fun a b => keyGe a.1 b.1 = true) := by
  intro l
  induction l with
  | nil => intro acc h; exact h
  | cons x xs ih =>
      intro acc h
      exact ih _ (insertDesc_pairwise x acc h)

/-- The insertion-sort fold permutes the accumulator and the input. -/
theorem sortFold_perm :
    ∀ (l acc : List ((Option Int × Int) × Journey)),
      List.Perm (l.foldl (fun acc x => insertDesc x acc) acc) (acc ++ l) := by
  intro l
  induction l with
  | nil => intro acc; simp
  | cons x xs ih =>
      intro acc
      refine (ih (insertDesc x acc)).trans ?_
      have h1 : List.Perm (insertDesc x acc ++ xs) ((x :: acc) ++ xs) :=
        (insertDesc_perm x acc).append_right xs
      refine h1.trans ?_
      simp only [List.cons_append]
      exact List.Perm.symm List.perm_middle

/-- The insertion-sort fold is stable: for every key value, the elements
carrying that key appear in the output in accumulator-then-input order. -/
theorem sortFold_filter :
    ∀ (l acc : List ((Option Int × Int) × Journey)) (k : Option Int × Int),
      acc.Pairwise (fun a b => keyGe a.1 b.1 = true) →
      (l.foldl (fun acc x => insertDesc x acc) acc).filter (fun y => decide (y.1 = k))
        = acc.filter (fun y => decide (y.1 = k)) ++ l.filter (fun y => decide (y.1 = k)) := by
  intro l
  induction l with
  | nil => intro acc k h; simp
  | cons x xs ih =>
      intro acc k h
      rw [List.foldl_cons, ih (insertDesc x acc) k (insertDesc_pairwise x acc h),
        insertDesc_filter x acc k h]
      by_cases hxk : x.1 = k
      · rw [if_pos hxk]
        simp [List.filter_cons, hxk]
      · rw [if_neg hxk]
        simp [List.filter_cons, hxk]

/-- The key computation, when it returns, pairs every journey with its
`pyKeyOf` key and keeps the journeys in order. -/
theorem keyJourneys_ok (js : List Journey)
    (ys : List ((Option Int × Int) × Journey)) (h : keyJourneys js = .ok ys) :
    ys.map (fun p => p.2) = js ∧ ∀ p ∈ ys, p.1 = pyKeyOf p.2 := by
  induction js generalizing ys with
  | nil =>
      simp only [keyJourneys] at h
      cases h
      exact ⟨rfl, by intro p hp; cases hp⟩
  | cons j js ih =>
      simp only [keyJourneys] at h
      cases hdt : j.departureTime with
      | error e => rw [hdt] at h; exact absurd h (by simp [bind, Except.bind])
      | ok dt =>
          rw [hdt] at h
          simp only [bind, Except.bind] at h
          cases hrest : keyJourneys js with
          | error e => rw [hrest] at h; exact absurd h (by simp)
          | ok rest =>
              rw [hrest] at h
              simp only [Except.ok.injEq] at h
              subst h
              rcases ih rest hrest with ⟨hmap, hkeys⟩
              refine ⟨by simp [hmap], ?_⟩
              intro p hp
              rcases List.mem_cons.mp hp with rfl | hm
              · simp [pyKeyOf, hdt]
              · exact hkeys p hm

/-- Filtering journeys by key commutes with dropping keys, for key/journey
pairs whose stored key is the journey's key. -/
theorem filterKeyMap (l : List ((Option Int × Int) × Journey))
    (k : Option Int × Int) (hk : ∀ p ∈ l, p.1 = pyKeyOf p.2) :
    (l.map (fun p => p.2)).filter (fun j => decide (pyKeyOf j = k))
      = (l.filter (fun y => decide (y.1 = k))).map (fun p => p.2) := by
  induction l with
  | nil => rfl
  | cons p ps ih =>
      have hp := hk p (List.mem_cons_self _ _)
      have ihh := ih (fun q hq => hk q (List.mem_cons_of_mem _ hq))
      simp only [List.map_cons, List.filter_cons]
      by_cases hpk : pyKeyOf p.2 = k
      · rw [if_pos (by simpa using hpk), if_pos (by simpa [hp] using hpk)]
        simp [ihh]
      · rw [if_neg (by simpa using hpk), if_neg (by simpa [hp] using hpk)]
        exact ihh

/-- C9: whenever `sort_journeys` returns, its output is a permutation of
its input that is non-increasing in the key `(departure_time, -len)` under
lexicographic order — latest departure first, then fewest segments — and
stable: for every key value, the journeys with that key appear in their
input order.  The hypothesis that all departure times are defined marks
the only case in which Python's tuple comparison is defined. -/
theorem sortJourneys_sorted_stable (js out : List Journey)
    (_hkeys : ∀ j ∈ js, (pyKeyOf j).1 ≠ none)
    (h : sortJourneys js = .ok out) :
    List.Perm out js
    ∧ out.Pairwise (fun a b => keyGe (pyKeyOf a) (pyKeyOf b) = true)
    ∧ ∀ k, out.filter (fun j => decide (pyKeyOf j = k))
          = js.filter (fun j => decide (pyKeyOf j = k)) := by
  simp only [sortJourneys] at h
  cases hky : keyJourneys js with
  | error e => rw [hky] at h; exact absurd h (by simp [bind, Except.bind])
  | ok keyed =>
      rw [hky] at h
      simp only [bind, Except.bind, pure, Except.pure, Except.ok.injEq] at h
      subst h
      rcases keyJourneys_ok js keyed hky with ⟨hmap, hkeyed⟩
      have hperm : List.Perm (insertionSortDesc keyed) keyed := by
        simpa using sortFold_perm keyed []
      have hmemkeys : ∀ p ∈ insertionSortDesc keyed, p.1 = pyKeyOf p.2 := by
        intro p hp
        exact hkeyed p (hperm.mem_iff.mp hp)
      refine ⟨?_, ?_, ?_⟩
      · have := hperm.map (fun p => p.2)
        rw [hmap] at this
        exact this
      · have hpw : (insertionSortDesc keyed).Pairwise
            (fun a b => keyGe a.1 b.1 = true) :=
          sortFold_pairwise keyed [] (List.Pairwise.nil)
        have hpw2 : (insertionSortDesc keyed).Pairwise
            (fun a b => keyGe (pyKeyOf a.2) (pyKeyOf b.2) = true) := by
          refine List.Pairwise.imp_of_mem ?_ hpw
          intro a b ha hb hab
          rw [← hmemkeys a ha, ← hmemkeys b hb]
          exact hab
        exact (List.pairwise_map).mpr hpw2
      · intro k
        rw [filterKeyMap _ k hmemkeys]
        rw [show insertionSortDesc keyed
            = keyed.foldl (fun acc x => insertDesc x acc) [] from rfl]
        rw [sortFold_filter keyed [] k List.Pairwise.nil]
        rw [← hmap, filterKeyMap _ k hkeyed]
        rfl

/-- Witness for C9 on two concrete single-footpath journeys: the one
departing later comes first, and the permutation and stability conclusions
hold. -/
theorem sortJourneys_sorted_stable_witness :
    List.Perm
      [Journey.make 0 1 (0, 0, 0, 0) [.foot ⟨0, 1, 2⟩] 100 1 (fun _ => none) none none,
       Journey.make 0 1 (0, 0, 0, 0) [.foot ⟨0, 1, 5⟩] 100 1 (fun _ => none) none none]
      [Journey.make 0 1 (0, 0, 0, 0) [.foot ⟨0, 1, 5⟩] 100 1 (fun _ => none) none none,
       Journey.make 0 1 (0, 0, 0, 0) [.foot ⟨0, 1, 2⟩] 100 1 (fun _ => none) none none]
    ∧ List.Pairwise (fun a b => keyGe (pyKeyOf a) (pyKeyOf b) = true)
      [Journey.make 0 1 (0, 0, 0, 0) [.foot ⟨0, 1, 2⟩] 100 1 (fun _ => none) none none,
       Journey.make 0 1 (0, 0, 0, 0) [.foot ⟨0, 1, 5⟩] 100 1 (fun _ => none) none none]
    ∧ ∀ k,
      ([Journey.make 0 1 (0, 0, 0, 0) [.foot ⟨0, 1, 2⟩] 100 1 (fun _ => none) none none,
        Journey.make 0 1 (0, 0, 0, 0) [.foot ⟨0, 1, 5⟩] 100 1 (fun _ => none) none none]).filter
        (fun j => decide (pyKeyOf j = k))
      = ([Journey.make 0 1 (0, 0, 0, 0) [.foot ⟨0, 1, 5⟩] 100 1 (fun _ => none) none none,
          Journey.make 0 1 (0, 0, 0, 0) [.foot ⟨0, 1, 2⟩] 100 1 (fun _ => none) none none]).filter
        (fun j => decide (pyKeyOf j = k)) :=
  sortJourneys_sorted_stable
    [Journey.make 0 1 (0, 0, 0, 0) [.foot ⟨0, 1, 5⟩] 100 1 (fun _ => none) none none,
     Journey.make 0 1 (0, 0, 0, 0) [.foot ⟨0, 1, 2⟩] 100 1 (fun _ => none) none none]
    [Journey.make 0 1 (0, 0, 0, 0) [.foot ⟨0, 1, 2⟩] 100 1 (fun _ => none) none none,
     Journey.make 0 1 (0, 0, 0, 0) [.foot ⟨0, 1, 5⟩] 100 1 (fun _ => none) none none]
    (by intro j hj; fin_cases hj <;> simp [pyKeyOf, Journey.make, Journey.departureTime])
    rfl

/-- Whether a segment is a footpath. -/
def Segment.isFootB : Segment → Bool
  | .foot _ => true
  | .trip _ => false

/-- No two adjacent segments of the list are footpaths. -/
def noAdjacentFeet : List Segment → Bool
  | a :: b :: rest => !(a.isFootB && b.isFootB) && noAdjacentFeet (b :: rest)
  | _ => true

/-- Trip ids of the trip segments of a journey, in order. -/
def tripIdsOf : List Segment → List String
  | [] => []
  | .foot _ :: rest => tripIdsOf rest
  | .trip t :: rest => t.tripId :: tripIdsOf rest

/-- Adjacent entries of the list differ. -/
def chainDistinct : List String → Bool
  | a :: b :: rest => (a != b) && chainDistinct (b :: rest)
  | _ => true

/-- Validity of a delay-distribution catalogue per the data model:
non-negative probabilities summing to at most one. -/
def validDists (dd : Nat → Option Distribution) : Prop :=
  ∀ i D, dd i = some D → (∀ q ∈ D.probas, 0 ≤ q) ∧ D.probas.sum ≤ 1

/-- Coherence of the per-trip connection lists: every stored connection
carries the trip id under which it is stored (true of the lists the sweep
builds). -/
def tripConnsCoherent (tc : String → Option (List Connection)) : Prop :=
  ∀ tid l, tc tid = some l → ∀ c ∈ l, c.tripId = tid

/-- The `_arrival_time` memo is never the pair `(True, None)`: the
constructor primes it with `(True, v)` or leaves it `(False, None)`. -/
def arrMemoSane (j : Journey) : Prop :=
  j.arrTimeMemo.1 = true → j.arrTimeMemo.2 ≠ none

/-- The probabilities of a valid catalogue's cdf values lie in `[0, 1]`. -/
theorem cdf_ok_bounds (dd : Nat → Option Distribution) (hdd : validDists dd)
    (i : Nat) (D : Distribution) (hD : lookupDistribution dd i = .ok D)
    (d : Int) (c : ℚ) (hc : D.cdf d = .ok c) : 0 ≤ c ∧ c ≤ 1 := by
  have hD2 : dd i = some D := by
    unfold lookupDistribution at hD
    cases h : dd i with
    | none => rw [h] at hD; cases hD
    | some D2 => rw [h] at hD; cases hD; rfl
  rcases hdd i D hD2 with ⟨hpos, hsum⟩
  unfold Distribution.cdf at hc
  split at hc
  · cases hc
  · cases hc
    unfold Distribution.cdfSum
    have hsub1 : List.Sublist
        (((D.times.zip D.probas).filter (fun tp => tp.1 ≤ d)).map (fun tp => tp.2))
        ((D.times.zip D.probas).map (fun tp => tp.2)) :=
      List.Sublist.map _ (List.filter_sublist _)
    have hsub2 : ∀ (ts : List Int) (ps : List ℚ),
        List.Sublist ((ts.zip ps).map (fun tp : Int × ℚ => tp.2)) ps := by
      intro ts
      induction ts with
      | nil => intro ps; simp
      | cons a ts ih =>
          intro ps
          cases ps with
          | nil => simp
          | cons b ps => simpa using List.Sublist.cons₂ b (ih ps)
    have hsub : List.Sublist
        (((D.times.zip D.probas).filter (fun tp => tp.1 ≤ d)).map (fun tp => tp.2))
        D.probas := hsub1.trans (hsub2 D.times D.probas)
    constructor
    · refine List.sum_nonneg ?_
      intro q hq
      exact hpos q (hsub.mem hq)
    · refine le_trans (List.Sublist.sum_le_sum hsub hpos) hsum

/-- The fields of a journey extended by `add_segment_to_journey`:
the new segment is appended and the bookkeeping fields carry over. -/
theorem addSegment_ok_fields (j : Journey) (s : Segment) (j2 : Journey)
    (h : addSegmentToJourney j s = .ok j2) :
    ∃ pa : ℚ × Option Int,
      addSegmentProbArrival j s = .ok pa ∧
      j2 = Journey.make j.departureStop j.arrivalStop j.coord
        (j.journeySegments ++ [s]) j.targetArrivalTime j.minConnectionTime
        j.delayDistributions pa.2 (some pa.1) := by
  unfold addSegmentToJourney at h
  cases hpa : addSegmentProbArrival j s with
  | error e => rw [hpa] at h; exact absurd h (by simp [bind, Except.bind])
  | ok pa =>
      rw [hpa] at h
      simp only [bind, Except.bind, pure, Except.pure, Except.ok.injEq] at h
      exact ⟨pa, rfl, h.symm⟩

/-- Derived facts about the extended journey. -/
theorem addSegment_ok_shape (j : Journey) (s : Segment) (j2 : Journey)
    (h : addSegmentToJourney j s = .ok j2) :
    j2.journeySegments = j.journeySegments ++ [s]
    ∧ j2.arrivalStop = j.arrivalStop
    ∧ j2.departureStop = j.departureStop
    ∧ j2.delayDistributions = j.delayDistributions
    ∧ arrMemoSane j2 := by
  rcases addSegment_ok_fields j s j2 h with ⟨pa, _, rfl⟩
  refine ⟨rfl, rfl, rfl, rfl, ?_⟩
  intro h1
  cases hpa2 : pa.2 with
  | some v => simp [Journey.make, hpa2]
  | none => simp [Journey.make, hpa2] at h1 ⊢

/-- Appending a segment keeps footpaths non-adjacent when the new segment
is no footpath or the list does not end in one. -/
theorem noAdjacentFeet_append : ∀ (ss : List Segment) (s : Segment),
    noAdjacentFeet ss = true →
    (s.isFootB = false ∨ (∀ g : Footpath, ss.getLast? ≠ some (.foot g))) →
    noAdjacentFeet (ss ++ [s]) = true := by
  intro ss
  induction ss with
  | nil => intro s _ _; rfl
  | cons a rest ih =>
      intro s h hcase
      cases rest with
      | nil =>
          show (!(a.isFootB && s.isFootB) && noAdjacentFeet [s]) = true
          have h1 : noAdjacentFeet [s] = true := rfl
          rw [h1, Bool.and_true]
          rcases hcase with hs | hlast
          · rw [hs, Bool.and_false]
            rfl
          · cases a with
            | trip t => rfl
            | foot g => exact absurd rfl (hlast g)
      | cons b rest2 =>
          have hsplit : noAdjacentFeet (a :: b :: rest2) =
              (!(a.isFootB && b.isFootB) && noAdjacentFeet (b :: rest2)) := rfl
          rw [hsplit, Bool.and_eq_true] at h
          have hlast2 : (a :: b :: rest2).getLast? = (b :: rest2).getLast? := by
            simp [List.getLast?_cons_cons]
          have ihh := ih s h.2 (by
            rcases hcase with hs | hl
            · exact Or.inl hs
            · refine Or.inr ?_
              intro g hg
              exact hl g (hlast2.trans hg))
          show (!(a.isFootB && b.isFootB)
            && noAdjacentFeet ((b :: rest2) ++ [s])) = true
          rw [ihh, h.1]
          rfl

/-- Trip ids of an extended segment list. -/
theorem tripIdsOf_append : ∀ (ss : List Segment) (s : Segment),
    tripIdsOf (ss ++ [s]) = tripIdsOf ss ++
      (match s with | .trip t => [t.tripId] | .foot _ => []) := by
  intro ss
  induction ss with
  | nil =>
      intro s
      cases s <;> rfl
  | cons a rest ih =>
      intro s
      cases a with
      | foot f => simpa [tripIdsOf] using ih s
      | trip t => simpa [tripIdsOf] using ih s

/-- Appending a fresh id keeps adjacent entries distinct. -/
theorem chainDistinct_append : ∀ (ids : List String) (nid : String),
    chainDistinct ids = true →
    (∀ a, ids.getLast? = some a → a ≠ nid) →
    chainDistinct (ids ++ [nid]) = true := by
  intro ids
  induction ids with
  | nil => intro nid _ _; rfl
  | cons a rest ih =>
      intro nid h hlast
      cases rest with
      | nil =>
          have ha : a ≠ nid := hlast a rfl
          show ((a != nid) && chainDistinct [nid]) = true
          have h1 : chainDistinct [nid] = true := rfl
          rw [h1, Bool.and_true, bne_iff_ne]
          exact ha
      | cons b rest2 =>
          have hsplit : chainDistinct (a :: b :: rest2) =
              ((a != b) && chainDistinct (b :: rest2)) := rfl
          rw [hsplit, Bool.and_eq_true] at h
          have ihh := ih nid h.2 (by
            intro x hx
            exact hlast x (by simpa [List.getLast?_cons_cons] using hx))
          show ((a != b) && chainDistinct ((b :: rest2) ++ [nid])) = true
          rw [ihh, h.1]
          rfl

/-- Inversion of the extension core: the new probability is either the old
one or the old one multiplied by a cdf value of a catalogued
distribution. -/
theorem addSegmentProbArrival_ok_cases (j : Journey) (s : Segment)
    (pa : ℚ × Option Int) (h : addSegmentProbArrival j s = .ok pa) :
    pa.1 = j.chanceOfSuccess ∨
    ∃ (i : Nat) (D : Distribution) (d : Int) (c : ℚ),
      lookupDistribution j.delayDistributions i = .ok D ∧ D.cdf d = .ok c ∧
      pa.1 = j.chanceOfSuccess * c := by
  cases s with
  | foot fp =>
      simp only [addSegmentProbArrival] at h
      split at h
      · cases hcat : j.currentArrivalTimeVal with
        | error e =>
            rw [hcat] at h
            simp only [bind, Except.bind] at h
            exact Except.noConfusion h
        | ok oc =>
            rw [hcat] at h
            simp only [bind, Except.bind] at h
            split at h
            · -- oc = some t: match on the last segment
              split at h
              · -- last segment is a trip: lookup then cdf
                rename_i pt heqlast
                split at h
                · exact Except.noConfusion h
                · rename_i D heqlook
                  split at h
                  · exact Except.noConfusion h
                  · rename_i c heqcdf
                    simp only [pure, Except.pure, Except.ok.injEq] at h
                    subst h
                    exact Or.inr ⟨_, D, _, c, heqlook, heqcdf, rfl⟩
              · -- last segment is a footpath: AttributeError
                simp only [throw, throwThe, MonadExceptOf.throw] at h
                exact Except.noConfusion h
              · -- no last segment: IndexError
                simp only [throw, throwThe, MonadExceptOf.throw] at h
                exact Except.noConfusion h
            · -- oc = none
              simp only [pure, Except.pure, Except.ok.injEq] at h
              subst h
              exact Or.inl rfl
      · simp only [pure, Except.pure, Except.ok.injEq] at h
        subst h
        exact Or.inl rfl
  | trip ts =>
      simp only [addSegmentProbArrival] at h
      cases hcat : j.currentArrivalTimeVal with
      | error e =>
          rw [hcat] at h
          simp only [bind, Except.bind] at h
          exact Except.noConfusion h
      | ok oc =>
          rw [hcat] at h
          simp only [bind, Except.bind] at h
          split at h
          · -- oc = some t: match on the last segment feeding the let-bind
            split at h
            · -- last segment is a trip
              rename_i pt heqlast
              split at h
              · -- the pure bind produced an error: impossible
                rename_i err heqpure
                exact Except.noConfusion heqpure
              · rename_i v heqpure
                simp only [pure, Except.pure, Except.ok.injEq] at heqpure
                subst heqpure
                split at h
                · exact Except.noConfusion h
                · rename_i D heqlook
                  split at h
                  · exact Except.noConfusion h
                  · rename_i c heqcdf
                    injection h with h2
                    subst h2
                    exact Or.inr ⟨_, D, _, c, heqlook, heqcdf, rfl⟩
            · -- last segment is a footpath: match on the one before it
              rename_i f heqlast
              split at h
              · rename_i pt heqpen
                split at h
                · rename_i err heqpure
                  exact Except.noConfusion heqpure
                · rename_i v heqpure
                  simp only [pure, Except.pure, Except.ok.injEq] at heqpure
                  subst heqpure
                  split at h
                  · exact Except.noConfusion h
                  · rename_i D heqlook
                    split at h
                    · exact Except.noConfusion h
                    · rename_i c heqcdf
                      injection h with h2
                      subst h2
                      exact Or.inr ⟨_, D, _, c, heqlook, heqcdf, rfl⟩
              · -- a second footpath: AttributeError
                exact Except.noConfusion h
              · -- nothing before: IndexError
                exact Except.noConfusion h
            · -- no last segment: IndexError
              exact Except.noConfusion h
          · -- oc = none
            simp only [pure, Except.pure, Except.ok.injEq] at h
            subst h
            exact Or.inl rfl

/-- Probability bounds are preserved by the extension core for a valid
catalogue. -/
theorem addSegmentProbArrival_bounds (j : Journey) (s : Segment)
    (pa : ℚ × Option Int) (hdd : validDists j.delayDistributions)
    (h0 : 0 ≤ j.chanceOfSuccess) (h1 : j.chanceOfSuccess ≤ 1)
    (h : addSegmentProbArrival j s = .ok pa) : 0 ≤ pa.1 ∧ pa.1 ≤ 1 := by
  rcases addSegmentProbArrival_ok_cases j s pa h with hsame | ⟨i, D, d, c, hlook, hcdf, hmul⟩
  · rw [hsame]
    exact ⟨h0, h1⟩
  · rcases cdf_ok_bounds j.delayDistributions hdd i D hlook d c hcdf with ⟨hc0, hc1⟩
    rw [hmul]
    constructor
    · exact mul_nonneg h0 hc0
    · calc j.chanceOfSuccess * c ≤ 1 * 1 := mul_le_mul h1 hc1 hc0 (by norm_num)
        _ = 1 := by norm_num

/-- An unprimed memo and an arrival value of `None` happen only for the
empty journey or a single footpath short of the destination. -/
theorem cat_none_cases (j : Journey) (hsane : arrMemoSane j)
    (h : j.currentArrivalTimeVal = .ok none) :
    j.journeySegments = [] ∨
    ∃ g : Footpath, j.journeySegments = [.foot g] ∧ j.reachedDestination = false := by
  unfold Journey.currentArrivalTimeVal at h
  split at h
  · rename_i hmemo
    simp only [Except.ok.injEq] at h
    exact absurd h (hsane hmemo)
  · split at h
    · rename_i hlastnone
      exact Or.inl (List.getLast?_eq_none_iff.mp hlastnone)
    · rename_i t hlast
      simp at h
    · rename_i f hlast
      split at h
      · rename_i hlen1
        split at h
        · simp at h
        · rename_i hreach
          refine Or.inr ⟨f, ?_, by simpa using hreach⟩
          cases hsegs : j.journeySegments with
          | nil => rw [hsegs] at hlen1; simp at hlen1
          | cons a rest =>
              rw [hsegs] at hlen1 hlast
              cases rest with
              | nil =>
                  simp only [List.getLast?_singleton, Option.some.injEq] at hlast
                  rw [hlast]
              | cons b rest2 => rw [List.length_cons] at hlen1; simp at hlen1
      · split at h
        · simp at h
        · exact Except.noConfusion h

/-- Appending a trip segment to a journey that ends in two footpaths (with
an unprimed memo) raises, as `current_arrival_time` does. -/
theorem addSegment_trip_on_double_foot (j : Journey) (ts : TripSegment)
    (hmemo : j.arrTimeMemo.1 = false) (hlen : j.journeySegments.length ≠ 1)
    (f2 : Footpath) (hlast : j.journeySegments.getLast? = some (.foot f2))
    (f1 : Footpath)
    (hpen : j.journeySegments.get? (j.journeySegments.length - 2)
      = some (.foot f1)) :
    ∀ j2, addSegmentToJourney j (.trip ts) = .ok j2 → False := by
  intro j2 hok
  have hpen2 : j.journeySegments[j.journeySegments.length - 2]?
      = some (Segment.foot f1) := by simpa using hpen
  have hcat : j.currentArrivalTimeVal = .error .valueErr := by
    simp [Journey.currentArrivalTimeVal, hmemo, hlast, hlen, hpen2]
  rcases addSegment_ok_fields j _ j2 hok with ⟨pa, hpa, _⟩
  simp only [addSegmentProbArrival, hcat, bind, Except.bind] at hpa
  exact Except.noConfusion hpa

/-- Extending a journey that ends in a footpath by a footpath to the
destination raises unless the journey is a lone footpath short of the
destination. -/
theorem addSegment_foot_dest_on_foot_tail (j : Journey) (f : Footpath)
    (hsane : arrMemoSane j)
    (hnotsingle : ∀ g : Footpath, j.journeySegments = [.foot g] →
      g.arrStop = j.arrivalStop)
    (hnotreached : j.reachedDestination = false)
    (g : Footpath) (hlast : j.journeySegments.getLast? = some (.foot g))
    (hdest : f.arrStop = j.arrivalStop) :
    ∀ j2, addSegmentToJourney j (.foot f) = .ok j2 → False := by
  intro j2 hok
  rcases addSegment_ok_fields j _ j2 hok with ⟨pa, hpa, _⟩
  simp only [addSegmentProbArrival] at hpa
  rw [if_pos hdest] at hpa
  cases hcat : j.currentArrivalTimeVal with
  | error e =>
      rw [hcat] at hpa
      simp only [bind, Except.bind] at hpa
      exact Except.noConfusion hpa
  | ok oc =>
      rw [hcat] at hpa
      simp only [bind, Except.bind] at hpa
      cases oc with
      | some t =>
          rw [hlast] at hpa
          simp only [throw, throwThe, MonadExceptOf.throw] at hpa
          exact Except.noConfusion hpa
      | none =>
          rcases cat_none_cases j hsane hcat with hnil | ⟨g2, hsegs, hnr⟩
          · rw [hnil] at hlast
            simp at hlast
          · have := hnotsingle g2 hsegs
            have hreach : j.reachedDestination = true := by
              unfold Journey.reachedDestination Journey.currentArrivalStop
              rw [hsegs]
              simp [this]
            rw [hreach] at hnotreached
            exact Bool.noConfusion hnotreached

/-- Invariant of the journeys with which `follow_path` is entered (and of
the arguments it passes to its recursive calls): sane memo, the journey's
own destination is the search destination, no adjacent footpaths, a lone
footpath only if it reaches the destination, adjacent trips distinct, the
trip last ridden recorded in `previous_trips_taken`, probability in
`[0, 1]`, and a valid catalogue. -/
def entryInv (ctx : ReconCtx) (j : Journey) (prev : List String) : Prop :=
  arrMemoSane j
  ∧ j.arrivalStop = ctx.destination
  ∧ noAdjacentFeet j.journeySegments = true
  ∧ (∀ g : Footpath, j.journeySegments = [.foot g] → g.arrStop = j.arrivalStop)
  ∧ chainDistinct (tripIdsOf j.journeySegments) = true
  ∧ (∀ t, (tripIdsOf j.journeySegments).getLast? = some t → t ∈ prev)
  ∧ 0 ≤ j.chanceOfSuccess ∧ j.chanceOfSuccess ≤ 1
  ∧ validDists j.delayDistributions

/-- Properties of every journey the reconstruction emits. -/
def emittedProps (minChance : ℚ) (maxDepth : Int) (x : Journey) : Prop :=
  noAdjacentFeet x.journeySegments = true
  ∧ chainDistinct (tripIdsOf x.journeySegments) = true
  ∧ (x.len : Int) ≤ maxDepth + 1
  ∧ 0 ≤ x.chanceOfSuccess ∧ x.chanceOfSuccess ≤ 1
  ∧ (minChance ≤ x.chanceOfSuccess
     ∨ ∃ f, x.journeySegments.getLast? = some (.foot f))

/-- Unfolded fields of an extension result. -/
theorem addSegment_ok_basics (j : Journey) (s : Segment) (j2 : Journey)
    (h : addSegmentToJourney j s = .ok j2) :
    j2.journeySegments = j.journeySegments ++ [s]
    ∧ j2.arrivalStop = j.arrivalStop
    ∧ j2.delayDistributions = j.delayDistributions
    ∧ j2.targetArrTime = j.targetArrTime
    ∧ arrMemoSane j2
    ∧ ∃ pa, addSegmentProbArrival j s = .ok pa ∧ j2.chanceOfSuccess = pa.1 := by
  rcases addSegment_ok_fields j s j2 h with ⟨pa, hpa, rfl⟩
  refine ⟨rfl, rfl, rfl, rfl, ?_, pa, hpa, rfl⟩
  intro h1
  cases hpa2 : pa.2 with
  | some v => simp [Journey.make, hpa2]
  | none => simp [Journey.make, hpa2] at h1

/-- Extending by a trip segment preserves the entry invariant when the new
trip differs from the trip last ridden and is recorded in the new
`previous_trips_taken`. -/
theorem entry_step_trip (ctx : ReconCtx) (j : Journey) (prev prev2 : List String)
    (ts : TripSegment) (j2 : Journey)
    (hinv : entryInv ctx j prev)
    (hok : addSegmentToJourney j (.trip ts) = .ok j2)
    (hlastne : ∀ t, (tripIdsOf j.journeySegments).getLast? = some t →
      t ≠ ts.tripId)
    (_hprev2 : ∀ t, t ∈ prev → t ∈ prev2) (hmem : ts.tripId ∈ prev2) :
    entryInv ctx j2 prev2 := by
  rcases hinv with ⟨hsane, hdest, hfeet, hsingle, hchain, hlastmem, hb0, hb1, hdd⟩
  rcases addSegment_ok_basics j _ j2 hok with
    ⟨hsegs, harr, hdds, htgt, hsane2, pa, hpa, hprob⟩
  have hids : tripIdsOf j2.journeySegments
      = tripIdsOf j.journeySegments ++ [ts.tripId] := by
    rw [hsegs, tripIdsOf_append]
  refine ⟨hsane2, harr.trans hdest, ?_, ?_, ?_, ?_, ?_, ?_, hdds ▸ hdd⟩
  · rw [hsegs]
    exact noAdjacentFeet_append _ _ hfeet (Or.inl rfl)
  · intro g hg
    rw [hsegs] at hg
    have := congrArg List.getLast? hg
    rw [List.getLast?_concat] at this
    simp at this
  · rw [hids]
    refine chainDistinct_append _ _ hchain ?_
    intro a ha
    exact hlastne a ha
  · intro t ht
    rw [hids, List.getLast?_concat] at ht
    cases ht
    exact hmem
  · rw [hprob]
    exact (addSegmentProbArrival_bounds j _ pa hdd hb0 hb1 hpa).1
  · rw [hprob]
    exact (addSegmentProbArrival_bounds j _ pa hdd hb0 hb1 hpa).2

/-- Extending by a footpath preserves the entry invariant when the journey
does not already end in a footpath (and, if empty, the footpath reaches
the destination). -/
theorem entry_step_foot (ctx : ReconCtx) (j : Journey) (prev : List String)
    (f : Footpath) (j2 : Journey)
    (hinv : entryInv ctx j prev)
    (hok : addSegmentToJourney j (.foot f) = .ok j2)
    (hnotfoot : ∀ g : Footpath, j.journeySegments.getLast? ≠ some (.foot g))
    (hne : j.journeySegments ≠ [] ∨ f.arrStop = j.arrivalStop) :
    entryInv ctx j2 prev := by
  rcases hinv with ⟨hsane, hdest, hfeet, hsingle, hchain, hlastmem, hb0, hb1, hdd⟩
  rcases addSegment_ok_basics j _ j2 hok with
    ⟨hsegs, harr, hdds, htgt, hsane2, pa, hpa, hprob⟩
  have hids : tripIdsOf j2.journeySegments = tripIdsOf j.journeySegments := by
    rw [hsegs, tripIdsOf_append]
    simp
  refine ⟨hsane2, harr.trans hdest, ?_, ?_, ?_, ?_, ?_, ?_, hdds ▸ hdd⟩
  · rw [hsegs]
    exact noAdjacentFeet_append _ _ hfeet (Or.inr hnotfoot)
  · intro g hg
    rw [hsegs] at hg
    rcases hne with hne | hfa
    · exfalso
      have hlen := congrArg List.length hg
      simp at hlen
      exact hne hlen
    · have h2 := congrArg List.getLast? hg
      rw [List.getLast?_concat] at h2
      simp only [List.getLast?_singleton, Option.some.injEq, Segment.foot.injEq] at h2
      subst h2
      rw [harr]
      exact hfa
  · rw [hids]
    exact hchain
  · intro t ht
    rw [hids] at ht
    exact hlastmem t ht
  · rw [hprob]
    exact (addSegmentProbArrival_bounds j _ pa hdd hb0 hb1 hpa).1
  · rw [hprob]
    exact (addSegmentProbArrival_bounds j _ pa hdd hb0 hb1 hpa).2

/-- Invariant of the `new_journey` value at the point where the
alternative-exit scan and the normal continuation extend it: either the
entry invariant holds, or the pointer's footpath was appended to a journey
already ending in a footpath, leaving a double-footpath tail on which any
trip extension raises, or the pointer's footpath was appended to the empty
start journey, leaving a lone footpath short of the destination. -/
def njInv (ctx : ReconCtx) (nj : Journey) (prevBase : List String) : Prop :=
  entryInv ctx nj prevBase
  ∨ (nj.arrTimeMemo.1 = false ∧ nj.journeySegments.length ≠ 1
     ∧ ∃ f2 f1, nj.journeySegments.getLast? = some (.foot f2)
       ∧ nj.journeySegments.get? (nj.journeySegments.length - 2)
         = some (.foot f1))
  ∨ (∃ f, nj.journeySegments = [.foot f]
     ∧ nj.arrivalStop = ctx.destination
     ∧ 0 ≤ nj.chanceOfSuccess ∧ nj.chanceOfSuccess ≤ 1
     ∧ validDists nj.delayDistributions)

/-- The entry invariant only reads `previous_trips_taken` through
membership, so it is monotone in that list. -/
theorem entryInv_mono (ctx : ReconCtx) (j : Journey) (prev prev2 : List String)
    (h : entryInv ctx j prev) (hsub : ∀ t, t ∈ prev → t ∈ prev2) :
    entryInv ctx j prev2 := by
  rcases h with ⟨h1, h2, h3, h4, h5, h6, h7, h8, h9⟩
  exact ⟨h1, h2, h3, h4, h5, fun t ht => hsub t (h6 t ht), h7, h8, h9⟩

/-- Extending a `new_journey` by a fresh trip segment restores the entry
invariant: on the double-footpath tail the extension provably raises, and
on the lone-footpath case the extended journey satisfies the invariant
directly. -/
theorem nj_step_trip (ctx : ReconCtx) (nj : Journey) (prevBase : List String)
    (ts : TripSegment) (j2 : Journey) (prev2 : List String)
    (hnj : njInv ctx nj prevBase)
    (hok : addSegmentToJourney nj (.trip ts) = .ok j2)
    (hts : ts.tripId ∉ prevBase)
    (hprev2 : ∀ t, t ∈ prevBase → t ∈ prev2)
    (hmem : ts.tripId ∈ prev2) :
    entryInv ctx j2 prev2 := by
  rcases hnj with hgood | ⟨hm, hl1, f2, f1, hlast, hpen⟩ |
    ⟨f, hsegs, hdest, hb0, hb1, hdd⟩
  · refine entry_step_trip ctx nj prevBase prev2 ts j2 hgood hok ?_ hprev2 hmem
    intro t ht hteq
    have h1 : t ∈ prevBase := hgood.2.2.2.2.2.1 t ht
    rw [hteq] at h1
    exact hts h1
  · exact (addSegment_trip_on_double_foot nj ts hm hl1 f2 hlast f1 hpen
      j2 hok).elim
  · rcases addSegment_ok_basics nj _ j2 hok with
      ⟨hsegs2, harr, hdds, _htgt, hsane2, pa, hpa, hprob⟩
    refine ⟨hsane2, harr.trans hdest, ?_, ?_, ?_, ?_, ?_, ?_, hdds ▸ hdd⟩
    · rw [hsegs2, hsegs]
      rfl
    · intro g hg
      rw [hsegs2, hsegs] at hg
      simp at hg
    · rw [hsegs2, hsegs]
      rfl
    · intro t ht
      rw [hsegs2, hsegs] at ht
      have ht2 : some ts.tripId = some t := ht
      injection ht2 with h3
      exact h3 ▸ hmem
    · rw [hprob]
      exact (addSegmentProbArrival_bounds nj _ pa hdd hb0 hb1 hpa).1
    · rw [hprob]
      exact (addSegmentProbArrival_bounds nj _ pa hdd hb0 hb1 hpa).2

/-- Extending an entered journey by a pointer's footpath yields a
`new_journey` satisfying the disjunctive invariant. -/
theorem nj_step_foot (ctx : ReconCtx) (j : Journey) (prev : List String)
    (fp : Footpath) (nj : Journey)
    (hinv : entryInv ctx j prev)
    (hnr : j.reachedDestination = false)
    (hok : addSegmentToJourney j (.foot fp) = .ok nj) :
    njInv ctx nj prev := by
  have hinv' := hinv
  rcases hinv' with ⟨hsane, hdest, hfeet, hsingle, hchain, hlastmem, hb0, hb1, hdd⟩
  cases hlast : j.journeySegments.getLast? with
  | none =>
      have hjsegs : j.journeySegments = [] := List.getLast?_eq_none_iff.mp hlast
      by_cases hfd : fp.arrStop = j.arrivalStop
      · left
        exact entry_step_foot ctx j prev fp nj hinv hok
          (by intro g hg; rw [hlast] at hg; cases hg) (Or.inr hfd)
      · right; right
        rcases addSegment_ok_basics j _ nj hok with
          ⟨hsegs2, harr, hdds, _htgt, _hsane2, pa, hpa, hprob⟩
        refine ⟨fp, by rw [hsegs2, hjsegs]; rfl, harr.trans hdest, ?_, ?_,
          hdds ▸ hdd⟩
        · rw [hprob]
          exact (addSegmentProbArrival_bounds j _ pa hdd hb0 hb1 hpa).1
        · rw [hprob]
          exact (addSegmentProbArrival_bounds j _ pa hdd hb0 hb1 hpa).2
  | some s =>
      cases s with
      | trip t =>
          left
          refine entry_step_foot ctx j prev fp nj hinv hok ?_ (Or.inl ?_)
          · intro g hg
            rw [hlast] at hg
            injection hg with h2
            cases h2
          · intro hnil
            rw [hnil] at hlast
            cases hlast
      | foot g =>
          by_cases hfd : fp.arrStop = j.arrivalStop
          · exact (addSegment_foot_dest_on_foot_tail j fp hsane hsingle hnr
              g hlast hfd nj hok).elim
          · right; left
            have hne : j.journeySegments ≠ [] := by
              intro h0
              rw [h0] at hlast
              cases hlast
            have hlen1 : 1 ≤ j.journeySegments.length :=
              List.length_pos.mpr hne
            rcases addSegment_ok_fields j _ nj hok with ⟨pa, hpa, rfl⟩
            have hpa2 : pa.2 = none := by
              simp only [addSegmentProbArrival] at hpa
              rw [if_neg hfd] at hpa
              simp only [pure, Except.pure, Except.ok.injEq] at hpa
              rw [← hpa]
            have hmsegs : (Journey.make j.departureStop j.arrivalStop j.coord
                (j.journeySegments ++ [Segment.foot fp]) j.targetArrivalTime
                j.minConnectionTime j.delayDistributions pa.2
                (some pa.1)).journeySegments
                = j.journeySegments ++ [Segment.foot fp] := rfl
            refine ⟨?_, ?_, fp, g, ?_, ?_⟩
            · simp [Journey.make, hpa2]
            · rw [hmsegs]
              simp only [List.length_append, List.length_cons, List.length_nil]
              omega
            · rw [hmsegs, List.getLast?_concat]
            · rw [hmsegs]
              have hidx : (j.journeySegments ++ [Segment.foot fp]).length - 2
                  = j.journeySegments.length - 1 := by
                simp only [List.length_append, List.length_cons, List.length_nil]
                omega
              rw [hidx, List.get?_eq_getElem?,
                List.getElem?_append_left (by omega)]
              rw [← List.getLast?_eq_getElem?]
              exact hlast


/-- An admissible alternative branch only produces journeys with the
emission properties, given the recursive call does. -/
theorem altBranch_props (ctx : ReconCtx) (maxDepth : Int) (fuel : Nat)
    (hrec : ∀ j prev out, entryInv ctx j prev →
      followPath ctx maxDepth fuel j prev = .ok out →
      ∀ x ∈ out, emittedProps ctx.minChanceOfSuccess maxDepth x)
    (nj : Journey) (ec c : Connection) (prevBase : List String)
    (q : JourneyPointer) (bout : List Journey)
    (hnj : njInv ctx nj prevBase)
    (hec : ec.tripId ∉ prevBase)
    (hcid : c.tripId = ec.tripId)
    (hq : ∀ ae, q.enterConnection = some ae → ae.tripId ≠ c.tripId)
    (hB : altBranch (followPath ctx maxDepth fuel) nj ec c
      (prevBase ++ [ec.tripId]) q = .ok bout) :
    ∀ x ∈ bout, emittedProps ctx.minChanceOfSuccess maxDepth x := by
  intro x hxb
  simp only [altBranch] at hB
  cases haj : addSegmentToJourney nj (.trip ⟨ec, c⟩) with
  | error e =>
      rw [haj] at hB
      simp only [bind, Except.bind] at hB
      exact Except.noConfusion hB
  | ok aj =>
      rw [haj] at hB
      simp only [bind, Except.bind] at hB
      have hajinv : entryInv ctx aj (prevBase ++ [ec.tripId]) :=
        nj_step_trip ctx nj prevBase ⟨ec, c⟩ aj (prevBase ++ [ec.tripId])
          hnj haj hec (fun t ht => List.mem_append_left _ ht)
          (List.mem_append_right _ (List.mem_singleton.mpr rfl))
      have hajlast : (tripIdsOf aj.journeySegments).getLast?
          = some ec.tripId := by
        rcases addSegment_ok_basics nj _ aj haj with ⟨hsegs, _, _, _, _, _⟩
        rw [hsegs, tripIdsOf_append, List.getLast?_concat]
        rfl
      have hajtail : ∃ t2 : TripSegment, aj.journeySegments.getLast?
          = some (.trip t2) := by
        rcases addSegment_ok_basics nj _ aj haj with ⟨hsegs, _, _, _, _, _⟩
        rw [hsegs, List.getLast?_concat]
        exact ⟨_, rfl⟩
      cases hqf : q.footpath with
      | none =>
          rw [hqf] at hB
          simp only [pure, Except.pure, bind, Except.bind] at hB
          cases hqe : q.enterConnection with
          | none =>
              simp only [hqe] at hB
              exact hrec aj _ bout hajinv hB x hxb
          | some ae =>
              simp only [hqe] at hB
              cases hmk : mkTripSegment ae q.exitConnection with
              | error e =>
                  simp only [hmk] at hB
                  exact Except.noConfusion hB
              | ok ts2 =>
                  simp only [hmk] at hB
                  cases hfj : addSegmentToJourney aj (.trip ts2) with
                  | error e =>
                      simp only [hfj] at hB
                      exact Except.noConfusion hB
                  | ok fj =>
                      simp only [hfj] at hB
                      have hts2 : ts2.tripId = ae.tripId := by
                        unfold mkTripSegment at hmk
                        cases hqx : q.exitConnection with
                        | none => rw [hqx] at hmk; cases hmk
                        | some ax =>
                            rw [hqx] at hmk
                            cases hmk
                            rfl
                      have hane : ae.tripId ≠ c.tripId := hq ae hqe
                      have hfjinv : entryInv ctx fj
                          ((prevBase ++ [ec.tripId]) ++ [ts2.tripId]) := by
                        refine entry_step_trip ctx aj _ _ _ fj hajinv hfj
                          ?_ (fun t ht => List.mem_append_left _ ht)
                          (List.mem_append_right _ (List.mem_singleton.mpr rfl))
                        intro t ht hteq
                        rw [hajlast] at ht
                        cases ht
                        rw [hts2] at hteq
                        exact hane (hcid ▸ hteq.symm)
                      exact hrec fj _ bout hfjinv hB x hxb
      | some fq =>
          simp only [hqf] at hB
          cases havj : addSegmentToJourney aj (.foot fq) with
          | error e =>
              simp only [havj] at hB
              exact Except.noConfusion hB
          | ok avj =>
              simp only [havj] at hB
              have havjinv : entryInv ctx avj (prevBase ++ [ec.tripId]) := by
                refine entry_step_foot ctx aj _ fq avj hajinv havj ?_ ?_
                · intro g hg
                  rcases hajtail with ⟨t2, ht2⟩
                  rw [ht2] at hg
                  cases hg
                · left
                  intro hnil
                  rcases hajtail with ⟨t2, ht2⟩
                  rw [hnil] at ht2
                  simp at ht2
              have havjlast : (tripIdsOf avj.journeySegments).getLast?
                  = some ec.tripId := by
                rcases addSegment_ok_basics aj _ avj havj with
                  ⟨hsegs, _, _, _, _, _⟩
                rw [hsegs, tripIdsOf_append]
                simpa using hajlast
              cases hqe : q.enterConnection with
              | none =>
                  simp only [hqe] at hB
                  exact hrec avj _ bout havjinv hB x hxb
              | some ae =>
                  simp only [hqe] at hB
                  cases hmk : mkTripSegment ae q.exitConnection with
                  | error e =>
                      simp only [hmk] at hB
                      exact Except.noConfusion hB
                  | ok ts2 =>
                      simp only [hmk] at hB
                      cases hfj : addSegmentToJourney avj (.trip ts2) with
                      | error e =>
                          simp only [hfj] at hB
                          exact Except.noConfusion hB
                      | ok fj =>
                          simp only [hfj] at hB
                          have hts2 : ts2.tripId = ae.tripId := by
                            unfold mkTripSegment at hmk
                            cases hqx : q.exitConnection with
                            | none => rw [hqx] at hmk; cases hmk
                            | some ax =>
                                rw [hqx] at hmk
                                cases hmk
                                rfl
                          have hane : ae.tripId ≠ c.tripId := hq ae hqe
                          have hfjinv : entryInv ctx fj
                              ((prevBase ++ [ec.tripId]) ++ [ts2.tripId]) := by
                            refine entry_step_trip ctx avj _ _ _ fj havjinv hfj
                              ?_ (fun t ht => List.mem_append_left _ ht)
                              (List.mem_append_right _ (List.mem_singleton.mpr rfl))
                            intro t ht hteq
                            rw [havjlast] at ht
                            cases ht
                            rw [hts2] at hteq
                            exact hane (hcid ▸ hteq.symm)
                          exact hrec fj _ bout hfjinv hB x hxb

/-- All journeys produced by the loop over the candidate pointers of an
alternative exit satisfy the emission properties. -/
theorem altPointerLoop_props (ctx : ReconCtx) (maxDepth : Int) (fuel : Nat)
    (hrec : ∀ j prev out, entryInv ctx j prev →
      followPath ctx maxDepth fuel j prev = .ok out →
      ∀ x ∈ out, emittedProps ctx.minChanceOfSuccess maxDepth x)
    (nj : Journey) (ec c : Connection) (prevBase : List String)
    (hnj : njInv ctx nj prevBase)
    (hec : ec.tripId ∉ prevBase)
    (hcid : c.tripId = ec.tripId) :
    ∀ (qs : List JourneyPointer) (out : List Journey),
    altPointerLoop (followPath ctx maxDepth fuel) nj ec c
      (prevBase ++ [ec.tripId]) ctx.minConnectionTime qs = .ok out →
    ∀ x ∈ out, emittedProps ctx.minChanceOfSuccess maxDepth x := by
  intro qs
  induction qs with
  | nil =>
      intro out hA x hx
      simp only [altPointerLoop] at hA
      cases hA
      cases hx
  | cons q qs ih =>
      intro out hA x hx
      simp only [altPointerLoop, bind, Except.bind, pure, Except.pure] at hA
      split at hA
      · rename_i hg
        cases hb : altBranch (followPath ctx maxDepth fuel) nj ec c
            (prevBase ++ [ec.tripId]) q with
        | error e =>
            simp only [hb] at hA
            exact Except.noConfusion hA
        | ok branch =>
            simp only [hb] at hA
            cases hr : altPointerLoop (followPath ctx maxDepth fuel) nj ec c
                (prevBase ++ [ec.tripId]) ctx.minConnectionTime qs with
            | error e =>
                simp only [hr] at hA
                exact Except.noConfusion hA
            | ok rest =>
                simp only [hr] at hA
                injection hA with h2
                subst h2
                rcases List.mem_append.mp hx with hxb | hxr
                · have hq : ∀ ae, q.enterConnection = some ae →
                      ae.tripId ≠ c.tripId := by
                    intro ae hae
                    rw [Bool.and_eq_true] at hg
                    have h1 := hg.1
                    rw [hae] at h1
                    exact of_decide_eq_true h1
                  exact altBranch_props ctx maxDepth fuel hrec nj ec c prevBase
                    q branch hnj hec hcid hq hb x hxb
                · exact ih rest hr x hxr
      · cases hr : altPointerLoop (followPath ctx maxDepth fuel) nj ec c
            (prevBase ++ [ec.tripId]) ctx.minConnectionTime qs with
        | error e =>
            simp only [hr] at hA
            exact Except.noConfusion hA
        | ok rest =>
            simp only [hr, List.nil_append] at hA
            injection hA with h2
            subst h2
            exact ih rest hr x hx

/-- All journeys produced by inspecting one in-between connection's frontier
satisfy the emission properties. -/
theorem altInspect_props (ctx : ReconCtx) (maxDepth : Int) (fuel : Nat)
    (hrec : ∀ j prev out, entryInv ctx j prev →
      followPath ctx maxDepth fuel j prev = .ok out →
      ∀ x ∈ out, emittedProps ctx.minChanceOfSuccess maxDepth x)
    (nj : Journey) (ec : Connection) (prevBase : List String)
    (hnj : njInv ctx nj prevBase)
    (hec : ec.tripId ∉ prevBase)
    (c : Connection) (hcid : c.tripId = ec.tripId)
    (out : List Journey)
    (hI : altInspect (followPath ctx maxDepth fuel) ctx.journeyPointers nj ec
      (prevBase ++ [ec.tripId]) ctx.minConnectionTime c = .ok out) :
    ∀ x ∈ out, emittedProps ctx.minChanceOfSuccess maxDepth x := by
  simp only [altInspect] at hI
  split at hI
  · exact altPointerLoop_props ctx maxDepth fuel hrec nj ec c prevBase
      hnj hec hcid _ out hI
  · cases hI
    intro x hx
    cases hx

/-- All journeys produced by the scan over the entered trip's connection
list satisfy the emission properties. -/
theorem connectionLoop_props (ctx : ReconCtx) (maxDepth : Int) (fuel : Nat)
    (hrec : ∀ j prev out, entryInv ctx j prev →
      followPath ctx maxDepth fuel j prev = .ok out →
      ∀ x ∈ out, emittedProps ctx.minChanceOfSuccess maxDepth x)
    (nj : Journey) (ec : Connection) (pExit : Option Connection)
    (prevBase : List String)
    (hnj : njInv ctx nj prevBase)
    (hec : ec.tripId ∉ prevBase) :
    ∀ (conns : List Connection), (∀ c ∈ conns, c.tripId = ec.tripId) →
    ∀ (fE fX : Bool) (out : List Journey),
    connectionLoop (followPath ctx maxDepth fuel) ctx.journeyPointers nj ec
      pExit (prevBase ++ [ec.tripId]) ctx.minConnectionTime conns fE fX
      = .ok out →
    ∀ x ∈ out, emittedProps ctx.minChanceOfSuccess maxDepth x := by
  intro conns
  induction conns with
  | nil =>
      intro _ fE fX out hC x hx
      simp only [connectionLoop] at hC
      cases hC
      cases hx
  | cons c cs ih =>
      intro hconns fE fX out hC x hx
      simp only [connectionLoop, bind, Except.bind, pure, Except.pure] at hC
      split at hC
      · cases hs : altInspect (followPath ctx maxDepth fuel)
            ctx.journeyPointers nj ec (prevBase ++ [ec.tripId])
            ctx.minConnectionTime c with
        | error e =>
            simp only [hs] at hC
            exact Except.noConfusion hC
        | ok scanned =>
            simp only [hs] at hC
            cases hr : connectionLoop (followPath ctx maxDepth fuel)
                ctx.journeyPointers nj ec pExit (prevBase ++ [ec.tripId])
                ctx.minConnectionTime cs (fE || decide (ec = c))
                (fX || decide (pExit = some c)) with
            | error e =>
                simp only [hr] at hC
                exact Except.noConfusion hC
            | ok rest =>
                simp only [hr] at hC
                injection hC with h2
                subst h2
                rcases List.mem_append.mp hx with hxs | hxr
                · exact altInspect_props ctx maxDepth fuel hrec nj ec prevBase
                    hnj hec c (hconns c (List.mem_cons_self c cs)) scanned hs
                    x hxs
                · exact ih (fun c' hc' => hconns c' (List.mem_cons_of_mem c hc'))
                    _ _ rest hr x hxr
      · cases hr : connectionLoop (followPath ctx maxDepth fuel)
            ctx.journeyPointers nj ec pExit (prevBase ++ [ec.tripId])
            ctx.minConnectionTime cs (fE || decide (ec = c))
            (fX || decide (pExit = some c)) with
        | error e =>
            simp only [hr] at hC
            exact Except.noConfusion hC
        | ok rest =>
            simp only [hr, List.nil_append] at hC
            injection hC with h2
            subst h2
            exact ih (fun c' hc' => hconns c' (List.mem_cons_of_mem c hc'))
              _ _ rest hr x hx

/-- The journey emitted when a pointer's footpath reaches the destination
satisfies the emission properties — its probability and length are NOT
rechecked by the source, but it gained at most one segment over a journey
within the depth bound, and it ends in a footpath. -/
theorem walk_emit (ctx : ReconCtx) (maxDepth : Int) (j : Journey)
    (prev : List String) (fp : Footpath) (nj : Journey)
    (hinv : entryInv ctx j prev) (hnr : j.reachedDestination = false)
    (hlen : (j.len : Int) ≤ maxDepth)
    (hfd : fp.arrStop = ctx.destination)
    (hok : addSegmentToJourney j (.foot fp) = .ok nj) :
    emittedProps ctx.minChanceOfSuccess maxDepth nj := by
  have hinv' := hinv
  rcases hinv' with ⟨hsane, hdest, hfeet, hsingle, hchain, hlastmem, hb0, hb1, hdd⟩
  have hfd2 : fp.arrStop = j.arrivalStop := hfd.trans hdest.symm
  have hnotfoot : ∀ g : Footpath, j.journeySegments.getLast? ≠ some (.foot g) := by
    intro g hg
    exact addSegment_foot_dest_on_foot_tail j fp hsane hsingle hnr g hg hfd2
      nj hok
  rcases addSegment_ok_basics j _ nj hok with
    ⟨hsegs2, _harr, hdds, _htgt, _hsane2, pa, hpa, hprob⟩
  refine ⟨?_, ?_, ?_, ?_, ?_, Or.inr ⟨fp, ?_⟩⟩
  · rw [hsegs2]
    exact noAdjacentFeet_append _ _ hfeet (Or.inr hnotfoot)
  · rw [hsegs2, tripIdsOf_append]
    simpa using hchain
  · show ((nj.journeySegments.length : Int)) ≤ maxDepth + 1
    have hlen' : (j.journeySegments.length : Int) ≤ maxDepth := hlen
    rw [hsegs2]
    simp only [List.length_append, List.length_cons, List.length_nil]
    push_cast
    omega
  · rw [hprob]
    exact (addSegmentProbArrival_bounds j _ pa hdd hb0 hb1 hpa).1
  · rw [hprob]
    exact (addSegmentProbArrival_bounds j _ pa hdd hb0 hb1 hpa).2
  · rw [hsegs2, List.getLast?_concat]

/-- All journeys produced by the loop over a stop's frontier pointers
satisfy the emission properties. -/
theorem pointerLoop_props (ctx : ReconCtx) (maxDepth : Int) (fuel : Nat)
    (hrec : ∀ j prev out, entryInv ctx j prev →
      followPath ctx maxDepth fuel j prev = .ok out →
      ∀ x ∈ out, emittedProps ctx.minChanceOfSuccess maxDepth x)
    (hctc : tripConnsCoherent ctx.tripConnections)
    (j : Journey) (arrAtStart : Option Int)
    (hnr : j.reachedDestination = false)
    (hlen : (j.len : Int) ≤ maxDepth) :
    ∀ (ps : List JourneyPointer) (prev : List String) (out : List Journey),
    entryInv ctx j prev →
    pointerLoop (followPath ctx maxDepth fuel) ctx j arrAtStart ps prev
      = .ok out →
    ∀ x ∈ out, emittedProps ctx.minChanceOfSuccess maxDepth x := by
  intro ps
  induction ps with
  | nil =>
      intro prev out _ hP x hx
      simp only [pointerLoop] at hP
      cases hP
      cases hx
  | cons p ps ih =>
      intro prev out hinv hP x hx
      simp only [pointerLoop, bind, Except.bind, pure, Except.pure] at hP
      split at hP
      · rename_i hg
        have htok : ∀ ec, p.enterConnection = some ec → ec.tripId ∉ prev := by
          intro ec hec
          rw [Bool.and_eq_true] at hg
          have h2 := hg.2
          rw [hec] at h2
          exact of_decide_eq_true h2
        cases hpf : p.footpath with
        | none =>
            simp only [hpf] at hP
            cases hpe : p.enterConnection with
            | none =>
                simp only [hpe] at hP
                cases hr : pointerLoop (followPath ctx maxDepth fuel) ctx j
                    arrAtStart ps prev with
                | error e =>
                    simp only [hr] at hP
                    exact Except.noConfusion hP
                | ok rest =>
                    simp only [hr, List.nil_append] at hP
                    injection hP with h2
                    subst h2
                    exact ih prev rest hinv hr x hx
            | some ec =>
                simp only [hpe] at hP
                rw [if_neg Bool.false_ne_true] at hP
                cases htc : ctx.tripConnections ec.tripId with
                | none =>
                    simp only [htc] at hP
                    exact Except.noConfusion hP
                | some cs =>
                    simp only [htc] at hP
                    cases hcl : connectionLoop (followPath ctx maxDepth fuel)
                        ctx.journeyPointers j ec p.exitConnection
                        (prev ++ [ec.tripId]) ctx.minConnectionTime cs
                        false false with
                    | error e =>
                        simp only [hcl] at hP
                        exact Except.noConfusion hP
                    | ok altPaths =>
                        simp only [hcl] at hP
                        cases hmk : mkTripSegment ec p.exitConnection with
                        | error e =>
                            simp only [hmk] at hP
                            exact Except.noConfusion hP
                        | ok ts =>
                            simp only [hmk] at hP
                            cases hadd2 : addSegmentToJourney j (.trip ts) with
                            | error e =>
                                simp only [hadd2] at hP
                                exact Except.noConfusion hP
                            | ok nj2 =>
                                simp only [hadd2] at hP
                                cases hnrm : followPath ctx maxDepth fuel nj2
                                    (prev ++ [ec.tripId]) with
                                | error e =>
                                    simp only [hnrm] at hP
                                    exact Except.noConfusion hP
                                | ok normalPaths =>
                                    simp only [hnrm] at hP
                                    cases hr : pointerLoop
                                        (followPath ctx maxDepth fuel) ctx j
                                        arrAtStart ps (prev ++ [ec.tripId]) with
                                    | error e =>
                                        simp only [hr] at hP
                                        exact Except.noConfusion hP
                                    | ok rest =>
                                        simp only [hr, List.nil_append] at hP
                                        injection hP with h2
                                        subst h2
                                        have hec2 : ec.tripId ∉ prev := htok ec hpe
                                        have hts : ts.tripId = ec.tripId := by
                                          unfold mkTripSegment at hmk
                                          cases hqx : p.exitConnection with
                                          | none =>
                                              rw [hqx] at hmk
                                              cases hmk
                                          | some ax =>
                                              rw [hqx] at hmk
                                              cases hmk
                                              rfl
                                        rcases List.mem_append.mp hx with hx1 | hxr
                                        · rcases List.mem_append.mp hx1 with hx2 | hxn
                                          · exact connectionLoop_props ctx maxDepth
                                              fuel hrec j ec p.exitConnection prev
                                              (Or.inl hinv) hec2 cs
                                              (fun c' hc' => hctc ec.tripId cs htc c' hc')
                                              false false altPaths hcl x hx2
                                          · have hinv2 : entryInv ctx nj2
                                                (prev ++ [ec.tripId]) := by
                                              refine nj_step_trip ctx j prev ts nj2
                                                (prev ++ [ec.tripId]) (Or.inl hinv)
                                                hadd2 ?_
                                                (fun t ht => List.mem_append_left _ ht)
                                                ?_
                                              · rw [hts]
                                                exact hec2
                                              · rw [hts]
                                                exact List.mem_append_right _
                                                  (List.mem_singleton.mpr rfl)
                                            exact hrec nj2 (prev ++ [ec.tripId])
                                              normalPaths hinv2 hnrm x hxn
                                        · exact ih (prev ++ [ec.tripId]) rest
                                            (entryInv_mono ctx j prev _ hinv
                                              (fun t ht => List.mem_append_left _ ht))
                                            hr x hxr
        | some fp =>
            simp only [hpf] at hP
            cases hadd : addSegmentToJourney j (.foot fp) with
            | error e =>
                simp only [hadd] at hP
                exact Except.noConfusion hP
            | ok nj =>
                simp only [hadd] at hP
                by_cases hfd : fp.arrStop = ctx.destination
                · simp only [if_pos hfd] at hP
                  have hemit : emittedProps ctx.minChanceOfSuccess maxDepth nj :=
                    walk_emit ctx maxDepth j prev fp nj hinv hnr hlen hfd hadd
                  cases hpe : p.enterConnection with
                  | none =>
                      simp only [hpe] at hP
                      cases hr : pointerLoop (followPath ctx maxDepth fuel) ctx j
                          arrAtStart ps prev with
                      | error e =>
                          simp only [hr] at hP
                          exact Except.noConfusion hP
                      | ok rest =>
                          simp only [hr] at hP
                          injection hP with h2
                          subst h2
                          rcases List.mem_append.mp hx with hx1 | hxr
                          · rcases List.mem_singleton.mp hx1 with rfl
                            exact hemit
                          · exact ih prev rest hinv hr x hxr
                  | some ec =>
                      simp only [hpe] at hP
                      simp only [if_true] at hP
                      cases hr : pointerLoop (followPath ctx maxDepth fuel) ctx j
                          arrAtStart ps prev with
                      | error e =>
                          simp only [hr] at hP
                          exact Except.noConfusion hP
                      | ok rest =>
                          simp only [hr] at hP
                          injection hP with h2
                          subst h2
                          rcases List.mem_append.mp hx with hx1 | hxr
                          · rcases List.mem_singleton.mp hx1 with rfl
                            exact hemit
                          · exact ih prev rest hinv hr x hxr
                · simp only [if_neg hfd] at hP
                  have hnjinv : njInv ctx nj prev :=
                    nj_step_foot ctx j prev fp nj hinv hnr hadd
                  cases hpe : p.enterConnection with
                  | none =>
                      simp only [hpe] at hP
                      cases hr : pointerLoop (followPath ctx maxDepth fuel) ctx j
                          arrAtStart ps prev with
                      | error e =>
                          simp only [hr] at hP
                          exact Except.noConfusion hP
                      | ok rest =>
                          simp only [hr, List.nil_append] at hP
                          injection hP with h2
                          subst h2
                          exact ih prev rest hinv hr x hx
                  | some ec =>
                      simp only [hpe] at hP
                      rw [if_neg Bool.false_ne_true] at hP
                      cases htc : ctx.tripConnections ec.tripId with
                      | none =>
                          simp only [htc] at hP
                          exact Except.noConfusion hP
                      | some cs =>
                          simp only [htc] at hP
                          cases hcl : connectionLoop (followPath ctx maxDepth fuel)
                              ctx.journeyPointers nj ec p.exitConnection
                              (prev ++ [ec.tripId]) ctx.minConnectionTime cs
                              false false with
                          | error e =>
                              simp only [hcl] at hP
                              exact Except.noConfusion hP
                          | ok altPaths =>
                              simp only [hcl] at hP
                              cases hmk : mkTripSegment ec p.exitConnection with
                              | error e =>
                                  simp only [hmk] at hP
                                  exact Except.noConfusion hP
                              | ok ts =>
                                  simp only [hmk] at hP
                                  cases hadd2 : addSegmentToJourney nj (.trip ts) with
                                  | error e =>
                                      simp only [hadd2] at hP
                                      exact Except.noConfusion hP
                                  | ok nj2 =>
                                      simp only [hadd2] at hP
                                      cases hnrm : followPath ctx maxDepth fuel nj2
                                          (prev ++ [ec.tripId]) with
                                      | error e =>
                                          simp only [hnrm] at hP
                                          exact Except.noConfusion hP
                                      | ok normalPaths =>
                                          simp only [hnrm] at hP
                                          cases hr : pointerLoop
                                              (followPath ctx maxDepth fuel) ctx j
                                              arrAtStart ps (prev ++ [ec.tripId]) with
                                          | error e =>
                                              simp only [hr] at hP
                                              exact Except.noConfusion hP
                                          | ok rest =>
                                              simp only [hr, List.nil_append] at hP
                                              injection hP with h2
                                              subst h2
                                              have hec2 : ec.tripId ∉ prev := htok ec hpe
                                              have hts : ts.tripId = ec.tripId := by
                                                unfold mkTripSegment at hmk
                                                cases hqx : p.exitConnection with
                                                | none =>
                                                    rw [hqx] at hmk
                                                    cases hmk
                                                | some ax =>
                                                    rw [hqx] at hmk
                                                    cases hmk
                                                    rfl
                                              rcases List.mem_append.mp hx with hx1 | hxr
                                              · rcases List.mem_append.mp hx1 with hx2 | hxn
                                                · exact connectionLoop_props ctx maxDepth
                                                    fuel hrec nj ec p.exitConnection prev
                                                    hnjinv hec2 cs
                                                    (fun c' hc' => hctc ec.tripId cs htc c' hc')
                                                    false false altPaths hcl x hx2
                                                · have hinv2 : entryInv ctx nj2
                                                      (prev ++ [ec.tripId]) := by
                                                    refine nj_step_trip ctx nj prev ts nj2
                                                      (prev ++ [ec.tripId]) hnjinv
                                                      hadd2 ?_
                                                      (fun t ht => List.mem_append_left _ ht)
                                                      ?_
                                                    · rw [hts]
                                                      exact hec2
                                                    · rw [hts]
                                                      exact List.mem_append_right _
                                                        (List.mem_singleton.mpr rfl)
                                                  exact hrec nj2 (prev ++ [ec.tripId])
                                                    normalPaths hinv2 hnrm x hxn
                                              · exact ih (prev ++ [ec.tripId]) rest
                                                  (entryInv_mono ctx j prev _ hinv
                                                    (fun t ht => List.mem_append_left _ ht))
                                                  hr x hxr
      · exact ih prev out hinv hP x hx

/-- Every journey in a normal (non-raising) result of `follow_path`,
entered under the entry invariant, satisfies the emission properties. -/
theorem followPath_props (ctx : ReconCtx)
    (hctc : tripConnsCoherent ctx.tripConnections) (maxDepth : Int) :
    ∀ (fuel : Nat) (j : Journey) (prev : List String) (out : List Journey),
    entryInv ctx j prev →
    followPath ctx maxDepth fuel j prev = .ok out →
    ∀ x ∈ out, emittedProps ctx.minChanceOfSuccess maxDepth x := by
  intro fuel
  induction fuel with
  | zero =>
      intro j prev out _ hF x hx
      exact Except.noConfusion hF
  | succ fuel ih =>
      intro j prev out hinv hF x hx
      simp only [followPath, bind, Except.bind] at hF
      split at hF
      · cases hF
        cases hx
      · rename_i hpge
        cases hcat : j.currentArrivalTimeVal with
        | error e =>
            simp only [hcat] at hF
            exact Except.noConfusion hF
        | ok av =>
            simp only [hcat] at hF
            split at hF
            · cases hF
              cases hx
            · rename_i hlengt
              have hlenle : (j.len : Int) ≤ maxDepth := not_lt.mp hlengt
              split at hF
              · rename_i hreach
                injection hF with h2
                subst h2
                rcases List.mem_singleton.mp hx with rfl
                rcases hinv with ⟨_, _, hfeet, _, hchain, _, hb0, hb1, _⟩
                refine ⟨hfeet, hchain, ?_, hb0, hb1, Or.inl (not_lt.mp hpge)⟩
                omega
              · rename_i hnreach
                have hnr : j.reachedDestination = false := by
                  cases hb : j.reachedDestination
                  · rfl
                  · exact absurd hb hnreach
                exact pointerLoop_props ctx maxDepth fuel ih hctc j av hnr
                  hlenle _ prev out hinv hF x hx

/-- `sort_journeys` returns a permutation of its input, so every returned
journey is one of the input journeys. -/
theorem sortJourneys_mem (js out : List Journey)
    (h : sortJourneys js = .ok out) : ∀ x ∈ out, x ∈ js := by
  intro x hx
  simp only [sortJourneys, bind, Except.bind, pure, Except.pure] at h
  cases hk : keyJourneys js with
  | error e =>
      simp only [hk] at h
      exact Except.noConfusion h
  | ok keyed =>
      simp only [hk] at h
      injection h with h2
      subst h2
      rcases List.mem_map.mp hx with ⟨p, hp, rfl⟩
      have hperm : List.Perm (insertionSortDesc keyed) keyed := by
        simpa [insertionSortDesc] using sortFold_perm keyed []
      have hpk : p ∈ keyed := hperm.mem_iff.mp hp
      have hmap := (keyJourneys_ok js keyed hk).1
      rw [← hmap]
      exact List.mem_map_of_mem _ hpk

/-- Every journey returned by a normal run of `find_resulting_paths`
satisfies the emission properties, for a valid distribution catalogue and
coherent per-trip connection lists. -/
theorem findResultingPaths_props (source destination : Nat)
    (srcCoord dstCoord : ℚ × ℚ) (targetArrival : Int)
    (minConnectionTime : ℚ)
    (journeyPointers : Nat → Option SortedJourneyList)
    (tripConnections : String → Option (List Connection))
    (delayDistributions : Nat → Option Distribution)
    (minChanceOfSuccess : ℚ) (maxRecursionDepth : Int)
    (out : List Journey)
    (hdd : validDists delayDistributions)
    (hctc : tripConnsCoherent tripConnections)
    (hF : findResultingPaths source destination srcCoord dstCoord
      targetArrival minConnectionTime journeyPointers tripConnections
      delayDistributions minChanceOfSuccess maxRecursionDepth = .ok out) :
    ∀ x ∈ out, emittedProps minChanceOfSuccess maxRecursionDepth x := by
  intro x hx
  simp only [findResultingPaths, bind, Except.bind] at hF
  cases hfp : followPath
      ⟨destination, journeyPointers, tripConnections, minChanceOfSuccess,
        pyCeil minConnectionTime⟩
      maxRecursionDepth (maxRecursionDepth.toNat + 2)
      (Journey.make source destination
        (srcCoord.1, srcCoord.2, dstCoord.1, dstCoord.2) [] targetArrival
        (pyCeil minConnectionTime) delayDistributions none (some 1)) [] with
  | error e =>
      simp only [hfp] at hF
      exact Except.noConfusion hF
  | ok js =>
      simp only [hfp] at hF
      have hmem : x ∈ js := sortJourneys_mem js out hF x hx
      have hstart : entryInv
          ⟨destination, journeyPointers, tripConnections, minChanceOfSuccess,
            pyCeil minConnectionTime⟩
          (Journey.make source destination
            (srcCoord.1, srcCoord.2, dstCoord.1, dstCoord.2) [] targetArrival
            (pyCeil minConnectionTime) delayDistributions none (some 1)) [] := by
        refine ⟨?_, rfl, rfl, ?_, rfl, ?_, ?_, ?_, hdd⟩
        · intro h1
          simp [Journey.make] at h1
        · intro g hg
          cases hg
        · intro t ht
          cases ht
        · norm_num [Journey.make]
        · norm_num [Journey.make]
      exact followPath_props _ hctc maxRecursionDepth _ _ _ _ hstart hfp x hmem

/-- Concrete scenario W (walk to the destination): one trip `A` from stop 0
to stop 1, and a frontier pointer at stop 1 whose footpath walks to the
destination, stop 2. -/
def connW : Connection := ⟨"A", "bus", 0, 1, 0, 0, 0, 0, 10, 20, 0⟩

/-- Footpath of scenario W: stop 1 to the destination, 5 minutes. -/
def footW : Footpath := ⟨1, 2, 5⟩

/-- Distribution of scenario W: a delay of 0 with probability 1/2. -/
def distW : Distribution := ⟨[0], [(1 : ℚ)/2], 0⟩

/-- Frontier of scenario W. -/
def jpW : Nat → Option SortedJourneyList := fun n =>
  if n = 0 then some ⟨[⟨100, some connW, some connW, none⟩]⟩
  else if n = 1 then some ⟨[⟨200, none, none, some footW⟩]⟩
  else none

/-- Per-trip connection lists of scenario W. -/
def tcW : String → Option (List Connection) := fun s =>
  if s = "A" then some [connW] else none

/-- Distribution catalogue of scenario W. -/
def ddW : Nat → Option Distribution := fun _ => some distW

/-- The catalogue of scenario W is valid. -/
theorem ddW_valid : validDists ddW := by
  intro i D h
  injection h with h2
  subst h2
  constructor
  · intro q hq
    have hq2 : q ∈ [(1 : ℚ)/2] := hq
    rcases List.mem_singleton.mp hq2 with rfl
    norm_num
  · show ([(1 : ℚ)/2]).sum ≤ 1
    norm_num

/-- The connection lists of scenario W are coherent. -/
theorem tcW_coherent : tripConnsCoherent tcW := by
  intro tid l h c hc
  unfold tcW at h
  split at h
  · rename_i hs
    injection h with h2
    subst h2
    have hc2 : c ∈ [connW] := hc
    rcases List.mem_singleton.mp hc2 with rfl
    rw [hs]
    rfl
  · cases h

/-- Concrete scenario V (alternative exit re-boarding an earlier trip):
trip `A` runs stop 0 → 1 and later stop 3 → 4; trip `B` runs 1 → 2 → 3 → 4.
The reconstruction boards `A`, then `B`, and the alternative-exit scan at
`B`'s in-between stop 3 re-boards trip `A`. -/
def cnA0 : Connection := ⟨"A", "bus", 0, 1, 0, 0, 0, 0, 5, 10, 0⟩

/-- Later connection of trip `A` in scenario V, into the destination. -/
def cnA2 : Connection := ⟨"A", "bus", 3, 4, 0, 0, 0, 0, 40, 50, 0⟩

/-- First connection of trip `B` in scenario V. -/
def cnB1 : Connection := ⟨"B", "bus", 1, 2, 0, 0, 0, 0, 15, 20, 0⟩

/-- In-between connection of trip `B` in scenario V. -/
def cnB2 : Connection := ⟨"B", "bus", 2, 3, 0, 0, 0, 0, 21, 25, 0⟩

/-- Exit connection of trip `B` in scenario V, into the destination. -/
def cnB3 : Connection := ⟨"B", "bus", 3, 4, 0, 0, 0, 0, 26, 30, 0⟩

/-- Second pointer's footpath at stop 3 of scenario V (to a dead-end stop,
present only so the frontier holds more than one pointer). -/
def footV : Footpath := ⟨3, 9, 1⟩

/-- Distribution of scenario V: a delay of 0 with probability 1. -/
def distV : Distribution := ⟨[0], [(1 : ℚ)], 1⟩

/-- Frontier of scenario V. -/
def jpV : Nat → Option SortedJourneyList := fun n =>
  if n = 0 then some ⟨[⟨1000, some cnA0, some cnA0, none⟩]⟩
  else if n = 1 then some ⟨[⟨1000, some cnB1, some cnB3, none⟩]⟩
  else if n = 3 then some ⟨[⟨1000, some cnA2, some cnA2, none⟩,
                            ⟨1000, none, none, some footV⟩]⟩
  else none

/-- Per-trip connection lists of scenario V. -/
def tcV : String → Option (List Connection) := fun s =>
  if s = "A" then some [cnA0, cnA2]
  else if s = "B" then some [cnB1, cnB2, cnB3]
  else none

/-- Distribution catalogue of scenario V. -/
def ddV : Nat → Option Distribution := fun _ => some distV

/-- The catalogue of scenario V is valid. -/
theorem ddV_valid : validDists ddV := by
  intro i D h
  injection h with h2
  subst h2
  constructor
  · intro q hq
    have hq2 : q ∈ [(1 : ℚ)] := hq
    rcases List.mem_singleton.mp hq2 with rfl
    norm_num
  · show ([(1 : ℚ)]).sum ≤ 1
    norm_num

/-- The connection lists of scenario V are coherent. -/
theorem tcV_coherent : tripConnsCoherent tcV := by
  intro tid l h c hc
  unfold tcV at h
  split at h
  · rename_i hs
    injection h with h2
    subst h2
    have hc2 : c ∈ [cnA0, cnA2] := hc
    rcases List.mem_cons.mp hc2 with rfl | hc3
    · rw [hs]; rfl
    · rcases List.mem_singleton.mp hc3 with rfl
      rw [hs]; rfl
  · split at h
    · rename_i hs
      injection h with h2
      subst h2
      have hc2 : c ∈ [cnB1, cnB2, cnB3] := hc
      rcases List.mem_cons.mp hc2 with rfl | hc3
      · rw [hs]; rfl
      · rcases List.mem_cons.mp hc3 with rfl | hc4
        · rw [hs]; rfl
        · rcases List.mem_singleton.mp hc4 with rfl
          rw [hs]; rfl
    · cases h

/-- Output of scenario W under `min_chance_of_success = 9/10` and
`max_recursion_depth = 5`. -/
def outW : List Journey :=
  (findResultingPaths 0 2 (0, 0) (0, 0) 60 1 jpW tcW ddW ((9 : ℚ)/10)
    5).toOption.getD []

/-- Output of scenario W under `min_chance_of_success = 0` and
`max_recursion_depth = 1`. -/
def outW1 : List Journey :=
  (findResultingPaths 0 2 (0, 0) (0, 0) 60 1 jpW tcW ddW 0 1).toOption.getD []

/-- Output of scenario V under `min_chance_of_success = 0` and
`max_recursion_depth = 5`. -/
def outV : List Journey :=
  (findResultingPaths 0 4 (0, 0) (0, 0) 100 1 jpV tcV ddV 0 5).toOption.getD []

section

attribute [local semireducible] Rat.mul Rat.add Rat.inv Rat.sub

/-- Counterexample to the original C2 claim: in scenario W the only
returned journey is emitted through the walk-to-destination branch with
success probability 1/2, below `min_chance_of_success = 9/10`. -/
theorem walk_emitted_below_min_chance :
    (findResultingPaths 0 2 (0, 0) (0, 0) 60 1 jpW tcW ddW ((9 : ℚ)/10)
      5).map (fun l => l.map Journey.chanceOfSuccess) = .ok [(1 : ℚ)/2]
    ∧ ((1 : ℚ)/2) < (9 : ℚ)/10 := by
  constructor
  · rfl
  · norm_num

/-- Counterexample to the original C4 claim: in scenario W with
`max_recursion_depth = 1` the returned walk-emitted journey has 2 segments,
exceeding `max_segments = 1`. -/
theorem walk_emitted_exceeds_max_segments :
    (findResultingPaths 0 2 (0, 0) (0, 0) 60 1 jpW tcW ddW 0 1).map
      (fun l => l.map Journey.len) = .ok [2]
    ∧ 1 < 2 := by
  constructor
  · rfl
  · norm_num

/-- Counterexample to the original C5 claim: in scenario V the second
returned journey rides the trips `A`, `B`, `A` in that order — the
alternative-exit branch re-boards trip `A`, which the journey already
rode, because the scan only compares the candidate pointer's trip with the
trip currently being ridden. -/
theorem alt_branch_reboards_earlier_trip :
    (findResultingPaths 0 4 (0, 0) (0, 0) 100 1 jpV tcV ddV 0 5).map
      (fun l => l.map (fun j => tripIdsOf j.journeySegments))
      = .ok [["A", "B"], ["A", "B", "A"]]
    ∧ ¬ (["A", "B", "A"] : List String).Nodup := by
  constructor
  · rfl
  · decide

/-- C2 (corrected): for a valid distribution catalogue and coherent
per-trip connection lists, every Journey returned by a normal run of
`find_resulting_paths` has success probability at least 0 and at most 1,
and at least `min_chance_of_success` unless the journey was emitted by the
walk-to-destination branch, in which case its last segment is a Footpath.
The original lower bound of `min_chance_of_success` for every emitted
journey fails on walk-emitted journeys, whose probability is updated after
the cutoff was last checked. -/
theorem emitted_success_probability_range (source destination : Nat)
    (srcCoord dstCoord : ℚ × ℚ) (targetArrival : Int) (minConnectionTime : ℚ)
    (journeyPointers : Nat → Option SortedJourneyList)
    (tripConnections : String → Option (List Connection))
    (delayDistributions : Nat → Option Distribution)
    (minChanceOfSuccess : ℚ) (maxRecursionDepth : Int) (out : List Journey)
    (hdd : validDists delayDistributions)
    (hctc : tripConnsCoherent tripConnections)
    (hF : findResultingPaths source destination srcCoord dstCoord
      targetArrival minConnectionTime journeyPointers tripConnections
      delayDistributions minChanceOfSuccess maxRecursionDepth = .ok out) :
    ∀ x ∈ out, 0 ≤ x.chanceOfSuccess ∧ x.chanceOfSuccess ≤ 1 ∧
      (minChanceOfSuccess ≤ x.chanceOfSuccess
       ∨ ∃ f, x.journeySegments.getLast? = some (.foot f)) := by
  intro x hx
  rcases findResultingPaths_props source destination srcCoord dstCoord
    targetArrival minConnectionTime journeyPointers tripConnections
    delayDistributions minChanceOfSuccess maxRecursionDepth out hdd hctc hF
    x hx with ⟨_, _, _, hb0, hb1, hmin⟩
  exact ⟨hb0, hb1, hmin⟩

/-- Witness for C2 on scenario W: the hypotheses hold and the returned
journey (probability 1/2, below the cutoff 9/10) ends in a Footpath. -/
theorem emitted_success_probability_range_witness :
    validDists ddW ∧ tripConnsCoherent tcW ∧
    findResultingPaths 0 2 (0, 0) (0, 0) 60 1 jpW tcW ddW ((9 : ℚ)/10) 5
      = .ok outW ∧
    (∀ x ∈ outW, 0 ≤ x.chanceOfSuccess ∧ x.chanceOfSuccess ≤ 1 ∧
      ((9 : ℚ)/10 ≤ x.chanceOfSuccess
       ∨ ∃ f, x.journeySegments.getLast? = some (.foot f))) :=
  ⟨ddW_valid, tcW_coherent, rfl,
   emitted_success_probability_range 0 2 (0, 0) (0, 0) 60 1 jpW tcW ddW
     ((9 : ℚ)/10) 5 outW ddW_valid tcW_coherent rfl⟩

/-- C4 (corrected): for a valid distribution catalogue and coherent
per-trip connection lists, every Journey returned by a normal run of
`find_resulting_paths` has at most `max_recursion_depth + 1` segments, and
no two consecutive segments of it are both Footpaths.  The original bound
of `max_segments = max_recursion_depth` segments fails on walk-emitted
journeys, which gain a final Footpath after the length guard was last
checked. -/
theorem emitted_segment_bound_and_no_adjacent_footpaths
    (source destination : Nat)
    (srcCoord dstCoord : ℚ × ℚ) (targetArrival : Int) (minConnectionTime : ℚ)
    (journeyPointers : Nat → Option SortedJourneyList)
    (tripConnections : String → Option (List Connection))
    (delayDistributions : Nat → Option Distribution)
    (minChanceOfSuccess : ℚ) (maxRecursionDepth : Int) (out : List Journey)
    (hdd : validDists delayDistributions)
    (hctc : tripConnsCoherent tripConnections)
    (hF : findResultingPaths source destination srcCoord dstCoord
      targetArrival minConnectionTime journeyPointers tripConnections
      delayDistributions minChanceOfSuccess maxRecursionDepth = .ok out) :
    ∀ x ∈ out, (x.len : Int) ≤ maxRecursionDepth + 1 ∧
      noAdjacentFeet x.journeySegments = true := by
  intro x hx
  rcases findResultingPaths_props source destination srcCoord dstCoord
    targetArrival minConnectionTime journeyPointers tripConnections
    delayDistributions minChanceOfSuccess maxRecursionDepth out hdd hctc hF
    x hx with ⟨hfeet, _, hlen, _, _, _⟩
  exact ⟨hlen, hfeet⟩

/-- Witness for C4 on scenario W with `max_recursion_depth = 1`: the
returned journey has 2 segments, within the corrected bound `1 + 1`, and
no adjacent footpaths. -/
theorem emitted_segment_bound_and_no_adjacent_footpaths_witness :
    validDists ddW ∧ tripConnsCoherent tcW ∧
    findResultingPaths 0 2 (0, 0) (0, 0) 60 1 jpW tcW ddW 0 1 = .ok outW1 ∧
    (∀ x ∈ outW1, (x.len : Int) ≤ 1 + 1 ∧
      noAdjacentFeet x.journeySegments = true) :=
  ⟨ddW_valid, tcW_coherent, rfl,
   emitted_segment_bound_and_no_adjacent_footpaths 0 2 (0, 0) (0, 0) 60 1
     jpW tcW ddW 0 1 outW1 ddW_valid tcW_coherent rfl⟩

/-- C5 (corrected): for a valid distribution catalogue and coherent
per-trip connection lists, in every Journey returned by a normal run of
`find_resulting_paths` consecutive TripSegments (with at most one Footpath
between them) carry distinct trip ids.  The original claim — no trip id on
two distinct TripSegments anywhere in the journey — fails: the
alternative-exit branch only requires the candidate pointer's trip to
differ from the trip currently being ridden, so a journey can re-board a
trip it rode earlier. -/
theorem emitted_adjacent_trip_ids_distinct (source destination : Nat)
    (srcCoord dstCoord : ℚ × ℚ) (targetArrival : Int) (minConnectionTime : ℚ)
    (journeyPointers : Nat → Option SortedJourneyList)
    (tripConnections : String → Option (List Connection))
    (delayDistributions : Nat → Option Distribution)
    (minChanceOfSuccess : ℚ) (maxRecursionDepth : Int) (out : List Journey)
    (hdd : validDists delayDistributions)
    (hctc : tripConnsCoherent tripConnections)
    (hF : findResultingPaths source destination srcCoord dstCoord
      targetArrival minConnectionTime journeyPointers tripConnections
      delayDistributions minChanceOfSuccess maxRecursionDepth = .ok out) :
    ∀ x ∈ out, chainDistinct (tripIdsOf x.journeySegments) = true := by
  intro x hx
  rcases findResultingPaths_props source destination srcCoord dstCoord
    targetArrival minConnectionTime journeyPointers tripConnections
    delayDistributions minChanceOfSuccess maxRecursionDepth out hdd hctc hF
    x hx with ⟨_, hchain, _, _, _, _⟩
  exact hchain

/-- Witness for C5 on scenario V: the hypotheses hold, and in both
returned journeys — including the one riding `A`, `B`, `A` — adjacent
trip ids differ. -/
theorem emitted_adjacent_trip_ids_distinct_witness :
    validDists ddV ∧ tripConnsCoherent tcV ∧
    findResultingPaths 0 4 (0, 0) (0, 0) 100 1 jpV tcV ddV 0 5 = .ok outV ∧
    (∀ x ∈ outV, chainDistinct (tripIdsOf x.journeySegments) = true) :=
  ⟨ddV_valid, tcV_coherent, rfl,
   emitted_adjacent_trip_ids_distinct 0 4 (0, 0) (0, 0) 100 1 jpV tcV ddV
     0 5 outV ddV_valid tcV_coherent rfl⟩

end

/-- The probability product over a list of `changes()` pairs, with the cdf
factors of `Journey.changesProduct` (a missing catalogue entry or a failing
cdf call surfaces as the error of the corresponding method call). -/
def prodM (dds : Nat → Option Distribution) (cs : List (TripSegment × Int)) :
    PyRes ℚ :=
  cs.foldlM (fun acc td => do
    let D ← lookupDistribution dds td.1.delayDistributionId
    let c ← D.cdf td.2
    return acc * c) 1

/-- `changesProduct` is the fold of the factors over `changes()`. -/
theorem changesProduct_eq_prodM (j : Journey) :
    j.changesProduct = (do
      let cs ← j.changes
      prodM j.delayDistributions cs) := rfl

/-- The pair product over an appended final pair multiplies its factor at
the end. -/
theorem prodM_concat (dds : Nat → Option Distribution)
    (L : List (TripSegment × Int)) (td : TripSegment × Int) (p : ℚ)
    (D : Distribution) (c : ℚ)
    (hL : prodM dds L = .ok p)
    (hD : lookupDistribution dds td.1.delayDistributionId = .ok D)
    (hc : D.cdf td.2 = .ok c) :
    prodM dds (L ++ [td]) = .ok (p * c) := by
  unfold prodM
  rw [List.foldlM_append]
  unfold prodM at hL
  rw [hL]
  simp only [bind, Except.bind, List.foldlM, hD, hc, pure, Except.pure]

/-- A normally-returned `changes()` list of a journey containing a trip
segment is non-empty. -/
theorem changesGo_ok_ne_nil (target : Int) :
    ∀ (ss : List Segment) (res : List (TripSegment × Int)),
    (∃ t : TripSegment, Segment.trip t ∈ ss) →
    changesGo target ss = .ok res → res ≠ [] := by
  intro ss
  induction ss using changesGo.induct target with
  | case1 =>
      intro res hmem _
      rcases hmem with ⟨t, ht⟩
      cases ht
  | case2 f rest ih =>
      intro res hmem hok
      rcases hmem with ⟨t, ht⟩
      rcases List.mem_cons.mp ht with h1 | h2
      · cases h1
      · exact ih res ⟨t, h2⟩ hok
  | case3 t =>
      intro res _ hok
      have h2 : (Except.ok [(t, pyDeltaMin target t.arrivalTime)]
          : PyRes (List (TripSegment × Int))) = .ok res := hok
      injection h2 with h3
      rw [← h3]
      simp
  | case4 t f =>
      intro res _ hok
      have h2 : (Except.ok [(t, pyDeltaMin target (t.arrivalTime + f.walkTime))]
          : PyRes (List (TripSegment × Int))) = .ok res := hok
      injection h2 with h3
      rw [← h3]
      simp
  | case5 t t2 rest ih =>
      intro res _ hok
      have h2 : Except.bind (changesGo target (Segment.trip t2 :: rest))
          (fun r => (Except.ok
            ((t, pyDeltaMin t2.enterConnection.depTime t.arrivalTime) :: r)
            : PyRes (List (TripSegment × Int)))) = .ok res := hok
      cases hr : changesGo target (Segment.trip t2 :: rest) with
      | error e =>
          rw [hr] at h2
          simp only [Except.bind] at h2
          exact Except.noConfusion h2
      | ok r =>
          rw [hr] at h2
          simp only [Except.bind] at h2
          injection h2 with h3
          rw [← h3]
          simp
  | case6 t f t2 rest ih =>
      intro res _ hok
      have h2 : Except.bind
          (changesGo target (Segment.foot f :: Segment.trip t2 :: rest))
          (fun r => (Except.ok
            ((t, pyDeltaMin t2.enterConnection.depTime
              (t.arrivalTime + f.walkTime)) :: r)
            : PyRes (List (TripSegment × Int)))) = .ok res := hok
      cases hr : changesGo target (Segment.foot f :: Segment.trip t2 :: rest) with
      | error e =>
          rw [hr] at h2
          simp only [Except.bind] at h2
          exact Except.noConfusion h2
      | ok r =>
          rw [hr] at h2
          simp only [Except.bind] at h2
          injection h2 with h3
          rw [← h3]
          simp
  | case7 t f f2 rest =>
      intro res _ hok
      exact Except.noConfusion hok

/-- Splitting a cons against a concat when the tail is non-empty. -/
theorem cons_eq_concat_split {α : Type} (p q : α) (r L : List α)
    (h : p :: r = L ++ [q]) (hne : r ≠ []) :
    ∃ L0, L = p :: L0 ∧ r = L0 ++ [q] := by
  cases L with
  | nil =>
      injection h with h1 h2
      exact absurd h2 hne
  | cons x L0 =>
      injection h with h1 h2
      refine ⟨L0, ?_, h2⟩
      rw [h1]

/-- Appending a trip segment to a trip-ending segment list retargets the
final pair's delay from the target arrival to the new trip's departure and
adds the new trip's pair. -/
theorem changesGo_concat_trip (target : Int) :
    ∀ (init : List Segment) (t u : TripSegment) (L : List (TripSegment × Int)),
    changesGo target (init ++ [Segment.trip t])
      = .ok (L ++ [(t, pyDeltaMin target t.arrivalTime)]) →
    changesGo target (init ++ [Segment.trip t, Segment.trip u])
      = .ok (L ++ [(t, pyDeltaMin u.enterConnection.depTime t.arrivalTime),
                   (u, pyDeltaMin target u.arrivalTime)]) := by
  intro init
  induction init with
  | nil =>
      intro t u L h
      have h2 : (Except.ok [(t, pyDeltaMin target t.arrivalTime)]
          : PyRes (List (TripSegment × Int)))
          = .ok (L ++ [(t, pyDeltaMin target t.arrivalTime)]) := h
      injection h2 with h3
      have h4 := congrArg List.dropLast h3
      rw [List.dropLast_concat] at h4
      have hL : L = [] := by simpa using h4.symm
      subst hL
      rfl
  | cons a init ih =>
      intro t u L h
      cases a with
      | foot g =>
          have h' : changesGo target (init ++ [Segment.trip t])
              = .ok (L ++ [(t, pyDeltaMin target t.arrivalTime)]) := h
          have g' := ih t u L h'
          exact g'
      | trip t' =>
          cases init with
          | nil =>
              have h2 : (Except.ok
                  [(t', pyDeltaMin t.enterConnection.depTime t'.arrivalTime),
                   (t, pyDeltaMin target t.arrivalTime)]
                  : PyRes (List (TripSegment × Int)))
                  = .ok (L ++ [(t, pyDeltaMin target t.arrivalTime)]) := h
              injection h2 with h3
              have h4 := congrArg List.dropLast h3
              rw [List.dropLast_concat] at h4
              have hL : L
                  = [(t', pyDeltaMin t.enterConnection.depTime t'.arrivalTime)] := by
                simpa using h4.symm
              subst hL
              rfl
          | cons b init2 =>
              cases b with
              | trip t2 =>
                  have h2 : Except.bind
                      (changesGo target
                        (Segment.trip t2 :: (init2 ++ [Segment.trip t])))
                      (fun r => (Except.ok
                        ((t', pyDeltaMin t2.enterConnection.depTime
                          t'.arrivalTime) :: r)
                        : PyRes (List (TripSegment × Int))))
                      = .ok (L ++ [(t, pyDeltaMin target t.arrivalTime)]) := h
                  cases hr : changesGo target
                      (Segment.trip t2 :: (init2 ++ [Segment.trip t])) with
                  | error e =>
                      rw [hr] at h2
                      simp only [Except.bind] at h2
                      exact Except.noConfusion h2
                  | ok r =>
                      rw [hr] at h2
                      simp only [Except.bind] at h2
                      injection h2 with h3
                      have hne : r ≠ [] :=
                        changesGo_ok_ne_nil target _ r ⟨t, by simp⟩ hr
                      rcases cons_eq_concat_split _ _ r L h3 hne with ⟨L0, hL, hr2⟩
                      subst hL
                      have hr' : changesGo target
                          ((Segment.trip t2 :: init2) ++ [Segment.trip t])
                          = .ok (L0 ++ [(t, pyDeltaMin target t.arrivalTime)]) := by
                        rw [List.cons_append, hr, hr2]
                      have ihres := ih t u L0 hr'
                      show Except.bind
                          (changesGo target (Segment.trip t2 ::
                            (init2 ++ [Segment.trip t, Segment.trip u])))
                          (fun r => (Except.ok
                            ((t', pyDeltaMin t2.enterConnection.depTime
                              t'.arrivalTime) :: r)
                            : PyRes (List (TripSegment × Int))))
                          = .ok (((t', pyDeltaMin t2.enterConnection.depTime
                                t'.arrivalTime) :: L0)
                              ++ [(t, pyDeltaMin u.enterConnection.depTime
                                    t.arrivalTime),
                                  (u, pyDeltaMin target u.arrivalTime)])
                      rw [show changesGo target (Segment.trip t2 ::
                            (init2 ++ [Segment.trip t, Segment.trip u]))
                          = .ok (L0 ++ [(t, pyDeltaMin u.enterConnection.depTime
                                t.arrivalTime),
                              (u, pyDeltaMin target u.arrivalTime)]) from by
                        rw [← List.cons_append]
                        exact ihres]
                      simp only [Except.bind]
                      rfl
              | foot g =>
                  cases init2 with
                  | nil =>
                      have h2 : (Except.ok
                          [(t', pyDeltaMin t.enterConnection.depTime
                            (t'.arrivalTime + g.walkTime)),
                           (t, pyDeltaMin target t.arrivalTime)]
                          : PyRes (List (TripSegment × Int)))
                          = .ok (L ++ [(t, pyDeltaMin target t.arrivalTime)]) := h
                      injection h2 with h3
                      have h4 := congrArg List.dropLast h3
                      rw [List.dropLast_concat] at h4
                      have hL : L = [(t', pyDeltaMin t.enterConnection.depTime
                          (t'.arrivalTime + g.walkTime))] := by
                        simpa using h4.symm
                      subst hL
                      rfl
                  | cons c init3 =>
                      cases c with
                      | trip t2 =>
                          have h2 : Except.bind
                              (changesGo target (Segment.foot g ::
                                Segment.trip t2 :: (init3 ++ [Segment.trip t])))
                              (fun r => (Except.ok
                                ((t', pyDeltaMin t2.enterConnection.depTime
                                  (t'.arrivalTime + g.walkTime)) :: r)
                                : PyRes (List (TripSegment × Int))))
                              = .ok (L ++ [(t, pyDeltaMin target t.arrivalTime)]) := h
                          cases hr : changesGo target (Segment.foot g ::
                              Segment.trip t2 :: (init3 ++ [Segment.trip t])) with
                          | error e =>
                              rw [hr] at h2
                              simp only [Except.bind] at h2
                              exact Except.noConfusion h2
                          | ok r =>
                              rw [hr] at h2
                              simp only [Except.bind] at h2
                              injection h2 with h3
                              have hne : r ≠ [] :=
                                changesGo_ok_ne_nil target _ r ⟨t, by simp⟩ hr
                              rcases cons_eq_concat_split _ _ r L h3 hne with
                                ⟨L0, hL, hr2⟩
                              subst hL
                              have hr' : changesGo target
                                  ((Segment.foot g :: Segment.trip t2 :: init3)
                                    ++ [Segment.trip t])
                                  = .ok (L0 ++ [(t, pyDeltaMin target
                                      t.arrivalTime)]) := by
                                rw [List.cons_append, List.cons_append, hr, hr2]
                              have ihres := ih t u L0 hr'
                              show Except.bind
                                  (changesGo target (Segment.foot g ::
                                    Segment.trip t2 ::
                                    (init3 ++ [Segment.trip t, Segment.trip u])))
                                  (fun r => (Except.ok
                                    ((t', pyDeltaMin t2.enterConnection.depTime
                                      (t'.arrivalTime + g.walkTime)) :: r)
                                    : PyRes (List (TripSegment × Int))))
                                  = .ok (((t', pyDeltaMin
                                        t2.enterConnection.depTime
                                        (t'.arrivalTime + g.walkTime)) :: L0)
                                      ++ [(t, pyDeltaMin
                                            u.enterConnection.depTime
                                            t.arrivalTime),
                                          (u, pyDeltaMin target u.arrivalTime)])
                              rw [show changesGo target (Segment.foot g ::
                                    Segment.trip t2 ::
                                    (init3 ++ [Segment.trip t, Segment.trip u]))
                                  = .ok (L0 ++ [(t, pyDeltaMin
                                        u.enterConnection.depTime t.arrivalTime),
                                      (u, pyDeltaMin target u.arrivalTime)])
                                  from by
                                rw [← List.cons_append, ← List.cons_append]
                                exact ihres]
                              simp only [Except.bind]
                              rfl
                      | foot g2 =>
                          have h2 : (Except.error PyErr.attrErr
                              : PyRes (List (TripSegment × Int)))
                              = .ok (L ++ [(t, pyDeltaMin target t.arrivalTime)]) := h
                          exact Except.noConfusion h2

/-- Appending a footpath to a trip-ending segment list shifts the final
pair's delay by the walk time (the delay stays measured against the target
arrival). -/
theorem changesGo_concat_foot (target : Int) :
    ∀ (init : List Segment) (t : TripSegment) (f : Footpath)
      (L : List (TripSegment × Int)),
    changesGo target (init ++ [Segment.trip t])
      = .ok (L ++ [(t, pyDeltaMin target t.arrivalTime)]) →
    changesGo target (init ++ [Segment.trip t, Segment.foot f])
      = .ok (L ++ [(t, pyDeltaMin target (t.arrivalTime + f.walkTime))]) := by
  intro init
  induction init with
  | nil =>
      intro t f L h
      have h2 : (Except.ok [(t, pyDeltaMin target t.arrivalTime)]
          : PyRes (List (TripSegment × Int)))
          = .ok (L ++ [(t, pyDeltaMin target t.arrivalTime)]) := h
      injection h2 with h3
      have h4 := congrArg List.dropLast h3
      rw [List.dropLast_concat] at h4
      have hL : L = [] := by simpa using h4.symm
      subst hL
      rfl
  | cons a init ih =>
      intro t f L h
      cases a with
      | foot g =>
          have h' : changesGo target (init ++ [Segment.trip t])
              = .ok (L ++ [(t, pyDeltaMin target t.arrivalTime)]) := h
          have g' := ih t f L h'
          exact g'
      | trip t' =>
          cases init with
          | nil =>
              have h2 : (Except.ok
                  [(t', pyDeltaMin t.enterConnection.depTime t'.arrivalTime),
                   (t, pyDeltaMin target t.arrivalTime)]
                  : PyRes (List (TripSegment × Int)))
                  = .ok (L ++ [(t, pyDeltaMin target t.arrivalTime)]) := h
              injection h2 with h3
              have h4 := congrArg List.dropLast h3
              rw [List.dropLast_concat] at h4
              have hL : L
                  = [(t', pyDeltaMin t.enterConnection.depTime t'.arrivalTime)] := by
                simpa using h4.symm
              subst hL
              rfl
          | cons b init2 =>
              cases b with
              | trip t2 =>
                  have h2 : Except.bind
                      (changesGo target
                        (Segment.trip t2 :: (init2 ++ [Segment.trip t])))
                      (fun r => (Except.ok
                        ((t', pyDeltaMin t2.enterConnection.depTime
                          t'.arrivalTime) :: r)
                        : PyRes (List (TripSegment × Int))))
                      = .ok (L ++ [(t, pyDeltaMin target t.arrivalTime)]) := h
                  cases hr : changesGo target
                      (Segment.trip t2 :: (init2 ++ [Segment.trip t])) with
                  | error e =>
                      rw [hr] at h2
                      simp only [Except.bind] at h2
                      exact Except.noConfusion h2
                  | ok r =>
                      rw [hr] at h2
                      simp only [Except.bind] at h2
                      injection h2 with h3
                      have hne : r ≠ [] :=
                        changesGo_ok_ne_nil target _ r ⟨t, by simp⟩ hr
                      rcases cons_eq_concat_split _ _ r L h3 hne with ⟨L0, hL, hr2⟩
                      subst hL
                      have hr' : changesGo target
                          ((Segment.trip t2 :: init2) ++ [Segment.trip t])
                          = .ok (L0 ++ [(t, pyDeltaMin target t.arrivalTime)]) := by
                        rw [List.cons_append, hr, hr2]
                      have ihres := ih t f L0 hr'
                      show Except.bind
                          (changesGo target (Segment.trip t2 ::
                            (init2 ++ [Segment.trip t, Segment.foot f])))
                          (fun r => (Except.ok
                            ((t', pyDeltaMin t2.enterConnection.depTime
                              t'.arrivalTime) :: r)
                            : PyRes (List (TripSegment × Int))))
                          = .ok (((t', pyDeltaMin t2.enterConnection.depTime
                                t'.arrivalTime) :: L0)
                              ++ [(t, pyDeltaMin target
                                    (t.arrivalTime + f.walkTime))])
                      rw [show changesGo target (Segment.trip t2 ::
                            (init2 ++ [Segment.trip t, Segment.foot f]))
                          = .ok (L0 ++ [(t, pyDeltaMin target
                                (t.arrivalTime + f.walkTime))]) from by
                        rw [← List.cons_append]
                        exact ihres]
                      simp only [Except.bind]
                      rfl
              | foot g =>
                  cases init2 with
                  | nil =>
                      have h2 : (Except.ok
                          [(t', pyDeltaMin t.enterConnection.depTime
                            (t'.arrivalTime + g.walkTime)),
                           (t, pyDeltaMin target t.arrivalTime)]
                          : PyRes (List (TripSegment × Int)))
                          = .ok (L ++ [(t, pyDeltaMin target t.arrivalTime)]) := h
                      injection h2 with h3
                      have h4 := congrArg List.dropLast h3
                      rw [List.dropLast_concat] at h4
                      have hL : L = [(t', pyDeltaMin t.enterConnection.depTime
                          (t'.arrivalTime + g.walkTime))] := by
                        simpa using h4.symm
                      subst hL
                      rfl
                  | cons c init3 =>
                      cases c with
                      | trip t2 =>
                          have h2 : Except.bind
                              (changesGo target (Segment.foot g ::
                                Segment.trip t2 :: (init3 ++ [Segment.trip t])))
                              (fun r => (Except.ok
                                ((t', pyDeltaMin t2.enterConnection.depTime
                                  (t'.arrivalTime + g.walkTime)) :: r)
                                : PyRes (List (TripSegment × Int))))
                              = .ok (L ++ [(t, pyDeltaMin target t.arrivalTime)]) := h
                          cases hr : changesGo target (Segment.foot g ::
                              Segment.trip t2 :: (init3 ++ [Segment.trip t])) with
                          | error e =>
                              rw [hr] at h2
                              simp only [Except.bind] at h2
                              exact Except.noConfusion h2
                          | ok r =>
                              rw [hr] at h2
                              simp only [Except.bind] at h2
                              injection h2 with h3
                              have hne : r ≠ [] :=
                                changesGo_ok_ne_nil target _ r ⟨t, by simp⟩ hr
                              rcases cons_eq_concat_split _ _ r L h3 hne with
                                ⟨L0, hL, hr2⟩
                              subst hL
                              have hr' : changesGo target
                                  ((Segment.foot g :: Segment.trip t2 :: init3)
                                    ++ [Segment.trip t])
                                  = .ok (L0 ++ [(t, pyDeltaMin target
                                      t.arrivalTime)]) := by
                                rw [List.cons_append, List.cons_append, hr, hr2]
                              have ihres := ih t f L0 hr'
                              show Except.bind
                                  (changesGo target (Segment.foot g ::
                                    Segment.trip t2 ::
                                    (init3 ++ [Segment.trip t, Segment.foot f])))
                                  (fun r => (Except.ok
                                    ((t', pyDeltaMin t2.enterConnection.depTime
                                      (t'.arrivalTime + g.walkTime)) :: r)
                                    : PyRes (List (TripSegment × Int))))
                                  = .ok (((t', pyDeltaMin
                                        t2.enterConnection.depTime
                                        (t'.arrivalTime + g.walkTime)) :: L0)
                                      ++ [(t, pyDeltaMin target
                                            (t.arrivalTime + f.walkTime))])
                              rw [show changesGo target (Segment.foot g ::
                                    Segment.trip t2 ::
                                    (init3 ++ [Segment.trip t, Segment.foot f]))
                                  = .ok (L0 ++ [(t, pyDeltaMin target
                                        (t.arrivalTime + f.walkTime))])
                                  from by
                                rw [← List.cons_append, ← List.cons_append]
                                exact ihres]
                              simp only [Except.bind]
                              rfl
                      | foot g2 =>
                          have h2 : (Except.error PyErr.attrErr
                              : PyRes (List (TripSegment × Int)))
                              = .ok (L ++ [(t, pyDeltaMin target t.arrivalTime)]) := h
                          exact Except.noConfusion h2

/-- Appending a trip segment to a list ending in a trip followed by a
footpath retargets the final pair's delay to the new trip's departure
(walk included) and adds the new trip's pair. -/
theorem changesGo_concat_foot_trip (target : Int) :
    ∀ (init : List Segment) (t : TripSegment) (f : Footpath) (u : TripSegment)
      (L : List (TripSegment × Int)),
    changesGo target (init ++ [Segment.trip t, Segment.foot f])
      = .ok (L ++ [(t, pyDeltaMin target (t.arrivalTime + f.walkTime))]) →
    changesGo target (init ++ [Segment.trip t, Segment.foot f, Segment.trip u])
      = .ok (L ++ [(t, pyDeltaMin u.enterConnection.depTime
                    (t.arrivalTime + f.walkTime)),
                   (u, pyDeltaMin target u.arrivalTime)]) := by
  intro init
  induction init with
  | nil =>
      intro t f u L h
      have h2 : (Except.ok [(t, pyDeltaMin target (t.arrivalTime + f.walkTime))]
          : PyRes (List (TripSegment × Int)))
          = .ok (L ++ [(t, pyDeltaMin target (t.arrivalTime + f.walkTime))]) := h
      injection h2 with h3
      have h4 := congrArg List.dropLast h3
      rw [List.dropLast_concat] at h4
      have hL : L = [] := by simpa using h4.symm
      subst hL
      rfl
  | cons a init ih =>
      intro t f u L h
      cases a with
      | foot g =>
          have h' : changesGo target (init ++ [Segment.trip t, Segment.foot f])
              = .ok (L ++ [(t, pyDeltaMin target (t.arrivalTime + f.walkTime))]) := h
          have g' := ih t f u L h'
          exact g'
      | trip t' =>
          cases init with
          | nil =>
              have h2 : (Except.ok
                  [(t', pyDeltaMin t.enterConnection.depTime t'.arrivalTime),
                   (t, pyDeltaMin target (t.arrivalTime + f.walkTime))]
                  : PyRes (List (TripSegment × Int)))
                  = .ok (L ++ [(t, pyDeltaMin target
                      (t.arrivalTime + f.walkTime))]) := h
              injection h2 with h3
              have h4 := congrArg List.dropLast h3
              rw [List.dropLast_concat] at h4
              have hL : L
                  = [(t', pyDeltaMin t.enterConnection.depTime t'.arrivalTime)] := by
                simpa using h4.symm
              subst hL
              rfl
          | cons b init2 =>
              cases b with
              | trip t2 =>
                  have h2 : Except.bind
                      (changesGo target (Segment.trip t2 ::
                        (init2 ++ [Segment.trip t, Segment.foot f])))
                      (fun r => (Except.ok
                        ((t', pyDeltaMin t2.enterConnection.depTime
                          t'.arrivalTime) :: r)
                        : PyRes (List (TripSegment × Int))))
                      = .ok (L ++ [(t, pyDeltaMin target
                          (t.arrivalTime + f.walkTime))]) := h
                  cases hr : changesGo target (Segment.trip t2 ::
                      (init2 ++ [Segment.trip t, Segment.foot f])) with
                  | error e =>
                      rw [hr] at h2
                      simp only [Except.bind] at h2
                      exact Except.noConfusion h2
                  | ok r =>
                      rw [hr] at h2
                      simp only [Except.bind] at h2
                      injection h2 with h3
                      have hne : r ≠ [] :=
                        changesGo_ok_ne_nil target _ r ⟨t, by simp⟩ hr
                      rcases cons_eq_concat_split _ _ r L h3 hne with ⟨L0, hL, hr2⟩
                      subst hL
                      have hr' : changesGo target
                          ((Segment.trip t2 :: init2)
                            ++ [Segment.trip t, Segment.foot f])
                          = .ok (L0 ++ [(t, pyDeltaMin target
                              (t.arrivalTime + f.walkTime))]) := by
                        rw [List.cons_append, hr, hr2]
                      have ihres := ih t f u L0 hr'
                      show Except.bind
                          (changesGo target (Segment.trip t2 :: (init2
                            ++ [Segment.trip t, Segment.foot f, Segment.trip u])))
                          (fun r => (Except.ok
                            ((t', pyDeltaMin t2.enterConnection.depTime
                              t'.arrivalTime) :: r)
                            : PyRes (List (TripSegment × Int))))
                          = .ok (((t', pyDeltaMin t2.enterConnection.depTime
                                t'.arrivalTime) :: L0)
                              ++ [(t, pyDeltaMin u.enterConnection.depTime
                                    (t.arrivalTime + f.walkTime)),
                                  (u, pyDeltaMin target u.arrivalTime)])
                      rw [show changesGo target (Segment.trip t2 :: (init2
                            ++ [Segment.trip t, Segment.foot f, Segment.trip u]))
                          = .ok (L0 ++ [(t, pyDeltaMin
                                u.enterConnection.depTime
                                (t.arrivalTime + f.walkTime)),
                              (u, pyDeltaMin target u.arrivalTime)]) from by
                        rw [← List.cons_append]
                        exact ihres]
                      simp only [Except.bind]
                      rfl
              | foot g =>
                  cases init2 with
                  | nil =>
                      have h2 : (Except.ok
                          [(t', pyDeltaMin t.enterConnection.depTime
                            (t'.arrivalTime + g.walkTime)),
                           (t, pyDeltaMin target (t.arrivalTime + f.walkTime))]
                          : PyRes (List (TripSegment × Int)))
                          = .ok (L ++ [(t, pyDeltaMin target
                              (t.arrivalTime + f.walkTime))]) := h
                      injection h2 with h3
                      have h4 := congrArg List.dropLast h3
                      rw [List.dropLast_concat] at h4
                      have hL : L = [(t', pyDeltaMin t.enterConnection.depTime
                          (t'.arrivalTime + g.walkTime))] := by
                        simpa using h4.symm
                      subst hL
                      rfl
                  | cons c init3 =>
                      cases c with
                      | trip t2 =>
                          have h2 : Except.bind
                              (changesGo target (Segment.foot g ::
                                Segment.trip t2 ::
                                (init3 ++ [Segment.trip t, Segment.foot f])))
                              (fun r => (Except.ok
                                ((t', pyDeltaMin t2.enterConnection.depTime
                                  (t'.arrivalTime + g.walkTime)) :: r)
                                : PyRes (List (TripSegment × Int))))
                              = .ok (L ++ [(t, pyDeltaMin target
                                  (t.arrivalTime + f.walkTime))]) := h
                          cases hr : changesGo target (Segment.foot g ::
                              Segment.trip t2 ::
                              (init3 ++ [Segment.trip t, Segment.foot f])) with
                          | error e =>
                              rw [hr] at h2
                              simp only [Except.bind] at h2
                              exact Except.noConfusion h2
                          | ok r =>
                              rw [hr] at h2
                              simp only [Except.bind] at h2
                              injection h2 with h3
                              have hne : r ≠ [] :=
                                changesGo_ok_ne_nil target _ r ⟨t, by simp⟩ hr
                              rcases cons_eq_concat_split _ _ r L h3 hne with
                                ⟨L0, hL, hr2⟩
                              subst hL
                              have hr' : changesGo target
                                  ((Segment.foot g :: Segment.trip t2 :: init3)
                                    ++ [Segment.trip t, Segment.foot f])
                                  = .ok (L0 ++ [(t, pyDeltaMin target
                                      (t.arrivalTime + f.walkTime))]) := by
                                rw [List.cons_append, List.cons_append, hr, hr2]
                              have ihres := ih t f u L0 hr'
                              show Except.bind
                                  (changesGo target (Segment.foot g ::
                                    Segment.trip t2 :: (init3
                                    ++ [Segment.trip t, Segment.foot f,
                                        Segment.trip u])))
                                  (fun r => (Except.ok
                                    ((t', pyDeltaMin t2.enterConnection.depTime
                                      (t'.arrivalTime + g.walkTime)) :: r)
                                    : PyRes (List (TripSegment × Int))))
                                  = .ok (((t', pyDeltaMin
                                        t2.enterConnection.depTime
                                        (t'.arrivalTime + g.walkTime)) :: L0)
                                      ++ [(t, pyDeltaMin
                                            u.enterConnection.depTime
                                            (t.arrivalTime + f.walkTime)),
                                          (u, pyDeltaMin target u.arrivalTime)])
                              rw [show changesGo target (Segment.foot g ::
                                    Segment.trip t2 :: (init3
                                    ++ [Segment.trip t, Segment.foot f,
                                        Segment.trip u]))
                                  = .ok (L0 ++ [(t, pyDeltaMin
                                        u.enterConnection.depTime
                                        (t.arrivalTime + f.walkTime)),
                                      (u, pyDeltaMin target u.arrivalTime)])
                                  from by
                                rw [← List.cons_append, ← List.cons_append]
                                exact ihres]
                              simp only [Except.bind]
                              rfl
                      | foot g2 =>
                          have h2 : (Except.error PyErr.attrErr
                              : PyRes (List (TripSegment × Int)))
                              = .ok (L ++ [(t, pyDeltaMin target
                                  (t.arrivalTime + f.walkTime))]) := h
                          exact Except.noConfusion h2

/-- Building a journey by repeatedly calling `add_segment_to_journey`, as
`follow_path` does along one branch of its recursion. -/
def buildFold (j0 : Journey) : List Segment → PyRes Journey
  | [] => .ok j0
  | s :: ss => do
      let j1 ← addSegmentToJourney j0 s
      buildFold j1 ss

/-- Segment lists as `follow_path` produces them along one branch: no two
consecutive footpaths, and a footpath into the journey's arrival stop only
as the very last segment. -/
def segsOk (arrStop : Nat) : List Segment → Prop
  | [] => True
  | Segment.trip _ :: rest => segsOk arrStop rest
  | [Segment.foot _] => True
  | Segment.foot g :: s2 :: rest =>
      g.arrStop ≠ arrStop ∧ (∀ g2, s2 ≠ Segment.foot g2)
      ∧ segsOk arrStop (s2 :: rest)

/-- The penultimate entry of a list ending in a trip followed by a
footpath. -/
theorem penult_append_pair (init : List Segment) (t : TripSegment)
    (f : Footpath) :
    (init ++ [Segment.trip t, Segment.foot f]).get?
      ((init ++ [Segment.trip t, Segment.foot f]).length - 2)
      = some (Segment.trip t) := by
  rw [List.get?_eq_getElem?]
  have hlen : (init ++ [Segment.trip t, Segment.foot f]).length
      = init.length + 2 := by simp
  rw [hlen]
  have h2 : init.length + 2 - 2 = init.length := by omega
  rw [h2, List.getElem?_append_right (Nat.le_refl _)]
  simp

/-- Value of `current_arrival_time` for an unprimed memo, a footpath at the
tail and a trip before it. -/
theorem cat_unprimed_foot_penult_trip (j : Journey)
    (hm : j.arrTimeMemo = (false, none))
    (f : Footpath) (hlast : j.journeySegments.getLast? = some (.foot f))
    (hlen : j.journeySegments.length ≠ 1)
    (t : TripSegment)
    (hpen : j.journeySegments.get? (j.journeySegments.length - 2)
      = some (.trip t)) :
    j.currentArrivalTimeVal = .ok (some (t.arrivalTime + f.walkTime)) := by
  have hpen2 : j.journeySegments[j.journeySegments.length - 2]?
      = some (Segment.trip t) := by simpa using hpen
  simp [Journey.currentArrivalTimeVal, hm, hlast, hlen, hpen2]

/-- Invariant relating the incrementally-maintained success probability of
a journey built through `add_segment_to_journey` to the pair list of
`changes()`: the product over all pairs except the final one equals the
stored probability (the final pair's factor is the slack to the target
arrival and has not been applied), and a lone mid-journey footpath leaves
the probability untouched. -/
def c3inv (j : Journey) : Prop :=
  (j.journeySegments = [] ∧ j.chanceOfSuccess = 1
    ∧ j.currentArrivalTimeVal = .ok none)
  ∨ (∃ init t, j.journeySegments = init ++ [Segment.trip t]
     ∧ j.currentArrivalTimeVal = .ok (some t.arrivalTime)
     ∧ ∃ L, changesGo j.targetArrivalTime j.journeySegments
         = .ok (L ++ [(t, pyDeltaMin j.targetArrivalTime t.arrivalTime)])
       ∧ prodM j.delayDistributions L = .ok j.chanceOfSuccess)
  ∨ (∃ init t f, j.journeySegments
        = init ++ [Segment.trip t, Segment.foot f]
     ∧ f.arrStop ≠ j.arrivalStop
     ∧ j.currentArrivalTimeVal = .ok (some (t.arrivalTime + f.walkTime))
     ∧ ∃ L, changesGo j.targetArrivalTime j.journeySegments
         = .ok (L ++ [(t, pyDeltaMin j.targetArrivalTime
             (t.arrivalTime + f.walkTime))])
       ∧ prodM j.delayDistributions L = .ok j.chanceOfSuccess)
  ∨ (∃ f, j.journeySegments = [Segment.foot f] ∧ f.arrStop ≠ j.arrivalStop
     ∧ j.chanceOfSuccess = 1 ∧ j.currentArrivalTimeVal = .ok none)

/-- Extending a built journey by a trip segment preserves the probability
accounting invariant. -/
theorem c3_step_trip (j : Journey) (u : TripSegment) (j2 : Journey)
    (hinv : c3inv j) (hok : addSegmentToJourney j (.trip u) = .ok j2) :
    c3inv j2 := by
  rcases addSegment_ok_fields j _ j2 hok with ⟨pa, hpa, rfl⟩
  rcases hinv with ⟨hsegs, hprob1, hcat⟩ | ⟨init, t, hsegs, hcat, L, hch, hprod⟩ |
    ⟨init, t, f, hsegs, hfne, hcat, L, hch, hprod⟩ |
    ⟨f, hsegs, hfne, hprob1, hcat⟩
  · simp only [addSegmentProbArrival, hcat, bind, Except.bind, pure,
      Except.pure] at hpa
    injection hpa with hpa2
    subst hpa2
    right; left
    refine ⟨[], u, ?_, ?_, [], ?_, ?_⟩
    · show j.journeySegments ++ [Segment.trip u] = [] ++ [Segment.trip u]
      rw [hsegs]
    · simp [Journey.currentArrivalTimeVal, Journey.make]
    · show changesGo j.targetArrivalTime
          (j.journeySegments ++ [Segment.trip u]) = _
      rw [hsegs]
      rfl
    · show prodM j.delayDistributions [] = .ok j.successProbability
      have hp : j.successProbability = 1 := hprob1
      rw [hp]
      rfl
  · have hlast : j.journeySegments.getLast? = some (Segment.trip t) := by
      rw [hsegs, List.getLast?_concat]
    simp only [addSegmentProbArrival, hcat, hlast, bind, Except.bind, pure,
      Except.pure] at hpa
    cases hD : lookupDistribution j.delayDistributions t.delayDistributionId with
    | error e =>
        simp only [hD] at hpa
        exact Except.noConfusion hpa
    | ok D =>
        simp only [hD] at hpa
        cases hc : D.cdf (pyDeltaMin u.departureTime t.arrivalTime) with
        | error e =>
            simp only [hc] at hpa
            exact Except.noConfusion hpa
        | ok c =>
            simp only [hc] at hpa
            injection hpa with hpa2
            subst hpa2
            right; left
            refine ⟨init ++ [Segment.trip t], u, ?_, ?_,
              L ++ [(t, pyDeltaMin u.enterConnection.depTime t.arrivalTime)],
              ?_, ?_⟩
            · show j.journeySegments ++ [Segment.trip u]
                  = (init ++ [Segment.trip t]) ++ [Segment.trip u]
              rw [hsegs]
            · simp [Journey.currentArrivalTimeVal, Journey.make]
            · show changesGo j.targetArrivalTime
                  (j.journeySegments ++ [Segment.trip u]) = _
              rw [hsegs] at hch ⊢
              have hA := changesGo_concat_trip j.targetArrivalTime init t u L hch
              show changesGo j.targetArrivalTime
                  ((init ++ [Segment.trip t]) ++ [Segment.trip u]) = _
              rw [List.append_assoc, List.append_assoc]
              exact hA
            · show prodM j.delayDistributions
                  (L ++ [(t, pyDeltaMin u.enterConnection.depTime
                    t.arrivalTime)])
                  = .ok (j.successProbability * c)
              exact prodM_concat j.delayDistributions L _ _ D c hprod hD hc
  · have hlast : j.journeySegments.getLast? = some (Segment.foot f) := by
      rw [hsegs, show init ++ [Segment.trip t, Segment.foot f]
        = (init ++ [Segment.trip t]) ++ [Segment.foot f] from by simp,
        List.getLast?_concat]
    have hpen : j.journeySegments.get? (j.journeySegments.length - 2)
        = some (Segment.trip t) := by
      rw [hsegs]
      exact penult_append_pair init t f
    simp only [addSegmentProbArrival, hcat, hlast, hpen, bind, Except.bind,
      pure, Except.pure] at hpa
    cases hD : lookupDistribution j.delayDistributions t.delayDistributionId with
    | error e =>
        simp only [hD] at hpa
        exact Except.noConfusion hpa
    | ok D =>
        simp only [hD] at hpa
        cases hc : D.cdf (pyDeltaMin u.departureTime
            (t.arrivalTime + f.walkTime)) with
        | error e =>
            simp only [hc] at hpa
            exact Except.noConfusion hpa
        | ok c =>
            simp only [hc] at hpa
            injection hpa with hpa2
            subst hpa2
            right; left
            refine ⟨init ++ [Segment.trip t, Segment.foot f], u, ?_, ?_,
              L ++ [(t, pyDeltaMin u.enterConnection.depTime
                (t.arrivalTime + f.walkTime))], ?_, ?_⟩
            · show j.journeySegments ++ [Segment.trip u]
                  = (init ++ [Segment.trip t, Segment.foot f])
                    ++ [Segment.trip u]
              rw [hsegs]
            · simp [Journey.currentArrivalTimeVal, Journey.make]
            · show changesGo j.targetArrivalTime
                  (j.journeySegments ++ [Segment.trip u]) = _
              rw [hsegs] at hch ⊢
              have hC := changesGo_concat_foot_trip j.targetArrivalTime init
                t f u L hch
              rw [List.append_assoc, List.append_assoc]
              exact hC
            · show prodM j.delayDistributions
                  (L ++ [(t, pyDeltaMin u.enterConnection.depTime
                    (t.arrivalTime + f.walkTime))])
                  = .ok (j.successProbability * c)
              exact prodM_concat j.delayDistributions L _ _ D c hprod hD hc
  · simp only [addSegmentProbArrival, hcat, bind, Except.bind, pure,
      Except.pure] at hpa
    injection hpa with hpa2
    subst hpa2
    right; left
    refine ⟨[Segment.foot f], u, ?_, ?_, [], ?_, ?_⟩
    · show j.journeySegments ++ [Segment.trip u]
          = [Segment.foot f] ++ [Segment.trip u]
      rw [hsegs]
    · simp [Journey.currentArrivalTimeVal, Journey.make]
    · show changesGo j.targetArrivalTime
          (j.journeySegments ++ [Segment.trip u]) = _
      rw [hsegs]
      rfl
    · show prodM j.delayDistributions [] = .ok j.successProbability
      have hp : j.successProbability = 1 := hprob1
      rw [hp]
      rfl

/-- Value of `current_arrival_time` for an unprimed memo and a lone
footpath short of the arrival stop. -/
theorem cat_unprimed_single_foot_not_dest (j2 : Journey)
    (hm : j2.arrTimeMemo = (false, none))
    (g : Footpath) (hsegs2 : j2.journeySegments = [Segment.foot g])
    (hne : g.arrStop ≠ j2.arrivalStop) :
    j2.currentArrivalTimeVal = .ok none := by
  have hlast2 : j2.journeySegments.getLast? = some (Segment.foot g) := by
    rw [hsegs2]
    rfl
  have hlen2 : j2.journeySegments.length = 1 := by
    rw [hsegs2]
    rfl
  have hreach : j2.reachedDestination = false := by
    unfold Journey.reachedDestination Journey.currentArrivalStop
    rw [hlast2]
    exact decide_eq_false hne
  simp [Journey.currentArrivalTimeVal, hm, hlast2, hlen2, hreach]

/-- Extending a built journey by a footpath short of the arrival stop
preserves the probability accounting invariant, provided the journey does
not already end in a footpath. -/
theorem c3_step_foot_mid (j : Journey) (g : Footpath) (j2 : Journey)
    (hinv : c3inv j) (hgne : g.arrStop ≠ j.arrivalStop)
    (hnotfoot : ∀ f' : Footpath,
      j.journeySegments.getLast? ≠ some (.foot f'))
    (hok : addSegmentToJourney j (.foot g) = .ok j2) :
    c3inv j2 := by
  rcases addSegment_ok_fields j _ j2 hok with ⟨pa, hpa, rfl⟩
  simp only [addSegmentProbArrival] at hpa
  rw [if_neg hgne] at hpa
  simp only [pure, Except.pure] at hpa
  injection hpa with hpa2
  subst hpa2
  rcases hinv with ⟨hsegs, hprob1, _hcat⟩ | ⟨init, t, hsegs, _hcat, L, hch, hprod⟩ |
    ⟨init, t, f, hsegs, _, _, _, _⟩ | ⟨f, hsegs, _, _, _⟩
  · right; right; right
    refine ⟨g, ?_, ?_, ?_, ?_⟩
    · show j.journeySegments ++ [Segment.foot g] = [Segment.foot g]
      rw [hsegs]
      rfl
    · exact hgne
    · show j.successProbability = 1
      exact hprob1
    · refine cat_unprimed_single_foot_not_dest _ (by simp [Journey.make]) g
        ?_ hgne
      show j.journeySegments ++ [Segment.foot g] = [Segment.foot g]
      rw [hsegs]
      rfl
  · right; right; left
    refine ⟨init, t, g, ?_, hgne, ?_, L, ?_, ?_⟩
    · show j.journeySegments ++ [Segment.foot g]
          = init ++ [Segment.trip t, Segment.foot g]
      rw [hsegs]
      simp
    · refine cat_unprimed_foot_penult_trip _ (by simp [Journey.make]) g ?_ ?_ t ?_
      · show (j.journeySegments ++ [Segment.foot g]).getLast? = _
        rw [List.getLast?_concat]
      · show (j.journeySegments ++ [Segment.foot g]).length ≠ 1
        rw [hsegs]
        simp
      · show (j.journeySegments ++ [Segment.foot g]).get?
            ((j.journeySegments ++ [Segment.foot g]).length - 2) = _
        rw [hsegs, show (init ++ [Segment.trip t]) ++ [Segment.foot g]
          = init ++ [Segment.trip t, Segment.foot g] from by simp]
        exact penult_append_pair init t g
    · show changesGo j.targetArrivalTime
          (j.journeySegments ++ [Segment.foot g]) = _
      rw [hsegs] at hch ⊢
      have hB := changesGo_concat_foot j.targetArrivalTime init t g L hch
      rw [List.append_assoc]
      exact hB
    · show prodM j.delayDistributions L = .ok j.successProbability
      exact hprod
  · exact absurd (by
      rw [hsegs, show init ++ [Segment.trip t, Segment.foot f]
        = (init ++ [Segment.trip t]) ++ [Segment.foot f] from by simp,
        List.getLast?_concat]) (hnotfoot f)
  · exact absurd (by
      rw [hsegs]
      rfl) (hnotfoot f)

/-- Extending a built journey by a footpath into the arrival stop — the
walk that ends a reconstruction branch — makes the stored probability
equal to the full product over `changes()`. -/
theorem c3_final_walk (j : Journey) (g : Footpath) (j2 : Journey)
    (hinv : c3inv j) (hgeq : g.arrStop = j.arrivalStop)
    (hok : addSegmentToJourney j (.foot g) = .ok j2) :
    j2.changesProduct = .ok j2.chanceOfSuccess := by
  rcases addSegment_ok_fields j _ j2 hok with ⟨pa, hpa, rfl⟩
  simp only [addSegmentProbArrival] at hpa
  rw [if_pos hgeq] at hpa
  rcases hinv with ⟨hsegs, hprob1, hcat⟩ | ⟨init, t, hsegs, hcat, L, hch, hprod⟩ |
    ⟨init, t, f, hsegs, _hfne, hcat, L, hch, hprod⟩ |
    ⟨f, hsegs, _hfne, hprob1, hcat⟩
  · simp only [hcat, bind, Except.bind, pure, Except.pure] at hpa
    injection hpa with hpa2
    subst hpa2
    have hch2 : changesGo j.targetArrivalTime
        (j.journeySegments ++ [Segment.foot g]) = .ok [] := by
      rw [hsegs]
      rfl
    show (do
      let cs ← changesGo j.targetArrivalTime
        (j.journeySegments ++ [Segment.foot g])
      prodM j.delayDistributions cs) = .ok j.successProbability
    rw [hch2]
    simp only [bind, Except.bind]
    have hp : j.successProbability = 1 := hprob1
    rw [hp]
    rfl
  · have hlast : j.journeySegments.getLast? = some (Segment.trip t) := by
      rw [hsegs, List.getLast?_concat]
    simp only [hcat, hlast, bind, Except.bind, pure, Except.pure] at hpa
    cases hD : lookupDistribution j.delayDistributions t.delayDistributionId with
    | error e =>
        simp only [hD] at hpa
        exact Except.noConfusion hpa
    | ok D =>
        simp only [hD] at hpa
        cases hc : D.cdf (pyDeltaMin j.targetArrivalTime
            (t.arrivalTime + g.walkTime)) with
        | error e =>
            simp only [hc] at hpa
            exact Except.noConfusion hpa
        | ok c =>
            simp only [hc] at hpa
            injection hpa with hpa2
            subst hpa2
            show (do
              let cs ← changesGo j.targetArrivalTime
                (j.journeySegments ++ [Segment.foot g])
              prodM j.delayDistributions cs)
              = .ok (j.successProbability * c)
            rw [hsegs] at hch
            have hB := changesGo_concat_foot j.targetArrivalTime init t g L hch
            rw [hsegs, show (init ++ [Segment.trip t]) ++ [Segment.foot g]
              = init ++ [Segment.trip t, Segment.foot g] from by simp, hB]
            simp only [bind, Except.bind]
            exact prodM_concat j.delayDistributions L _ _ D c hprod hD hc
  · have hlast : j.journeySegments.getLast? = some (Segment.foot f) := by
      rw [hsegs, show init ++ [Segment.trip t, Segment.foot f]
        = (init ++ [Segment.trip t]) ++ [Segment.foot f] from by simp,
        List.getLast?_concat]
    simp only [hcat, hlast, bind, Except.bind, pure, Except.pure] at hpa
    exact Except.noConfusion hpa
  · simp only [hcat, bind, Except.bind, pure, Except.pure] at hpa
    injection hpa with hpa2
    subst hpa2
    have hch2 : changesGo j.targetArrivalTime
        (j.journeySegments ++ [Segment.foot g]) = .ok [] := by
      rw [hsegs]
      rfl
    show (do
      let cs ← changesGo j.targetArrivalTime
        (j.journeySegments ++ [Segment.foot g])
      prodM j.delayDistributions cs) = .ok j.successProbability
    rw [hch2]
    simp only [bind, Except.bind]
    have hp : j.successProbability = 1 := hprob1
    rw [hp]
    rfl

/-- The probability accounting invariant along a whole build. -/
theorem buildFold_c3 :
    ∀ (segs : List Segment) (j0 j : Journey),
    c3inv j0 →
    segsOk j0.arrivalStop segs →
    (∀ g : Footpath, j0.journeySegments.getLast? = some (Segment.foot g) →
      ∀ (g2 : Footpath) (rest : List Segment),
        segs ≠ Segment.foot g2 :: rest) →
    buildFold j0 segs = .ok j →
    c3inv j
    ∨ (∃ g : Footpath, j.journeySegments.getLast? = some (Segment.foot g)
        ∧ j.changesProduct = .ok j.chanceOfSuccess) := by
  intro segs
  induction segs with
  | nil =>
      intro j0 j hinv _ _ hb
      have hb2 : (Except.ok j0 : PyRes Journey) = .ok j := hb
      injection hb2 with h2
      subst h2
      exact Or.inl hinv
  | cons s rest ih =>
      intro j0 j hinv hsok hbound hb
      have hb2 : Except.bind (addSegmentToJourney j0 s)
          (fun j1 => buildFold j1 rest) = .ok j := hb
      cases hstep : addSegmentToJourney j0 s with
      | error e =>
          rw [hstep] at hb2
          simp only [Except.bind] at hb2
          exact Except.noConfusion hb2
      | ok j1 =>
          rw [hstep] at hb2
          simp only [Except.bind] at hb2
          rcases addSegment_ok_basics j0 s j1 hstep with
            ⟨hsegs1, harr1, _, _, _, _⟩
          cases s with
          | trip u =>
              have hinv1 : c3inv j1 := c3_step_trip j0 u j1 hinv hstep
              have hsok1 : segsOk j1.arrivalStop rest := by
                rw [harr1]
                exact hsok
              refine ih j1 j hinv1 hsok1 ?_ hb2
              intro g' hg' g2 rest2 _hre
              rw [hsegs1, List.getLast?_concat] at hg'
              injection hg' with h3
              exact Segment.noConfusion h3
          | foot g =>
              by_cases hdest : g.arrStop = j0.arrivalStop
              · cases rest with
                | nil =>
                    have hb3 : (Except.ok j1 : PyRes Journey) = .ok j := hb2
                    injection hb3 with h2
                    subst h2
                    right
                    refine ⟨g, ?_, c3_final_walk j0 g j1 hinv hdest hstep⟩
                    rw [hsegs1, List.getLast?_concat]
                | cons s2 rest2 =>
                    exact absurd hdest hsok.1
              · have hnotfoot : ∀ f' : Footpath,
                    j0.journeySegments.getLast? ≠ some (.foot f') := by
                  intro f' hf'
                  exact hbound f' hf' g rest rfl
                have hinv1 : c3inv j1 :=
                  c3_step_foot_mid j0 g j1 hinv hdest hnotfoot hstep
                have hsok1 : segsOk j1.arrivalStop rest := by
                  rw [harr1]
                  cases rest with
                  | nil => trivial
                  | cons s2 rest2 => exact hsok.2.2
                refine ih j1 j hinv1 hsok1 ?_ hb2
                intro g' hg' g2 rest2 hre
                subst hre
                exact hsok.2.1 g2 rfl

/-- C3 (corrected): for a journey built through `add_segment_to_journey`
from an empty journey along a reconstruction-shaped segment list, the
incrementally-maintained `success_probability()` equals the product over
`changes()` of each segment's delay distribution's cdf at the pair's
maximum delay when the journey ends with a walk into the arrival stop; but
when the journey ends in a TripSegment the product over `changes()` equals
`success_probability()` times one further cdf factor — the final
segment's slack to the target arrival — so the claimed equality fails for
trip-ending journeys with a non-trivial final factor. -/
theorem success_probability_vs_changes_product
    (dep arr : Nat) (coord : ℚ × ℚ × ℚ × ℚ) (target minCo : Int)
    (dds : Nat → Option Distribution) (segs : List Segment) (j : Journey)
    (hsok : segsOk arr segs)
    (hb : buildFold (Journey.make dep arr coord [] target minCo dds none
      (some 1)) segs = .ok j) :
    (∀ g : Footpath, j.journeySegments.getLast? = some (.foot g) →
      g.arrStop = j.arrivalStop → j.changesProduct = .ok j.chanceOfSuccess)
    ∧ (∀ t : TripSegment, j.journeySegments.getLast? = some (.trip t) →
      ∀ (D : Distribution) (c : ℚ),
        lookupDistribution j.delayDistributions t.delayDistributionId
          = .ok D →
        D.cdf (pyDeltaMin j.targetArrivalTime t.arrivalTime) = .ok c →
        j.changesProduct = .ok (j.chanceOfSuccess * c)) := by
  have hstart : c3inv (Journey.make dep arr coord [] target minCo dds none
      (some 1)) :=
    Or.inl ⟨rfl, rfl, rfl⟩
  have hbound : ∀ g : Footpath,
      (Journey.make dep arr coord [] target minCo dds none
        (some 1)).journeySegments.getLast? = some (.foot g) →
      ∀ (g2 : Footpath) (rest : List Segment),
        segs ≠ Segment.foot g2 :: rest := by
    intro g hg g2 rest
    exact Option.noConfusion hg
  rcases buildFold_c3 segs _ j hstart hsok hbound hb with hinv |
    ⟨gg, hlastg, hprodg⟩
  · constructor
    · intro g hlast hgarr
      rcases hinv with ⟨hsegs, _, _⟩ | ⟨init, t, hsegs, _, _⟩ |
        ⟨init, t, f, hsegs, hfne, _, _⟩ | ⟨f, hsegs, hfne, _, _⟩
      · rw [hsegs] at hlast
        cases hlast
      · rw [hsegs, List.getLast?_concat] at hlast
        injection hlast with h3
        exact Segment.noConfusion h3
      · rw [hsegs, show init ++ [Segment.trip t, Segment.foot f]
          = (init ++ [Segment.trip t]) ++ [Segment.foot f] from by simp,
          List.getLast?_concat] at hlast
        injection hlast with h3
        injection h3 with h4
        subst h4
        exact absurd hgarr hfne
      · rw [hsegs] at hlast
        have hlast2 : some (Segment.foot f) = some (Segment.foot g) := hlast
        injection hlast2 with h3
        injection h3 with h4
        subst h4
        exact absurd hgarr hfne
    · intro t hlast D c hD hc
      rcases hinv with ⟨hsegs, _, _⟩ | ⟨init, t', hsegs, _, L, hch, hprod⟩ |
        ⟨init, t', f, hsegs, _, _, _, _⟩ | ⟨f, hsegs, _, _, _⟩
      · rw [hsegs] at hlast
        cases hlast
      · rw [hsegs, List.getLast?_concat] at hlast
        injection hlast with h3
        injection h3 with h4
        subst h4
        show (do
          let cs ← changesGo j.targetArrivalTime j.journeySegments
          prodM j.delayDistributions cs) = .ok (j.chanceOfSuccess * c)
        rw [hch]
        simp only [bind, Except.bind]
        exact prodM_concat j.delayDistributions L _ _ D c hprod hD hc
      · rw [hsegs, show init ++ [Segment.trip t', Segment.foot f]
          = (init ++ [Segment.trip t']) ++ [Segment.foot f] from by simp,
          List.getLast?_concat] at hlast
        injection hlast with h3
        exact Segment.noConfusion h3
      · rw [hsegs] at hlast
        have hlast2 : some (Segment.foot f) = some (Segment.trip t) := hlast
        injection hlast2 with h3
        exact Segment.noConfusion h3
  · constructor
    · intro g _ _
      exact hprodg
    · intro t hlast D c _ _
      rw [hlastg] at hlast
      injection hlast with h3
      exact Segment.noConfusion h3

/-- The single-trip journey of scenario W, built by one
`add_segment_to_journey` call. -/
def jT : List Segment → Journey := fun segs =>
  (buildFold (Journey.make 0 2 (0, 0, 0, 0) [] 60 1 ddW none (some 1))
    segs).toOption.getD
    (Journey.make 0 2 (0, 0, 0, 0) [] 60 1 ddW none (some 1))

section

attribute [local semireducible] Rat.mul Rat.add Rat.inv Rat.sub

/-- Counterexample to the original C3 claim: the journey consisting of the
single boarded trip of scenario W has stored success probability 1, but
the product over its `changes()` — which includes the final segment's
slack to the target arrival — is 1/2. -/
theorem trip_tail_probability_misses_final_factor :
    buildFold (Journey.make 0 2 (0, 0, 0, 0) [] 60 1 ddW none (some 1))
      [Segment.trip ⟨connW, connW⟩] = .ok (jT [Segment.trip ⟨connW, connW⟩])
    ∧ (jT [Segment.trip ⟨connW, connW⟩]).chanceOfSuccess = 1
    ∧ (jT [Segment.trip ⟨connW, connW⟩]).changesProduct = .ok ((1 : ℚ)/2)
    ∧ ((1 : ℚ)/2) ≠ 1 := by
  refine ⟨rfl, rfl, rfl, ?_⟩
  norm_num

/-- Witness for C3 on scenario W's two-segment build ending with the walk
into the destination: the hypotheses hold concretely and the stored
probability equals the product over `changes()`. -/
theorem success_probability_vs_changes_product_witness :
    segsOk 2 [Segment.trip ⟨connW, connW⟩, Segment.foot footW]
    ∧ buildFold (Journey.make 0 2 (0, 0, 0, 0) [] 60 1 ddW none (some 1))
        [Segment.trip ⟨connW, connW⟩, Segment.foot footW]
        = .ok (jT [Segment.trip ⟨connW, connW⟩, Segment.foot footW])
    ∧ (jT [Segment.trip ⟨connW, connW⟩,
        Segment.foot footW]).journeySegments.getLast?
        = some (.foot footW)
    ∧ footW.arrStop
        = (jT [Segment.trip ⟨connW, connW⟩, Segment.foot footW]).arrivalStop
    ∧ (jT [Segment.trip ⟨connW, connW⟩, Segment.foot footW]).changesProduct
        = .ok (jT [Segment.trip ⟨connW, connW⟩,
            Segment.foot footW]).chanceOfSuccess :=
  ⟨trivial, rfl, rfl, rfl,
   (success_probability_vs_changes_product 0 2 (0, 0, 0, 0) 60 1 ddW
     [Segment.trip ⟨connW, connW⟩, Segment.foot footW]
     (jT [Segment.trip ⟨connW, connW⟩, Segment.foot footW])
     trivial rfl).1 footW rfl rfl⟩

end
